import Mathlib

/-!
Shallow embedding of the canonical Huffman coder in `src/huffman.c`
(the single-file revision `src/unnamed/part_002`), together with proofs
of the specification's claims about it.

Modelling conventions:
* A C byte buffer (`unsigned char *` plus an allocated size) is a `List Nat`
  whose length is the allocated byte count and whose elements are the byte
  values (kept below 256 by construction).  `malloc`-ed bytes are modelled
  as 0; only positions the code writes before reading are relevant to the
  claims, except where a claim is precisely about an out-of-bounds access,
  in which case the access positions are instrumented and returned.
* `List.set` is a no-op out of bounds and `List.getD` returns the default:
  this is the benign counterpart of a C out-of-bounds access.  Claims about
  memory safety never rely on the benign value; they talk about the recorded
  access positions.
* C `char` is signed on the build's target (gcc, x86-64 Linux, no
  `-funsigned-char`).  A char variable holding byte `c` compares as
  `signedChar c` and converts to `unsigned int` as `uintOfChar c`.
* `size_t` values stay far below `2^64` in every reachable state that the
  claims mention, and are modelled as `Nat`; the `uint64_t` canonical-code
  accumulators are modelled with an explicit `% 2^64`.
* Failure is explicit: functions whose C counterpart can abort (a failed
  `assert`) return `Option`; status codes are returned as values.
* `exit`/`printf`/`free` and the `DEBUG` printing macros have no observable
  effect on the values the claims are about and are not modelled.
-/

set_option maxHeartbeats 1000000

namespace Huff

/-- Number of bits per byte on the target (limits.h `CHAR_BIT`). -/
def CHAR_BIT : Nat := 8

/-- Number of distinct `char` values (`MAX_CHAR` in huffman.h). -/
def MAX_CHAR : Nat := 256

/-- Status codes.  `src/huffman.h` as shipped is an older revision that pins
`_STATUS_CODE_TREE_FAIL = 1`, `_STATUS_CODE_HEADER_FAIL = 2` and
`_STATUS_CODE_HEADER_CORRUPT = 3`; the header revision matching
`src/unnamed/part_002` (which also names ALLOC_FAIL and the NOT_EMPTY guards)
is not among the sources.  Modelled from the spec: each failure kind is a
distinct positive value, as required by the `status > 0` checks in the code. -/
def STATUS_CODE_TREE_FAIL : Nat := 1

/-- Status code for a failed header encoding (see `STATUS_CODE_TREE_FAIL`). -/
def STATUS_CODE_HEADER_FAIL : Nat := 2

/-- Status code reported for a corrupt header (see `STATUS_CODE_TREE_FAIL`). -/
def STATUS_CODE_HEADER_CORRUPT : Nat := 3

/-- Status code for a failed allocation (see `STATUS_CODE_TREE_FAIL`). -/
def STATUS_CODE_ALLOC_FAIL : Nat := 4

/-- Guard status of `build_alphabet` / `huffman_decode_alphabet`. -/
def STATUS_CODE_ALPHABET_NOT_EMPTY : Nat := 5

/-- Guard status of `huffman_encode_message`. -/
def STATUS_CODE_ENCODED_MESSAGE_NOT_EMPTY : Nat := 6

/-- Guard status of `create_alphabet_code_tree`. -/
def STATUS_CODE_ALPHABET_CODE_TREE_NOT_EMPTY : Nat := 7

/-- Guard status of `huffman_decode_message`. -/
def STATUS_CODE_DECODED_MESSAGE_NOT_EMPTY : Nat := 8

/-- Value of a (signed) C `char` whose object representation is the byte `c`. -/
def signedChar (c : Nat) : Int :=
  if c < 128 then (c : Int) else (c : Int) - 256

/-- Value of `(unsigned int)ch` where the `char` `ch` holds byte `c`
(integer promotion to `int`, then conversion to 32-bit `unsigned int`). -/
def uintOfChar (c : Nat) : Nat :=
  if c < 128 then c else 4294967296 - (256 - c)

/-- Struct `BitMessage`: a bit sequence backed by a byte buffer.  `data` is
the allocated buffer (its length is the allocated byte count). -/
structure BitMessage where
  data : List Nat
  nbits : Nat
  nbytes : Nat
deriving DecidableEq, Repr

/-- A `BitMessage` with `data = NULL` and zeroed counters, the state callers
initialise with.  (`data = []` models the null pointer: every buffer the
code allocates has at least one byte.) -/
def emptyBitMessage : BitMessage := ⟨[], 0, 0⟩

/-- C function `get_bit_message_value`: bit `pos` of the buffer, MSB-first
inside each byte. -/
def get_bit_message_value (m : BitMessage) (pos : Nat) : Nat :=
  (m.data.getD (pos / CHAR_BIT) 0 >>> ((CHAR_BIT - 1) - pos % CHAR_BIT)) &&& 1

/-- C function `add_one_bit_message_value`: writes bit value `value` at
position `nbits` (byte `nbits / 8`, without extending the allocation) and
bumps the counters.  `byte &= ~(1 << k)` on an `unsigned char` equals
`byte &&& (255 ^^^ (1 <<< k))` for bytes below 256. -/
def add_one_bit_message_value (m : BitMessage) (value : Nat) : BitMessage :=
  let pos := m.nbits
  let byte := m.data.getD (pos / CHAR_BIT) 0
  let byte' :=
    if value ≠ 0 then byte ||| (1 <<< ((CHAR_BIT - 1) - pos % CHAR_BIT))
    else byte &&& (255 ^^^ (1 <<< ((CHAR_BIT - 1) - pos % CHAR_BIT)))
  { data := m.data.set (pos / CHAR_BIT) byte'
    nbits := pos + 1
    nbytes := (pos + 1) / CHAR_BIT + 1 }

/-- C function `remove_one_bit_message_value`.  (The C `nbits -= 1` on a
`size_t` underflows at 0; callers only invoke it after an add, and `Nat`
truncated subtraction mirrors the in-contract behaviour.) -/
def remove_one_bit_message_value (m : BitMessage) : BitMessage :=
  { m with nbits := m.nbits - 1, nbytes := (m.nbits - 1) / CHAR_BIT + 1 }

/-- C function `copy_bit_message`: a fresh `nbytes`-byte buffer holding the
first `nbytes` bytes of the source (every caller's source buffer has at
least `nbytes` allocated bytes; allocation failure is not modelled). -/
def copy_bit_message (src : BitMessage) : BitMessage :=
  ⟨src.data.take src.nbytes, src.nbits, src.nbytes⟩

/-- Struct `CharCode`: one symbol (the byte held by the `char c` field), its
frequency, and its Huffman code. -/
structure CharCode where
  c : Nat
  freq : Nat
  code : BitMessage
deriving DecidableEq, Repr

/-- Junk `CharCode` used as the `getD` default where the C code would read
out of bounds (no claim depends on its value). -/
def dflCC : CharCode := ⟨0, 0, emptyBitMessage⟩

/-- C function `count_frequencies`: one pass over the message bumping the
per-byte counters (`unsigned char index = (unsigned char)message[i]`). -/
def count_frequencies (message : List Nat) (frequencies : List Nat) : List Nat :=
  message.foldl (fun freqs ch => freqs.set ch (freqs.getD ch 0 + 1)) frequencies

/-- C function `alphabet_freq_comparator`: positive when `a` ranks below `b`
(qsort puts `a` after `b`), i.e. when `a.freq < b.freq`, with ties broken on
the signed chars.  Note the inverted sign: qsort with this comparator sorts
by frequency descending. -/
def alphabet_freq_comparator (a b : CharCode) : Int :=
  if a.freq < b.freq then 1
  else if a.freq > b.freq then -1
  else if signedChar a.c < signedChar b.c then 1
  else if signedChar a.c > signedChar b.c then -1
  else 0

/-- The ordering relation realised by `qsort(..., alphabet_freq_comparator)`:
`a` may stay before `b` iff the comparator is non-positive.  The entries the
program sorts have pairwise distinct chars, so this relation is total on
them and the sorted permutation is unique; `qsort` (unstable) is therefore
modelled by insertion sort with the same relation. -/
def freqOrder (a b : CharCode) : Prop := alphabet_freq_comparator a b ≤ 0

instance : DecidableRel freqOrder := fun a b => by
  unfold freqOrder; infer_instance

/-- C function `build_alphabet`: count the 256 byte frequencies, collect the
bytes with positive frequency in byte order with zeroed codes, then qsort
with `alphabet_freq_comparator`.  (The `alphabet->chars != NULL` guard and
the allocation-failure path are outside the call sites the claims depend
on: every caller passes a fresh `{NULL, 0}` alphabet.) -/
def build_alphabet (message : List Nat) : List CharCode :=
  let frequencies := count_frequencies message (List.replicate MAX_CHAR 0)
  let chars := (List.range MAX_CHAR).filterMap fun i =>
    if frequencies.getD i 0 > 0 then some ⟨i, frequencies.getD i 0, emptyBitMessage⟩
    else none
  chars.insertionSort freqOrder

/-! ## Huffman tree construction (priority queue) -/

/-- A Huffman tree node.  `create_huffman_node` makes leaves (both child
pointers NULL) and `create_parent_huffman_node` makes two-child parents;
no other node shape is ever constructed, so the embedding uses an inductive
with exactly those two shapes. -/
inductive HuffmanTree where
  | leaf : CharCode → HuffmanTree
  | parent : CharCode → HuffmanTree → HuffmanTree → HuffmanTree
deriving DecidableEq, Repr

/-- The `data` field of a node. -/
def HuffmanTree.data : HuffmanTree → CharCode
  | .leaf d => d
  | .parent d _ _ => d

/-- Junk node used as `getD` default where the C code would read out of
bounds (never reached in the states the claims are about). -/
def dflNode : HuffmanTree := .leaf dflCC

/-- C function `create_huffman_node`: a leaf holding (a pointer to) the
alphabet entry. -/
def create_huffman_node (cc : CharCode) : HuffmanTree := .leaf cc

/-- C function `create_parent_huffman_node`: internal node with `c = '\0'`,
the summed frequency, an empty code, and the given children. -/
def create_parent_huffman_node (l r : HuffmanTree) : HuffmanTree :=
  .parent ⟨0, l.data.freq + r.data.freq, emptyBitMessage⟩ l r

/-- The swap condition of the sift-up loop in `append_huffman_queue`:
parent strictly greater by frequency, or a tie between two leaves
(both chars nonzero) broken on the signed chars. -/
def siftUpSwap (p n : CharCode) : Prop :=
  p.freq > n.freq ∨ (p.c ≠ 0 ∧ n.c ≠ 0 ∧ p.freq = n.freq ∧ signedChar p.c > signedChar n.c)

instance (p n : CharCode) : Decidable (siftUpSwap p n) := by
  unfold siftUpSwap; infer_instance

/-- The sift-up loop of `append_huffman_queue` with an explicit fuel bound
(used so that the definition is structurally recursive and evaluates in the
kernel): the node at index `i` (the one being inserted) moves up while the
swap condition holds against its parent `(i-1)/2`. -/
def siftUpF : Nat → List HuffmanTree → Nat → List HuffmanTree
  | 0, q, _ => q
  | fuel + 1, q, i =>
    if i = 0 then q
    else
      let pIdx := (i - 1) / 2
      let parentNode := q.getD pIdx dflNode
      let node := q.getD i dflNode
      if siftUpSwap parentNode.data node.data then
        siftUpF fuel ((q.set pIdx node).set i parentNode) pIdx
      else q

/-- The sift-up loop of `append_huffman_queue`.  The loop index drops from
`i` to `(i-1)/2` — by at least one — each iteration, so `i` units of fuel
always reach the loop's exit (`i = 0` exits, and the fuel-out state
`fuel = 0, i = 0` returns the same queue the exit would). -/
def siftUp (q : List HuffmanTree) (i : Nat) : List HuffmanTree := siftUpF i q i

/-- C function `append_huffman_queue`: the node goes to index `count - 1`
(the old count) and sifts up.  The capacity-doubling `realloc` only changes
the allocation, not the queue contents, and allocation failure is not
modelled. -/
def append_huffman_queue (q : List HuffmanTree) (node : HuffmanTree) : List HuffmanTree :=
  siftUp (q ++ [node]) q.length

/-- The sift-down loop of `pop_min_freq_huffman_queue` with an explicit
fuel bound, literally following the C conditions: a child is promoted when
it exists, ranks before the other child under
`alphabet_freq_comparator == 1`, and ranks before the current node. -/
def siftDownF : Nat → List HuffmanTree → Nat → List HuffmanTree
  | 0, q, _ => q
  | fuel + 1, q, i =>
    if i < q.length then
      let cur := q.getD i dflNode
      let leftIdx := 2 * i + 1
      let rightIdx := 2 * i + 2
      let leftNode := q.getD leftIdx dflNode
      let rightNode := q.getD rightIdx dflNode
      if leftIdx < q.length ∧
          (¬ rightIdx < q.length ∨
            alphabet_freq_comparator leftNode.data rightNode.data = 1) ∧
          alphabet_freq_comparator leftNode.data cur.data = 1 then
        siftDownF fuel ((q.set leftIdx cur).set i leftNode) leftIdx
      else if rightIdx < q.length ∧
          (¬ leftIdx < q.length ∨
            alphabet_freq_comparator rightNode.data leftNode.data = 1) ∧
          alphabet_freq_comparator rightNode.data cur.data = 1 then
        siftDownF fuel ((q.set rightIdx cur).set i rightNode) rightIdx
      else q
    else q

/-- The sift-down loop of `pop_min_freq_huffman_queue`.  The loop index at
least doubles each iteration and the loop only continues below
`q.length`, so `q.length` units of fuel always reach the loop's exit. -/
def siftDown (q : List HuffmanTree) (i : Nat) : List HuffmanTree :=
  siftDownF q.length q i

/-- C function `pop_min_freq_huffman_queue`: returns the root, moves the
last element to the root and sifts it down.  Popping an empty queue reads
a zeroed (`calloc`) slot in C; that state is unreachable from the
call sites the claims mention and yields the junk node here. -/
def pop_min_freq_huffman_queue (q : List HuffmanTree) : HuffmanTree × List HuffmanTree :=
  (q.getD 0 dflNode,
   siftDown ((q.dropLast).set 0 (q.getD (q.length - 1) dflNode)) 0)

theorem siftUpF_length (fuel : Nat) :
    ∀ (q : List HuffmanTree) (i : Nat), (siftUpF fuel q i).length = q.length := by
  induction fuel with
  | zero => intro q i; rfl
  | succ fuel ih =>
    intro q i
    unfold siftUpF
    by_cases h : i = 0
    · simp [h]
    · simp only [h, if_false]
      split
      · rw [ih]; simp [List.length_set]
      · rfl

theorem siftUp_length (q : List HuffmanTree) (i : Nat) :
    (siftUp q i).length = q.length := siftUpF_length i q i

theorem siftDownF_length (fuel : Nat) :
    ∀ (q : List HuffmanTree) (i : Nat), (siftDownF fuel q i).length = q.length := by
  induction fuel with
  | zero => intro q i; rfl
  | succ fuel ih =>
    intro q i
    unfold siftDownF
    by_cases hi : i < q.length
    · simp only [hi, if_true]
      split
      · rw [ih]; simp [List.length_set]
      · split
        · rw [ih]; simp [List.length_set]
        · rfl
    · simp [hi]

theorem siftDown_length (q : List HuffmanTree) (i : Nat) :
    (siftDown q i).length = q.length := siftDownF_length q.length q i

theorem append_huffman_queue_length (q : List HuffmanTree) (node : HuffmanTree) :
    (append_huffman_queue q node).length = q.length + 1 := by
  unfold append_huffman_queue
  rw [siftUp_length]; simp

theorem pop_min_freq_huffman_queue_length (q : List HuffmanTree) :
    (pop_min_freq_huffman_queue q).2.length = q.length - 1 := by
  unfold pop_min_freq_huffman_queue
  simp only [siftDown_length, List.length_set, List.length_dropLast]

/-- The `while (queue.count > 1)` merge loop of `generate_huffman_tree`
with an explicit fuel bound: pop two nodes, push their parent. -/
def mergeLoopF : Nat → List HuffmanTree → List HuffmanTree
  | 0, q => q
  | fuel + 1, q =>
    if 1 < q.length then
      let p1 := pop_min_freq_huffman_queue q
      let p2 := pop_min_freq_huffman_queue p1.2
      mergeLoopF fuel (append_huffman_queue p2.2 (create_parent_huffman_node p1.1 p2.1))
    else q

/-- The merge loop of `generate_huffman_tree`.  Each iteration shrinks the
queue by one (two pops, one push), so `q.length` units of fuel always reach
the loop's exit. -/
def mergeLoop (q : List HuffmanTree) : List HuffmanTree := mergeLoopF q.length q

/-- C function `generate_huffman_tree`: seed the queue with one leaf per
alphabet entry, merge until one node remains, pop it as the root.  With an
empty alphabet the final pop reads a zeroed (`calloc`) queue slot and the
root is NULL, modelled as `none`. -/
def generate_huffman_tree (alphabet : List CharCode) : Option HuffmanTree :=
  let q := alphabet.foldl (fun q cc => append_huffman_queue q (create_huffman_node cc)) []
  if q.length = 0 then none
  else some (pop_min_freq_huffman_queue (mergeLoop q)).1

/-! ## Code generation and canonicalization -/

/-- C function `_generate_huffman_code`: pre-order traversal threading the
shared code buffer; a leaf whose path is empty (single-leaf tree) first
forces one 0 bit, then the buffer is deep-copied into the leaf's entry.
Returns the `(char, code)` pairs written through the leaf pointers (in
traversal order) together with the final buffer state. -/
def _generate_huffman_code : HuffmanTree → BitMessage → List (Nat × BitMessage) × BitMessage
  | .leaf d, buf =>
    let buf1 := if buf.nbits = 0 then add_one_bit_message_value buf 0 else buf
    ([(d.c, copy_bit_message buf1)], buf1)
  | .parent _ l r, buf =>
    let buf1 := add_one_bit_message_value buf 0
    let resL := _generate_huffman_code l buf1
    let buf3 := remove_one_bit_message_value resL.2
    let buf4 := add_one_bit_message_value buf3 1
    let resR := _generate_huffman_code r buf4
    let buf6 := remove_one_bit_message_value resR.2
    (resL.1 ++ resR.1, buf6)

/-- C function `alphabet_nbits_comparator`: positive when `a` ranks after
`b` under (code length ascending, signed char ascending). -/
def alphabet_nbits_comparator (a b : CharCode) : Int :=
  if a.code.nbits > b.code.nbits then 1
  else if a.code.nbits < b.code.nbits then -1
  else if signedChar a.c > signedChar b.c then 1
  else if signedChar a.c < signedChar b.c then -1
  else 0

/-- Ordering realised by `qsort(..., alphabet_nbits_comparator)`; as with
`freqOrder`, the comparator is total on the entries that occur (distinct
chars), so insertion sort produces the unique sorted permutation. -/
def nbitsOrder (a b : CharCode) : Prop := alphabet_nbits_comparator a b ≤ 0

instance : DecidableRel nbitsOrder := fun a b => by
  unfold nbitsOrder; infer_instance

/-- Modulus of the `uint64_t` canonical-code accumulator. -/
def U64 : Nat := 18446744073709551616

/-- The bit-materialisation loop shared by `transform_to_canonical_code`
and `huffman_decode_alphabet`: starting from a zeroed `nbytes`-byte buffer,
set byte-bit `j` for each set bit `(code >> (nbits-1-j)) & 1`.  (A C shift
count of 64 or more is undefined; it only arises for code lengths above 64,
and the claims that depend on code values carry that bound.) -/
def writeCodeBits (code : Nat) (nbits : Nat) (init : List Nat) : List Nat :=
  (List.range nbits).foldl
    (fun d j =>
      if (code >>> (nbits - 1 - j)) &&& 1 ≠ 0 then
        d.set (j / CHAR_BIT)
          (d.getD (j / CHAR_BIT) 0 ||| (1 <<< ((CHAR_BIT - 1) - j % CHAR_BIT)))
      else d)
    init

/-- Loop body of `transform_to_canonical_code` as a structural recursion
over the remaining entries, threading the C loop state
`(current_code, prev_nbits)`: shift the accumulator by the length delta,
rewrite the entry's code bytes (`memset` to zero, then the bit loop) to
the accumulator's bit pattern, increment the accumulator. -/
def transformGo (current_code prev_nbits : Nat) : List CharCode → List CharCode
  | [] => []
  | cc :: rest =>
    let nbits := cc.code.nbits
    let nbytes := cc.code.nbytes
    let code' :=
      if nbits > prev_nbits then (current_code <<< (nbits - prev_nbits)) % U64
      else current_code
    let prev' := if nbits > prev_nbits then nbits else prev_nbits
    let dat := writeCodeBits code' nbits (List.replicate nbytes 0)
    { cc with code := ⟨dat, nbits, nbytes⟩ } :: transformGo ((code' + 1) % U64) prev' rest

/-- C function `transform_to_canonical_code`: forward pass over the
(length-sorted) alphabet; `current_code` starts at 0 and `prev_nbits` at
the first entry's length. -/
def transform_to_canonical_code (alphabet : List CharCode) : List CharCode :=
  if alphabet.length = 0 then alphabet
  else transformGo 0 (alphabet.headD dflCC).code.nbits alphabet

/-- C function `generate_huffman_code`: build the tree, traverse it writing
each leaf's code through its pointer into the alphabet (modelled by looking
the char up in the traversal's assignment list; the chars are pairwise
distinct), qsort by `alphabet_nbits_comparator`, canonicalize.  Returns
`(status, updated alphabet)`. -/
def generate_huffman_code (alphabet : List CharCode) : Nat × List CharCode :=
  match generate_huffman_tree alphabet with
  | none => (STATUS_CODE_TREE_FAIL, alphabet)
  | some root =>
    let buffer : BitMessage := ⟨List.replicate (alphabet.length + 1) 0, 0, 0⟩
    let assignments := (_generate_huffman_code root buffer).1
    let coded := alphabet.map fun cc =>
      { cc with code := ((assignments.lookup cc.c).getD cc.code) }
    let sorted := coded.insertionSort nbitsOrder
    (0, transform_to_canonical_code sorted)

/-! ## Header and message encoding -/

/-- Symbol loop of `huffman_encode_alphabet`: for each entry the `while`
loop advances `current_idx` to the entry's length (its final value is the
maximum of the two), the count byte at that index is bumped, and the
symbol goes to byte `max_nbits + 1 + i`.  Byte stores narrow to
`unsigned char` (mod 256). -/
def encodeAlphabetLoop (max_nbits : Nat) :
    List CharCode → Nat → Nat → List Nat → List Nat
  | [], _, _, d => d
  | cc :: rest, idx, i, d =>
    let idx' := if cc.code.nbits > idx then cc.code.nbits else idx
    let d1 := d.set idx' ((d.getD idx' 0 + 1) % 256)
    let d2 := d1.set (max_nbits + 1 + i) cc.c
    encodeAlphabetLoop max_nbits rest idx' (i + 1) d2

/-- C function `huffman_encode_alphabet`: header of `max_nbits + 1 + N`
zeroed bytes, where `max_nbits` is the last entry's length (the alphabet
is length-sorted); byte 0 is `max_nbits`, then the counts and symbols are
filled by `encodeAlphabetLoop` (started with `current_idx = 1` at entry
index 0).  Returns `(status, header)`. -/
def huffman_encode_alphabet (alphabet : List CharCode) : Nat × BitMessage :=
  let max_nbits := (alphabet.getD (alphabet.length - 1) dflCC).code.nbits
  let header_size := max_nbits + 1 + alphabet.length
  let data0 := (List.replicate header_size 0).set 0 (max_nbits % 256)
  let final := encodeAlphabetLoop max_nbits alphabet 1 0 data0
  (0, ⟨final, header_size * CHAR_BIT, header_size⟩)

/-- The per-symbol loop of `huffman_encode_message`: look each message char
up in the 256-pointer table (indexed by `(unsigned int)c`; see
`uintOfChar` — for a byte of 128 or more this index is far beyond the
table) and append the code's bits.  Lookup slots the table does not have
read as NULL; a NULL hit fails `assert(char_code != NULL)`, which aborts
the program, modelled as `none`. -/
def encodeMessageLoop (lookup : List (Option CharCode)) :
    List Nat → BitMessage → Option BitMessage
  | [], acc => some acc
  | ch :: rest, acc =>
    match lookup.getD (uintOfChar ch) none with
    | none => none
    | some cc =>
      if cc.c ≠ ch then none
      else
        encodeMessageLoop lookup rest
          ((List.range cc.code.nbits).foldl
            (fun m k => add_one_bit_message_value m (get_bit_message_value cc.code k)) acc)

/-- C function `huffman_encode_message`: guard against a non-NULL output
buffer, count the payload bits, build the 256-entry lookup table (writes
at `(unsigned int)c`; out-of-bounds writes — bytes of 128 or more — are
lost, matching the no-op `List.set`), allocate `capacity/8 + 1` bytes and
append every code bit.  `none` models the aborted `assert`. -/
def huffman_encode_message (message : List Nat) (alphabet : List CharCode)
    (encoded_message : BitMessage) : Option (Nat × BitMessage) :=
  if encoded_message.data ≠ [] then
    some (STATUS_CODE_ENCODED_MESSAGE_NOT_EMPTY, encoded_message)
  else if alphabet.length = 0 then some (0, encoded_message)
  else
    let capacity := message.foldl
      (fun cap ch =>
        alphabet.foldl (fun cap2 cc => if cc.c = ch then cap2 + cc.code.nbits else cap2) cap)
      0
    let lookup := alphabet.foldl
      (fun tbl cc => tbl.set (uintOfChar cc.c) (some cc))
      (List.replicate MAX_CHAR (none : Option CharCode))
    let init : BitMessage := ⟨List.replicate (capacity / CHAR_BIT + 1) 0, 0, 0⟩
    (encodeMessageLoop lookup message init).map fun bm => (0, bm)

/-- Struct `EncodedMessage`: header and payload. -/
structure EncodedMessage where
  header : BitMessage
  message : BitMessage
deriving DecidableEq, Repr

/-- C function `huffman_encode`: on the empty message return 0 at once,
leaving the caller's struct untouched; otherwise run the pipeline, writing
the header then the payload into the struct.  `none` models an aborted
`assert` inside `huffman_encode_message`. -/
def huffman_encode (message : List Nat) (encoded_message : EncodedMessage) :
    Option (Nat × EncodedMessage) :=
  if message.length = 0 then some (0, encoded_message)
  else
    let alphabet := build_alphabet message
    let gen := generate_huffman_code alphabet
    if gen.1 > 0 then some (gen.1, encoded_message)
    else
      let enc := huffman_encode_alphabet gen.2
      if enc.1 > 0 then some (enc.1, encoded_message)
      else
        let em1 := { encoded_message with header := enc.2 }
        if em1.header.data = [] then some (STATUS_CODE_HEADER_FAIL, em1)
        else
          match huffman_encode_message message gen.2 em1.message with
          | none => none
          | some st => some (st.1, { em1 with message := st.2 })

/-! ## Decoding -/

/-- Result of `huffman_decode_alphabet`: the status, the rebuilt alphabet,
and (instrumentation) every index passed to `header->data[...]`, in read
order.  The header's allocation is `header.data.length` bytes, so a read
index that reaches `header.nbytes` (or `header.data.length`) is out of
bounds. -/
structure DecodeAlphabetResult where
  status : Nat
  alphabet : List CharCode
  reads : List Nat
deriving DecidableEq, Repr

/-- Fold state of the symbol-reconstruction loops of
`huffman_decode_alphabet`. -/
structure DecAlphaState where
  headerIdx : Nat
  code : Nat
  entries : List CharCode
  reads : List Nat
deriving DecidableEq, Repr

/-- The inner `for (j < nchars)` loop of `huffman_decode_alphabet` for code
length `i`: read one symbol byte per entry, materialise the accumulator's
bit pattern as an `i`-bit code and bump the accumulator. -/
def decodeAlphabetGroup (header : BitMessage) (i : Nat) :
    Nat → DecAlphaState → DecAlphaState
  | 0, st => st
  | nchars + 1, st =>
    let c := header.data.getD st.headerIdx 0
    let nbits := i
    let nbytes := nbits / CHAR_BIT + 1
    let dat := writeCodeBits st.code nbits (List.replicate nbytes 0)
    decodeAlphabetGroup header i nchars
      ⟨st.headerIdx + 1, (st.code + 1) % U64,
       st.entries ++ [⟨c, 0, ⟨dat, nbits, nbytes⟩⟩], st.reads ++ [st.headerIdx]⟩

/-- The outer `for (i = 1; i < max_nbits + 1; ++i)` loop of
`huffman_decode_alphabet`: read the count byte at `i` (a second read of a
count byte — the length pass already read it), run the symbol group of
length `i`, then shift the accumulator left by one; `remaining` counts the
lengths still to process. -/
def decodeAlphabetLoop (header : BitMessage) : Nat → Nat → DecAlphaState → DecAlphaState
  | _, 0, st => st
  | i, remaining + 1, st =>
    let nchars := header.data.getD i 0
    let st1 := decodeAlphabetGroup header i nchars
      ⟨st.headerIdx, st.code, st.entries, st.reads ++ [i]⟩
    decodeAlphabetLoop header (i + 1) remaining
      ⟨st1.headerIdx, (st1.code <<< 1) % U64, st1.entries, st1.reads⟩

/-- C function `huffman_decode_alphabet`: guard against a non-NULL alphabet
(`[]` models the fresh `{NULL, 0}` the callers pass), read `max_nbits` from
byte 0, sum the counts (bytes `1..max_nbits`), then rebuild every entry
with the same forward-pass code assignment the encoder used (counts are
read a second time in this pass).  Note that no branch of this function
returns `STATUS_CODE_HEADER_CORRUPT`: a header too short for its declared
counts just runs the symbol loop past `nbytes`. -/
def huffman_decode_alphabet (encoded_message : EncodedMessage)
    (alphabet : List CharCode) : DecodeAlphabetResult :=
  if alphabet ≠ [] then ⟨STATUS_CODE_ALPHABET_NOT_EMPTY, alphabet, []⟩
  else
    let header := encoded_message.header
    if header.nbytes > 0 then
      let max_nbits := header.data.getD 0 0
      if header.nbytes > max_nbits + 1 then
        let countReads := (List.range max_nbits).map fun i => i + 1
        let st0 : DecAlphaState := ⟨max_nbits + 1, 0, [], 0 :: countReads⟩
        let fin := decodeAlphabetLoop header 1 max_nbits st0
        ⟨0, fin.entries, fin.reads⟩
      else ⟨0, [], [0]⟩
    else ⟨0, [], []⟩

/-- Struct `AlphabetCodeTree`: the flattened decode tree (heap addressing),
its node count and the minimum code length. -/
structure AlphabetCodeTree where
  tree : List (Option CharCode)
  length : Nat
  min_nbits : Nat
deriving DecidableEq, Repr

/-- C function `create_alphabet_code_tree`: size the array to
`2^(max_nbits+1) - 1` (the doubling loop), then drop every entry at the
slot its code's bit path reaches.  The C `assert(pos < length)` aborts on
failure, modelled as `none`.  (The `tree != NULL` guard is outside the
reachable call sites: `huffman_decode` passes a fresh `{NULL, 0}`.) -/
def codePos (code : BitMessage) : Nat :=
  (List.range code.nbits).foldl (fun p j => 2 * p + 1 + get_bit_message_value code j) 0

/-- The fill loop of `create_alphabet_code_tree`: drop each entry at the
slot `codePos` its code's bit path reaches; `none` models the aborted
`assert(pos < length)`. -/
def fillCodeTree (len : Nat) : List CharCode → List (Option CharCode) →
    Option (List (Option CharCode))
  | [], tr => some tr
  | cc :: rest, tr =>
    if codePos cc.code < len then fillCodeTree len rest (tr.set (codePos cc.code) (some cc))
    else none

def create_alphabet_code_tree (alphabet : List CharCode) : Option AlphabetCodeTree :=
  let min_nbits := if alphabet.length > 0 then (alphabet.headD dflCC).code.nbits else 0
  let max_nbits :=
    if alphabet.length > 0 then (alphabet.getD (alphabet.length - 1) dflCC).code.nbits else 0
  let len := (List.range (max_nbits + 1)).foldl (fun l _ => l * 2) 1 - 1
  let init := List.replicate len (none : Option CharCode)
  (fillCodeTree len alphabet init).map fun tr => ⟨tr, len, min_nbits⟩

/-- Result of `huffman_decode_message`: status, emitted bytes, and
(instrumentation) the indices read from the decode-tree array and the bit
positions read from the payload, in read order.  `fuelOut` is true only if
the modelled loop ran out of its fuel bound (the C loop would then not have
terminated within that many iterations; it never happens when every code
in the tree has at least one bit). -/
structure DecodeMessageResult where
  status : Nat
  output : List Nat
  treeReads : List Nat
  bitReads : List Nat
  fuelOut : Bool
deriving DecidableEq, Repr

/-- The inner symbol-search loop of `huffman_decode_message`, started at
`pos = 0`, `k = 0`: the C condition `tree[pos] == NULL && pos < length`
reads `tree[pos]` first on every test — also when `pos` is already past
the end — and the bit reads `start + k` are not bounded by the payload's
`nbits`.  Returns the final `pos`, the consumed bit count `k`, the tree
indices read by the condition tests and the bit positions read. -/
def decodeWalkF (msg : BitMessage) (t : AlphabetCodeTree) (start : Nat) :
    Nat → Nat → Nat → Nat × Nat × List Nat × List Nat
  | 0, pos, k => (pos, k, [pos], [])
  | fuel + 1, pos, k =>
    if t.tree.getD pos none = none ∧ pos < t.length then
      let b := get_bit_message_value msg (start + k)
      let res := decodeWalkF msg t start fuel (2 * pos + 1 + b) (k + 1)
      (res.1, res.2.1, pos :: res.2.2.1, (start + k) :: res.2.2.2)
    else (pos, k, [pos], [])

/-- The symbol-search loop, entered at `pos = 0`, `k = 0`.  The walk index
strictly increases and the loop only continues below `t.length`, so
`t.length + 1` units of fuel always reach the loop's exit. -/
def decodeWalk (msg : BitMessage) (t : AlphabetCodeTree) (start : Nat) (pos k : Nat) :
    Nat × Nat × List Nat × List Nat :=
  decodeWalkF msg t start (t.length + 1) pos k

/-- The outer `while (start < nbits)` loop of `huffman_decode_message`,
with an explicit fuel bound (each C iteration either consumes
`char_code->code.nbits` bits or returns, so `msg.nbits` iterations always
suffice when every populated slot's code has at least one bit).  After the
walk, `tree[pos]` is read once more to fetch `char_code`. -/
def decodeMessageLoop (msg : BitMessage) (t : AlphabetCodeTree) :
    Nat → Nat → List Nat → List Nat → List Nat → DecodeMessageResult
  | 0, start, outAcc, trAcc, brAcc => ⟨0, outAcc, trAcc, brAcc, decide (start < msg.nbits)⟩
  | fuel + 1, start, outAcc, trAcc, brAcc =>
    if start < msg.nbits then
      let w := decodeWalk msg t start 0 0
      let trAll := trAcc ++ w.2.2.1 ++ [w.1]
      let brAll := brAcc ++ w.2.2.2
      match t.tree.getD w.1 none with
      | some cc =>
        decodeMessageLoop msg t fuel (start + cc.code.nbits) (outAcc ++ [cc.c]) trAll brAll
      | none => ⟨STATUS_CODE_HEADER_CORRUPT, outAcc, trAll, brAll, false⟩
    else ⟨0, outAcc, trAcc, brAcc, false⟩

/-- C function `huffman_decode_message` (the `*decoded_message != NULL`
guard and the output buffer's `malloc`/`realloc` sizing do not affect the
emitted bytes and are outside the claims; the emitted bytes are returned
as a list). -/
def huffman_decode_message (msg : BitMessage) (t : AlphabetCodeTree) : DecodeMessageResult :=
  decodeMessageLoop msg t msg.nbits 0 [] [] []

/-- C function `huffman_decode`: decode the alphabet, build the decode
tree, decode the payload.  `some (status, decoded)` mirrors the C status
plus the `*decoded_message` out-parameter (NULL modelled as `none`);
a top-level `none` models an aborted `assert` or a loop the fuel bound
cannot witness terminating. -/
def huffman_decode (encoded_message : EncodedMessage) : Option (Nat × Option (List Nat)) :=
  let da := huffman_decode_alphabet encoded_message []
  if da.status > 0 then some (da.status, none)
  else
    match create_alphabet_code_tree da.alphabet with
    | none => none
    | some tree =>
      let r := huffman_decode_message encoded_message.message tree
      if r.fuelOut then none
      else if r.status > 0 then some (r.status, none)
      else some (0, some r.output)

/-! ## Permutation facts about the priority queue

The sift loops only ever exchange two slots of the array, so every queue
operation permutes the stored nodes; this is what ties the tree built by
`generate_huffman_tree` back to the alphabet. -/

theorem getD_cons_set_perm {α : Type} (d x : α) :
    ∀ (t : List α) (k : Nat), k < t.length →
      List.Perm (t.getD k d :: t.set k x) (x :: t) := by
  intro t
  induction t with
  | nil => intro k hk; simp at hk
  | cons y s ih =>
    intro k hk
    cases k with
    | zero => simpa using List.Perm.swap x y s
    | succ m =>
      have hm : m < s.length := by simpa using hk
      have h1 : List.Perm (y :: (s.getD m d :: s.set m x)) (y :: (x :: s)) :=
        (ih m hm).cons y
      have h0 : List.Perm (s.getD m d :: y :: s.set m x) (y :: (s.getD m d :: s.set m x)) :=
        List.Perm.swap _ _ _
      have h2 : List.Perm (y :: x :: s) (x :: y :: s) := List.Perm.swap _ _ _
      have heq : (y :: s).getD (m + 1) d :: (y :: s).set (m + 1) x
          = s.getD m d :: y :: s.set m x := by simp
      rw [heq]
      exact (h0.trans h1).trans h2

theorem set_swap_perm {α : Type} (d : α) :
    ∀ (l : List α) (i j : Nat), i < l.length → j < l.length →
      List.Perm ((l.set i (l.getD j d)).set j (l.getD i d)) l := by
  intro l
  induction l with
  | nil => intro i j hi; simp at hi
  | cons x t ih =>
    intro i j hi hj
    cases i with
    | zero =>
      cases j with
      | zero => simp
      | succ k =>
        have hk : k < t.length := by simpa using hj
        simpa using getD_cons_set_perm d x t k hk
    | succ m =>
      cases j with
      | zero =>
        have hm : m < t.length := by simpa using hi
        simpa using getD_cons_set_perm d x t m hm
      | succ k =>
        have hm : m < t.length := by simpa using hi
        have hk : k < t.length := by simpa using hj
        simpa using (ih m k hm hk).cons x

theorem siftUpF_perm (fuel : Nat) :
    ∀ (q : List HuffmanTree) (i : Nat), i < q.length →
      List.Perm (siftUpF fuel q i) q := by
  induction fuel with
  | zero => intro q i _; exact List.Perm.refl q
  | succ fuel ih =>
    intro q i hq
    unfold siftUpF
    by_cases h : i = 0
    · simp [h]
    · simp only [h, if_false]
      split
      · have hp : (i - 1) / 2 < i := by omega
        have hplen : (i - 1) / 2 < q.length := lt_trans hp hq
        have hswap := set_swap_perm dflNode q ((i - 1) / 2) i hplen hq
        have hrec := ih
          ((q.set ((i - 1) / 2) (q.getD i dflNode)).set i (q.getD ((i - 1) / 2) dflNode))
          ((i - 1) / 2)
          (by simpa [List.length_set] using hplen)
        exact hrec.trans hswap
      · exact List.Perm.refl q

theorem siftUp_perm (q : List HuffmanTree) (i : Nat) (h : i < q.length) :
    List.Perm (siftUp q i) q := siftUpF_perm i q i h

theorem siftDownF_perm (fuel : Nat) :
    ∀ (q : List HuffmanTree) (i : Nat), List.Perm (siftDownF fuel q i) q := by
  induction fuel with
  | zero => intro q i; exact List.Perm.refl q
  | succ fuel ih =>
    intro q i
    unfold siftDownF
    by_cases hi : i < q.length
    · simp only [hi, if_true]
      split
      · rename_i hcond
        have hl : 2 * i + 1 < q.length := hcond.1
        have hswap := set_swap_perm dflNode q (2 * i + 1) i hl hi
        exact List.Perm.trans (ih _ _) hswap
      · split
        · rename_i hcond
          have hr : 2 * i + 2 < q.length := hcond.1
          have hswap := set_swap_perm dflNode q (2 * i + 2) i hr hi
          exact List.Perm.trans (ih _ _) hswap
        · exact List.Perm.refl q
    · simp [hi]

theorem siftDown_perm (q : List HuffmanTree) (i : Nat) :
    List.Perm (siftDown q i) q := siftDownF_perm q.length q i

theorem append_huffman_queue_perm (q : List HuffmanTree) (node : HuffmanTree) :
    List.Perm (append_huffman_queue q node) (node :: q) := by
  unfold append_huffman_queue
  have h1 : q.length < (q ++ [node]).length := by simp
  exact (siftUp_perm (q ++ [node]) q.length h1).trans
    (List.perm_append_singleton node q)

theorem pop_min_freq_huffman_queue_perm (q : List HuffmanTree) (h : q ≠ []) :
    List.Perm ((pop_min_freq_huffman_queue q).1 :: (pop_min_freq_huffman_queue q).2) q := by
  unfold pop_min_freq_huffman_queue
  rcases List.eq_nil_or_concat q with rfl | ⟨t, last, rfl⟩
  · exact absurd rfl h
  · rw [List.concat_eq_append]
    have hdrop : (t ++ [last]).dropLast = t := by simp
    have hgetlast : (t ++ [last]).getD ((t ++ [last]).length - 1) dflNode = last := by
      simp [List.getD_eq_getElem?_getD]
    simp only [hdrop, hgetlast]
    cases t with
    | nil => exact List.Perm.refl [last]
    | cons y s =>
      have hset : (y :: s).set 0 last = last :: s := rfl
      have hget0 : ((y :: s) ++ [last]).getD 0 dflNode = y := rfl
      rw [hset, hget0]
      have hperm : List.Perm (y :: siftDown (last :: s) 0) (y :: (last :: s)) :=
        (siftDown_perm (last :: s) 0).cons y
      refine hperm.trans ?_
      have h1 : List.Perm (y :: last :: s) (last :: y :: s) := List.Perm.swap _ _ _
      refine h1.trans ?_
      exact (List.perm_append_singleton last (y :: s)).symm

/-! ## Ordering facts about the comparators -/

theorem alphabet_freq_comparator_nonpos_iff (a b : CharCode) :
    alphabet_freq_comparator a b ≤ 0 ↔
      b.freq < a.freq ∨ (a.freq = b.freq ∧ signedChar b.c ≤ signedChar a.c) := by
  unfold alphabet_freq_comparator
  split_ifs <;> constructor <;> intro h <;> first | omega | (exfalso; omega)

instance : IsTrans CharCode freqOrder where
  trans a b c hab hbc := by
    unfold freqOrder at *
    rw [alphabet_freq_comparator_nonpos_iff] at *
    omega

instance : IsTotal CharCode freqOrder where
  total a b := by
    unfold freqOrder
    rw [alphabet_freq_comparator_nonpos_iff, alphabet_freq_comparator_nonpos_iff]
    omega

theorem alphabet_nbits_comparator_nonpos_iff (a b : CharCode) :
    alphabet_nbits_comparator a b ≤ 0 ↔
      a.code.nbits < b.code.nbits ∨
        (a.code.nbits = b.code.nbits ∧ signedChar a.c ≤ signedChar b.c) := by
  unfold alphabet_nbits_comparator
  split_ifs <;> constructor <;> intro h <;> first | omega | (exfalso; omega)

instance : IsTrans CharCode nbitsOrder where
  trans a b c hab hbc := by
    unfold nbitsOrder at *
    rw [alphabet_nbits_comparator_nonpos_iff] at *
    omega

instance : IsTotal CharCode nbitsOrder where
  total a b := by
    unfold nbitsOrder
    rw [alphabet_nbits_comparator_nonpos_iff, alphabet_nbits_comparator_nonpos_iff]
    omega

/-! ## Frequency counting -/

theorem count_frequencies_getD (b : Nat) (hb : b < MAX_CHAR) :
    ∀ (S : List Nat) (init : List Nat), init.length = MAX_CHAR →
      (∀ x ∈ S, x < MAX_CHAR) →
      (count_frequencies S init).getD b 0 = init.getD b 0 + S.count b := by
  intro S
  induction S with
  | nil => intro init _ _; simp [count_frequencies]
  | cons x rest ih =>
    intro init hlen hS
    have hx : x < MAX_CHAR := hS x (List.mem_cons_self x rest)
    have hstep : count_frequencies (x :: rest) init =
        count_frequencies rest (init.set x (init.getD x 0 + 1)) := rfl
    rw [hstep, ih (init.set x (init.getD x 0 + 1)) (by simp [hlen])
      (fun y hy => hS y (List.mem_cons_of_mem x hy))]
    by_cases hxb : x = b
    · subst hxb
      have : (init.set x (init.getD x 0 + 1)).getD x 0 = init.getD x 0 + 1 := by
        rw [List.getD_eq_getElem?_getD, List.getElem?_set_self (by omega),
          List.getD_eq_getElem?_getD]
        simp [List.getElem?_eq_getElem (hlen ▸ hx)]
      rw [this]
      simp [List.count_cons]
      omega
    · have : (init.set x (init.getD x 0 + 1)).getD b 0 = init.getD b 0 := by
        rw [List.getD_eq_getElem?_getD, List.getElem?_set_ne hxb]
        rw [List.getD_eq_getElem?_getD]
      rw [this]
      simp [List.count_cons, hxb]

theorem getD_replicate_zero (n b : Nat) : (List.replicate n (0 : Nat)).getD b 0 = 0 := by
  rw [List.getD_eq_getElem?_getD, List.getElem?_replicate]
  split <;> rfl

/-! ## Characterisation of `build_alphabet` -/

theorem build_alphabet_perm_chars (S : List Nat) :
    List.Perm (build_alphabet S)
      ((List.range MAX_CHAR).filterMap fun i =>
        if (count_frequencies S (List.replicate MAX_CHAR 0)).getD i 0 > 0 then
          some ⟨i, (count_frequencies S (List.replicate MAX_CHAR 0)).getD i 0, emptyBitMessage⟩
        else none) :=
  List.perm_insertionSort freqOrder _

theorem build_alphabet_mem_iff (S : List Nat) (hS : ∀ x ∈ S, x < MAX_CHAR)
    (cc : CharCode) :
    cc ∈ build_alphabet S ↔
      ∃ b, b < MAX_CHAR ∧ 0 < S.count b ∧ cc = ⟨b, S.count b, emptyBitMessage⟩ := by
  rw [(build_alphabet_perm_chars S).mem_iff, List.mem_filterMap]
  constructor
  · rintro ⟨i, hi, hfi⟩
    have hi' : i < MAX_CHAR := List.mem_range.mp hi
    rw [count_frequencies_getD i hi' S _ (by simp) hS, getD_replicate_zero] at hfi
    by_cases hpos : 0 < S.count i
    · refine ⟨i, hi', hpos, ?_⟩
      simp only [Nat.zero_add, hpos, if_pos, Option.some.injEq] at hfi
      exact hfi.symm
    · simp only [Nat.zero_add, hpos, if_neg, if_false] at hfi
      cases hfi
  · rintro ⟨b, hb, hpos, rfl⟩
    refine ⟨b, List.mem_range.mpr hb, ?_⟩
    rw [count_frequencies_getD b hb S _ (by simp) hS, getD_replicate_zero]
    simp [hpos]

theorem build_alphabet_nodup (S : List Nat) (hS : ∀ x ∈ S, x < MAX_CHAR) :
    ((build_alphabet S).map (fun cc => cc.c)).Nodup := by
  rw [((build_alphabet_perm_chars S).map (fun cc => cc.c)).nodup_iff]
  have hchars : ((List.range MAX_CHAR).filterMap fun i =>
      if (count_frequencies S (List.replicate MAX_CHAR 0)).getD i 0 > 0 then
        some (⟨i, (count_frequencies S (List.replicate MAX_CHAR 0)).getD i 0,
          emptyBitMessage⟩ : CharCode)
      else none).Nodup := by
    refine List.Nodup.filterMap ?_ (List.nodup_range MAX_CHAR)
    intro a a' b hb hb'
    split at hb
    · split at hb'
      · simp only [Option.mem_def, Option.some.injEq] at hb hb'
        have h1 : b.c = a := by rw [← hb]
        have h2 : b.c = a' := by rw [← hb']
        omega
      · simp at hb'
    · simp at hb
  refine List.Nodup.map_on ?_ hchars
  intro x hx y hy hxy
  rw [List.mem_filterMap] at hx hy
  obtain ⟨i, _, hfi⟩ := hx
  obtain ⟨j, _, hfj⟩ := hy
  split at hfi
  · split at hfj
    · simp only [Option.some.injEq] at hfi hfj
      subst hfi; subst hfj
      simp only at hxy
      subst hxy
      rfl
    · cases hfj
  · cases hfi

/-- C10: for the empty input string `huffman_encode` returns status 0 and
returns the caller's `EncodedMessage` with every field exactly as passed
in — it writes neither the header nor the payload. -/
theorem c10_empty_input_leaves_struct (em : EncodedMessage) :
    huffman_encode [] em = some (0, em) := rfl

/-- C9 counterexample: `add_one_bit_message_value` does not extend the
backing storage.  On a `BitMessage` with no allocated bytes the append
leaves the allocation at 0 bytes although the new bit count is 1, so the
storage cannot address bit position `nbits - 1` and the write at byte 0 was
out of bounds. -/
theorem c9_counterexample :
    (add_one_bit_message_value emptyBitMessage 1).nbits = 1 ∧
    (add_one_bit_message_value emptyBitMessage 1).data.length = 0 ∧
    ¬ ((add_one_bit_message_value emptyBitMessage 1).nbits - 1) / CHAR_BIT <
        (add_one_bit_message_value emptyBitMessage 1).data.length := by decide

/-- C9 (amended): `add_one_bit_message_value` never changes the allocated
byte count; provided the caller allocated more than `nbits / 8` bytes (as
every call site in the library does), the write lands inside the
allocation, and after the append the byte fields are again sufficient to
address bit `nbits - 1` (both the allocation and the `nbytes` counter,
which is maintained as `nbits / 8 + 1`). -/
theorem c9_append_in_bounds (m : BitMessage) (value : Nat)
    (h : m.nbits / CHAR_BIT < m.data.length) :
    (add_one_bit_message_value m value).data.length = m.data.length ∧
    (add_one_bit_message_value m value).nbits = m.nbits + 1 ∧
    ((add_one_bit_message_value m value).nbits - 1) / CHAR_BIT <
      (add_one_bit_message_value m value).data.length ∧
    (add_one_bit_message_value m value).nbytes =
      (add_one_bit_message_value m value).nbits / CHAR_BIT + 1 ∧
    ((add_one_bit_message_value m value).nbits - 1) / CHAR_BIT <
      (add_one_bit_message_value m value).nbytes := by
  unfold add_one_bit_message_value
  refine ⟨by simp [List.length_set], rfl, ?_, rfl, ?_⟩
  · simpa [List.length_set] using h
  · simp only [CHAR_BIT]
    omega

/-- C9 witness: the amended statement at a concrete one-byte buffer. -/
theorem c9_witness :
    (⟨[0], 0, 0⟩ : BitMessage).nbits / CHAR_BIT < (⟨[0], 0, 0⟩ : BitMessage).data.length ∧
    ((add_one_bit_message_value ⟨[0], 0, 0⟩ 1).data.length =
        (⟨[0], 0, 0⟩ : BitMessage).data.length ∧
      (add_one_bit_message_value ⟨[0], 0, 0⟩ 1).nbits = (⟨[0], 0, 0⟩ : BitMessage).nbits + 1 ∧
      ((add_one_bit_message_value ⟨[0], 0, 0⟩ 1).nbits - 1) / CHAR_BIT <
        (add_one_bit_message_value ⟨[0], 0, 0⟩ 1).data.length ∧
      (add_one_bit_message_value ⟨[0], 0, 0⟩ 1).nbytes =
        (add_one_bit_message_value ⟨[0], 0, 0⟩ 1).nbits / CHAR_BIT + 1 ∧
      ((add_one_bit_message_value ⟨[0], 0, 0⟩ 1).nbits - 1) / CHAR_BIT <
        (add_one_bit_message_value ⟨[0], 0, 0⟩ 1).nbytes) :=
  ⟨by decide, c9_append_in_bounds ⟨[0], 0, 0⟩ 1 (by decide)⟩

/-- C6 counterexample: `build_alphabet "aab"` is not sorted ascending by
frequency — the comparator's sign puts larger frequencies first. -/
theorem c6_counterexample :
    (build_alphabet [97, 97, 98]).map (fun cc => cc.freq) = [2, 1] ∧
    ¬ List.Sorted (fun a b : CharCode => a.freq ≤ b.freq) (build_alphabet [97, 97, 98]) := by
  constructor
  · decide
  · intro hs
    have h12 : (2 : Nat) ≤ 1 := by
      have hpair := hs
      rw [show build_alphabet [97, 97, 98] =
        [⟨97, 2, emptyBitMessage⟩, ⟨98, 1, emptyBitMessage⟩] from by decide] at hpair
      simpa using List.rel_of_sorted_cons hpair _ (List.mem_singleton.mpr rfl)
    omega

/-- C6 (amended): `build_alphabet` returns exactly the distinct byte values
of positive frequency with correct counts and no duplicates, sorted
DESCENDING by frequency (ties: descending signed char), and the empty
input yields the empty alphabet.  `freqOrder a b` is the comparator's
"may stay before" relation: `b.freq < a.freq`, or equal frequencies with
`signedChar b.c ≤ signedChar a.c`. -/
theorem c6_build_alphabet (S : List Nat) (cc : CharCode) (b : Nat)
    (hS : ∀ x ∈ S, 0 < x ∧ x < MAX_CHAR) :
    List.Sorted freqOrder (build_alphabet S) ∧
    (cc ∈ build_alphabet S →
      cc.c < MAX_CHAR ∧ cc.freq = S.count cc.c ∧ 0 < cc.freq ∧ cc.code = emptyBitMessage) ∧
    (b < MAX_CHAR → (0 < S.count b ↔ ⟨b, S.count b, emptyBitMessage⟩ ∈ build_alphabet S)) ∧
    ((build_alphabet S).map (fun cc => cc.c)).Nodup ∧
    (S = [] → build_alphabet S = []) := by
  have hS' : ∀ x ∈ S, x < MAX_CHAR := fun x hx => (hS x hx).2
  refine ⟨List.sorted_insertionSort freqOrder _, ?_, ?_, build_alphabet_nodup S hS', ?_⟩
  · intro hmem
    obtain ⟨b', hb', hpos, rfl⟩ := (build_alphabet_mem_iff S hS' cc).mp hmem
    exact ⟨hb', rfl, hpos, rfl⟩
  · intro hb
    constructor
    · intro hpos
      exact (build_alphabet_mem_iff S hS' _).mpr ⟨b, hb, hpos, rfl⟩
    · intro hmem
      obtain ⟨b', hb', hpos, heq⟩ := (build_alphabet_mem_iff S hS' _).mp hmem
      have : b = b' := by
        have := congrArg CharCode.c heq
        simpa using this
      subst this
      have := congrArg CharCode.freq heq
      simpa using hpos
  · rintro rfl
    have : ∀ cc : CharCode, cc ∉ build_alphabet [] := by
      intro cc hmem
      obtain ⟨b', _, hpos, _⟩ := (build_alphabet_mem_iff [] (by simp) cc).mp hmem
      simp at hpos
    cases hba : build_alphabet [] with
    | nil => rfl
    | cons y t => exact absurd (hba ▸ List.mem_cons_self y t) (this y)

/-- C6 witness: the amended statement at the concrete input "aab". -/
theorem c6_witness :
    (∀ x ∈ [97, 97, 98], 0 < x ∧ x < MAX_CHAR) ∧
    (List.Sorted freqOrder (build_alphabet [97, 97, 98]) ∧
      (⟨97, 2, emptyBitMessage⟩ ∈ build_alphabet [97, 97, 98] →
        (⟨97, 2, emptyBitMessage⟩ : CharCode).c < MAX_CHAR ∧
        (⟨97, 2, emptyBitMessage⟩ : CharCode).freq =
          List.count (⟨97, 2, emptyBitMessage⟩ : CharCode).c [97, 97, 98] ∧
        0 < (⟨97, 2, emptyBitMessage⟩ : CharCode).freq ∧
        (⟨97, 2, emptyBitMessage⟩ : CharCode).code = emptyBitMessage) ∧
      (98 < MAX_CHAR →
        (0 < List.count 98 [97, 97, 98] ↔
          ⟨98, List.count 98 [97, 97, 98], emptyBitMessage⟩ ∈ build_alphabet [97, 97, 98])) ∧
      ((build_alphabet [97, 97, 98]).map (fun cc => cc.c)).Nodup ∧
      ([97, 97, 98] = ([] : List Nat) → build_alphabet [97, 97, 98] = [])) :=
  ⟨by decide, c6_build_alphabet [97, 97, 98] ⟨97, 2, emptyBitMessage⟩ 98 (by decide)⟩

/-- C3: evaluation of `huffman_decode_alphabet` at a header whose declared
byte counts are inconsistent with the header size.  The header is the 3
bytes `[1, 2, 97]`: it declares `max_nbits = 1` and two symbols of code
length 1, so it should occupy `1 + 1 + 2 = 4` bytes, one more than it has.
The function returns status 0 — not `STATUS_CODE_HEADER_CORRUPT` — and its
symbol loop reads header byte 3, one past the 3 allocated bytes. -/
theorem c3_decode_alphabet_eval :
    (huffman_decode_alphabet ⟨⟨[1, 2, 97], 24, 3⟩, emptyBitMessage⟩ []).status = 0 ∧
    (huffman_decode_alphabet ⟨⟨[1, 2, 97], 24, 3⟩, emptyBitMessage⟩ []).status ≠
      STATUS_CODE_HEADER_CORRUPT ∧
    3 ∈ (huffman_decode_alphabet ⟨⟨[1, 2, 97], 24, 3⟩, emptyBitMessage⟩ []).reads ∧
    (⟨[1, 2, 97], 24, 3⟩ : BitMessage).nbytes = 3 ∧
    (⟨[1, 2, 97], 24, 3⟩ : BitMessage).data.length = 3 := by decide

/-- C2: evaluation of the decode path at a valid header whose payload does
not resolve to a populated slot.  The header `[2, 0, 1, 97]` declares one
symbol `'a'` with the 2-bit code `00`; the payload is the two bits `11`.
The decode does report `STATUS_CODE_HEADER_CORRUPT`, but on the way there
the inner loop reads decode-tree index 13 — the tree has 7 slots — because
the loop condition evaluates `tree[pos]` before checking `pos < length`,
and it reads payload bit position 2 although the payload has only 2 bits. -/
theorem c2_decode_message_eval :
    (huffman_decode_alphabet ⟨⟨[2, 0, 1, 97], 32, 4⟩, ⟨[192], 2, 1⟩⟩ []).status = 0 ∧
    (huffman_decode_alphabet ⟨⟨[2, 0, 1, 97], 32, 4⟩, ⟨[192], 2, 1⟩⟩ []).alphabet =
      [⟨97, 0, ⟨[0], 2, 1⟩⟩] ∧
    create_alphabet_code_tree [⟨97, 0, ⟨[0], 2, 1⟩⟩] =
      some ⟨[none, none, none, some ⟨97, 0, ⟨[0], 2, 1⟩⟩, none, none, none], 7, 2⟩ ∧
    (huffman_decode_message ⟨[192], 2, 1⟩
      ⟨[none, none, none, some ⟨97, 0, ⟨[0], 2, 1⟩⟩, none, none, none], 7, 2⟩).status =
      STATUS_CODE_HEADER_CORRUPT ∧
    13 ∈ (huffman_decode_message ⟨[192], 2, 1⟩
      ⟨[none, none, none, some ⟨97, 0, ⟨[0], 2, 1⟩⟩, none, none, none], 7, 2⟩).treeReads ∧
    (⟨[none, none, none, some ⟨97, 0, ⟨[0], 2, 1⟩⟩, none, none, none], 7, 2⟩ :
      AlphabetCodeTree).length = 7 ∧
    2 ∈ (huffman_decode_message ⟨[192], 2, 1⟩
      ⟨[none, none, none, some ⟨97, 0, ⟨[0], 2, 1⟩⟩, none, none, none], 7, 2⟩).bitReads ∧
    (⟨[192], 2, 1⟩ : BitMessage).nbits = 2 := by decide

/-! ## Claim C7: the priority-queue order -/

/-- Whether a node is a leaf (C: both child pointers NULL). -/
def isLeafNode : HuffmanTree → Bool
  | .leaf _ => true
  | .parent _ _ _ => false

/-- The total order the SPEC claims for the priority queue, written from
the spec's words and not from the code (frequency ascending; on equal
frequency a leaf ranks before an internal node; two leaves of equal
frequency rank by symbol byte value).  Used only to state claim C7. -/
def specQueueBefore (a b : HuffmanTree) : Prop :=
  a.data.freq < b.data.freq ∨
    (a.data.freq = b.data.freq ∧ isLeafNode a = true ∧ isLeafNode b = false) ∨
    (a.data.freq = b.data.freq ∧ isLeafNode a = true ∧ isLeafNode b = true ∧
      a.data.c < b.data.c)

instance (a b : HuffmanTree) : Decidable (specQueueBefore a b) := by
  unfold specQueueBefore; infer_instance

/-- C7 counterexample: during tree construction for the input "abccdd"
(bytes `[97, 98, 99, 99, 100, 100]`), the fourth pop returns the internal
node of frequency 2 (the merge of the two frequency-1 leaves) while the
leaf `('d', 2)` is still in the queue — a node that the claimed total
order ranks strictly before the popped one.  The pops are spelled out with
the very functions `generate_huffman_tree` composes. -/
theorem c7_counterexample :
    (let q0 := (build_alphabet [97, 98, 99, 99, 100, 100]).foldl
        (fun q cc => append_huffman_queue q (create_huffman_node cc)) [];
     let p1 := pop_min_freq_huffman_queue q0;
     let p2 := pop_min_freq_huffman_queue p1.2;
     let q1 := append_huffman_queue p2.2 (create_parent_huffman_node p1.1 p2.1);
     let p3 := pop_min_freq_huffman_queue q1;
     let p4 := pop_min_freq_huffman_queue p3.2;
     p4.1 = create_parent_huffman_node (create_huffman_node ⟨97, 1, emptyBitMessage⟩)
        (create_huffman_node ⟨98, 1, emptyBitMessage⟩) ∧
     create_huffman_node ⟨100, 2, emptyBitMessage⟩ ∈ p3.2 ∧
     create_huffman_node ⟨100, 2, emptyBitMessage⟩ ∈ p4.2 ∧
     specQueueBefore (create_huffman_node ⟨100, 2, emptyBitMessage⟩) p4.1) := by decide

theorem getD_zero_eq_headD (q : List HuffmanTree) :
    q.getD 0 dflNode = q.headD dflNode := by
  cases q <;> rfl

/-- C7 (amended): what the queue operations actually guarantee.  Each pop
returns the node at the root of the heap array and the rest of the queue
is the original minus that node (as a multiset); each append inserts
exactly the given node; each merge step of `generate_huffman_tree` pops
twice, builds an internal node with `c = 0`, the summed frequency and the
two popped nodes as (left, right) in pop order, and pushes it.  No total
order is respected by the pops: insertion never reorders an equal-frequency
tie involving an internal node, while the pop-side comparator ranks
internal nodes (char 0) before equal-frequency leaves, so a pop may return
an internal node while an equal-frequency leaf remains (and the stalled
sift-down can even leave a smaller-frequency node below the root). -/
theorem c7_queue_operations (q : List HuffmanTree) (node l r : HuffmanTree)
    (h : q ≠ []) :
    (pop_min_freq_huffman_queue q).1 = q.headD dflNode ∧
    List.Perm ((pop_min_freq_huffman_queue q).1 :: (pop_min_freq_huffman_queue q).2) q ∧
    List.Perm (append_huffman_queue q node) (node :: q) ∧
    (create_parent_huffman_node l r).data.freq = l.data.freq + r.data.freq ∧
    create_parent_huffman_node l r =
      HuffmanTree.parent ⟨0, l.data.freq + r.data.freq, emptyBitMessage⟩ l r ∧
    (1 < q.length →
      mergeLoop q = mergeLoop
        (append_huffman_queue
          (pop_min_freq_huffman_queue (pop_min_freq_huffman_queue q).2).2
          (create_parent_huffman_node (pop_min_freq_huffman_queue q).1
            (pop_min_freq_huffman_queue (pop_min_freq_huffman_queue q).2).1))) := by
  refine ⟨?_, pop_min_freq_huffman_queue_perm q h,
    append_huffman_queue_perm q node, rfl, rfl, ?_⟩
  · unfold pop_min_freq_huffman_queue
    exact getD_zero_eq_headD q
  · intro h2
    obtain ⟨n, hn⟩ : ∃ n, q.length = n + 2 := ⟨q.length - 2, by omega⟩
    have hlen : (append_huffman_queue
        (pop_min_freq_huffman_queue (pop_min_freq_huffman_queue q).2).2
        (create_parent_huffman_node (pop_min_freq_huffman_queue q).1
          (pop_min_freq_huffman_queue (pop_min_freq_huffman_queue q).2).1)).length
        = n + 1 := by
      simp only [append_huffman_queue_length, pop_min_freq_huffman_queue_length, hn]
      omega
    unfold mergeLoop
    rw [hn, hlen]
    conv_lhs => unfold mergeLoopF
    rw [if_pos h2]

/-- C7 witness: the amended statement at a concrete two-leaf queue. -/
theorem c7_witness :
    ([create_huffman_node ⟨97, 1, emptyBitMessage⟩] : List HuffmanTree) ≠ [] ∧
    ((pop_min_freq_huffman_queue [create_huffman_node ⟨97, 1, emptyBitMessage⟩]).1 =
        [create_huffman_node ⟨97, 1, emptyBitMessage⟩].headD dflNode ∧
      List.Perm
        ((pop_min_freq_huffman_queue [create_huffman_node ⟨97, 1, emptyBitMessage⟩]).1 ::
          (pop_min_freq_huffman_queue [create_huffman_node ⟨97, 1, emptyBitMessage⟩]).2)
        [create_huffman_node ⟨97, 1, emptyBitMessage⟩] ∧
      List.Perm
        (append_huffman_queue [create_huffman_node ⟨97, 1, emptyBitMessage⟩] dflNode)
        (dflNode :: [create_huffman_node ⟨97, 1, emptyBitMessage⟩]) ∧
      (create_parent_huffman_node dflNode dflNode).data.freq =
        dflNode.data.freq + dflNode.data.freq ∧
      create_parent_huffman_node dflNode dflNode =
        HuffmanTree.parent ⟨0, dflNode.data.freq + dflNode.data.freq, emptyBitMessage⟩
          dflNode dflNode ∧
      (1 < ([create_huffman_node ⟨97, 1, emptyBitMessage⟩] : List HuffmanTree).length →
        mergeLoop [create_huffman_node ⟨97, 1, emptyBitMessage⟩] = mergeLoop
          (append_huffman_queue
            (pop_min_freq_huffman_queue
              (pop_min_freq_huffman_queue
                [create_huffman_node ⟨97, 1, emptyBitMessage⟩]).2).2
            (create_parent_huffman_node
              (pop_min_freq_huffman_queue [create_huffman_node ⟨97, 1, emptyBitMessage⟩]).1
              (pop_min_freq_huffman_queue
                (pop_min_freq_huffman_queue
                  [create_huffman_node ⟨97, 1, emptyBitMessage⟩]).2).1)))) :=
  ⟨by decide,
   c7_queue_operations [create_huffman_node ⟨97, 1, emptyBitMessage⟩] dflNode dflNode dflNode
     (by decide)⟩

/-! ## Bit-level semantics of the buffers -/

/-- Bit `p` (MSB-first) of a raw byte buffer: the bit
`get_bit_message_value` reads at position `p`. -/
def listBit (d : List Nat) (p : Nat) : Bool :=
  (d.getD (p / CHAR_BIT) 0).testBit ((CHAR_BIT - 1) - p % CHAR_BIT)

/-- The bit sequence (as booleans) a `BitMessage` denotes: its first
`nbits` bits. -/
def bmBits (m : BitMessage) : List Bool :=
  (List.range m.nbits).map fun k => listBit m.data k

theorem bmBits_length (m : BitMessage) : (bmBits m).length = m.nbits := by
  simp [bmBits]

theorem get_bit_eq_listBit (m : BitMessage) (pos : Nat) :
    get_bit_message_value m pos = if listBit m.data pos then 1 else 0 := by
  unfold get_bit_message_value listBit
  rw [Nat.and_one_is_mod, Nat.shiftRight_eq_div_pow, Nat.testBit_to_div_mod]
  split
  · rename_i h; simp only [decide_eq_true_eq] at h; omega
  · rename_i h; simp only [decide_eq_true_eq] at h
    omega

theorem getD_set_zero_eq (l : List Nat) (i v : Nat) (h : i < l.length) :
    (l.set i v).getD i 0 = v := by
  rw [List.getD_eq_getElem?_getD, List.getElem?_set_self h]
  rfl

theorem getD_set_zero_ne (l : List Nat) (i j v : Nat) (h : i ≠ j) :
    (l.set i v).getD j 0 = l.getD j 0 := by
  rw [List.getD_eq_getElem?_getD, List.getElem?_set_ne h, ← List.getD_eq_getElem?_getD]

theorem testBit_or_pow (a k j : Nat) :
    (a ||| (1 <<< k)).testBit j = (a.testBit j || decide (j = k)) := by
  rw [Nat.testBit_or, Nat.shiftLeft_eq, Nat.one_mul]
  by_cases h : j = k
  · subst h; simp [Nat.testBit_two_pow_self]
  · simp [h, Nat.testBit_two_pow_of_ne (fun hk => h hk.symm)]

theorem testBit_and_mask (a k j : Nat) (hk : k < 8) (hj : j < 8) :
    (a &&& (255 ^^^ (1 <<< k))).testBit j = (a.testBit j && decide (j ≠ k)) := by
  rw [Nat.testBit_and, Nat.testBit_xor, Nat.shiftLeft_eq, Nat.one_mul]
  have h255 : (255 : Nat) = 2 ^ 8 - 1 := rfl
  rw [h255, Nat.testBit_two_pow_sub_one]
  by_cases h : j = k
  · subst h; simp [Nat.testBit_two_pow_self, hj]
  · simp [hj, h, Nat.testBit_two_pow_of_ne (fun hk' => h hk'.symm)]

/-- Effect of `add_one_bit_message_value` on the denoted bits: provided the
written byte is inside the allocation, bit `nbits` becomes the appended
value and every other bit position is unchanged. -/
theorem add_one_bit_listBit (m : BitMessage) (v : Nat) (p : Nat)
    (hw : m.nbits / CHAR_BIT < m.data.length) :
    listBit (add_one_bit_message_value m v).data p =
      if p = m.nbits then decide (v ≠ 0) else listBit m.data p := by
  have hdata : (add_one_bit_message_value m v).data =
      m.data.set (m.nbits / CHAR_BIT)
        (if v ≠ 0 then
          m.data.getD (m.nbits / CHAR_BIT) 0 ||| (1 <<< ((CHAR_BIT - 1) - m.nbits % CHAR_BIT))
         else
          m.data.getD (m.nbits / CHAR_BIT) 0 &&&
            (255 ^^^ (1 <<< ((CHAR_BIT - 1) - m.nbits % CHAR_BIT)))) := rfl
  rw [hdata]
  unfold listBit
  have hCB : CHAR_BIT = 8 := rfl
  by_cases hbyte : p / CHAR_BIT = m.nbits / CHAR_BIT
  · rw [hbyte, getD_set_zero_eq _ _ _ hw]
    by_cases hp : p = m.nbits
    · subst hp
      rw [if_pos rfl]
      by_cases hv : v ≠ 0
      · rw [if_pos hv, testBit_or_pow]
        simp [hv]
      · rw [if_neg hv, testBit_and_mask _ _ _ (by omega) (by omega)]
        simp only [ne_eq, not_not] at hv
        simp [hv]
    · have hmod : p % CHAR_BIT ≠ m.nbits % CHAR_BIT := by
        rw [hCB] at hbyte ⊢
        omega
      have hne : CHAR_BIT - 1 - p % CHAR_BIT ≠ CHAR_BIT - 1 - m.nbits % CHAR_BIT := by
        rw [hCB] at hmod ⊢
        omega
      rw [if_neg hp]
      by_cases hv : v ≠ 0
      · rw [if_pos hv, testBit_or_pow]
        simp [hne]
      · rw [if_neg hv, testBit_and_mask _ _ _ (by omega) (by omega)]
        simp [hne]
  · rw [getD_set_zero_ne _ _ _ _ (fun h => hbyte h.symm),
      if_neg (fun hp => hbyte (by rw [hp]))]

theorem add_one_bit_fields (m : BitMessage) (v : Nat) :
    (add_one_bit_message_value m v).nbits = m.nbits + 1 ∧
    (add_one_bit_message_value m v).data.length = m.data.length ∧
    (add_one_bit_message_value m v).nbytes = (m.nbits + 1) / CHAR_BIT + 1 := by
  unfold add_one_bit_message_value
  exact ⟨rfl, by simp [List.length_set], rfl⟩

/-- MSB-first bit pattern of the low `len` bits of `val`: the pattern the
canonicalisation and header-decode loops materialise. -/
def codeBits (val len : Nat) : List Bool :=
  (List.range len).map fun j => val.testBit (len - 1 - j)

theorem codeBits_length (val len : Nat) : (codeBits val len).length = len := by
  simp [codeBits]

theorem and_one_ne_zero_iff_testBit (x e : Nat) :
    ((x >>> e) &&& 1 ≠ 0) ↔ x.testBit e = true := by
  rw [Nat.and_one_is_mod, Nat.shiftRight_eq_div_pow, Nat.testBit_to_div_mod]
  have := Nat.mod_two_eq_zero_or_one (x / 2 ^ e)
  constructor
  · intro h; simp only [decide_eq_true_eq]; omega
  · intro h; simp only [decide_eq_true_eq] at h; omega

theorem writeStep_listBit (code nbits : Nat) (d : List Nat) (j p : Nat)
    (hj : j / CHAR_BIT < d.length) :
    listBit
      (if (code >>> (nbits - 1 - j)) &&& 1 ≠ 0 then
        d.set (j / CHAR_BIT)
          (d.getD (j / CHAR_BIT) 0 ||| (1 <<< ((CHAR_BIT - 1) - j % CHAR_BIT)))
      else d) p
    = (listBit d p || (decide (p = j) && code.testBit (nbits - 1 - j))) := by
  by_cases hbit : (code >>> (nbits - 1 - j)) &&& 1 ≠ 0
  · have htb : code.testBit (nbits - 1 - j) = true :=
      (and_one_ne_zero_iff_testBit code (nbits - 1 - j)).mp hbit
    rw [if_pos hbit, htb]
    unfold listBit
    by_cases hbyte : p / CHAR_BIT = j / CHAR_BIT
    · rw [hbyte, getD_set_zero_eq _ _ _ hj, testBit_or_pow]
      by_cases hp : p = j
      · subst hp; simp
      · have hCB : CHAR_BIT = 8 := rfl
        have hmod : p % CHAR_BIT ≠ j % CHAR_BIT := by
          rw [hCB] at hbyte ⊢; omega
        have hne : CHAR_BIT - 1 - p % CHAR_BIT ≠ CHAR_BIT - 1 - j % CHAR_BIT := by
          rw [hCB] at hmod ⊢; omega
        simp [hne, hp]
    · rw [getD_set_zero_ne _ _ _ _ (fun h => hbyte h.symm)]
      have hp : p ≠ j := fun h => hbyte (by rw [h])
      simp [hp]
  · have htb : code.testBit (nbits - 1 - j) = false := by
      rcases Bool.eq_false_or_eq_true (code.testBit (nbits - 1 - j)) with h | h
      · exact absurd ((and_one_ne_zero_iff_testBit code (nbits - 1 - j)).mpr h) hbit
      · exact h
    rw [if_neg hbit, htb]
    simp

theorem writeCodeBitsAux_length (code nbits : Nat) (t : Nat) (init : List Nat) :
    ((List.range t).foldl
      (fun d j =>
        if (code >>> (nbits - 1 - j)) &&& 1 ≠ 0 then
          d.set (j / CHAR_BIT)
            (d.getD (j / CHAR_BIT) 0 ||| (1 <<< ((CHAR_BIT - 1) - j % CHAR_BIT)))
        else d)
      init).length = init.length := by
  induction t generalizing init with
  | zero => rfl
  | succ t ih =>
    rw [List.range_succ, List.foldl_append]
    simp only [List.foldl_cons, List.foldl_nil]
    split
    · rw [List.length_set]; exact ih init
    · exact ih init

theorem writeCodeBitsAux_listBit (code nbits nbytes : Nat)
    (h : nbits ≤ CHAR_BIT * nbytes) :
    ∀ (t : Nat), t ≤ nbits → ∀ (p : Nat),
      listBit ((List.range t).foldl
        (fun d j =>
          if (code >>> (nbits - 1 - j)) &&& 1 ≠ 0 then
            d.set (j / CHAR_BIT)
              (d.getD (j / CHAR_BIT) 0 ||| (1 <<< ((CHAR_BIT - 1) - j % CHAR_BIT)))
          else d)
        (List.replicate nbytes 0)) p
      = (decide (p < t) && code.testBit (nbits - 1 - p)) := by
  intro t
  induction t with
  | zero =>
    intro _ p
    simp only [List.range_zero, List.foldl_nil]
    unfold listBit
    rw [getD_replicate_zero]
    simp [Nat.zero_testBit]
  | succ t ih =>
    intro ht p
    rw [List.range_succ, List.foldl_append]
    simp only [List.foldl_cons, List.foldl_nil]
    have hlen : t / CHAR_BIT <
        ((List.range t).foldl
          (fun d j =>
            if (code >>> (nbits - 1 - j)) &&& 1 ≠ 0 then
              d.set (j / CHAR_BIT)
                (d.getD (j / CHAR_BIT) 0 ||| (1 <<< ((CHAR_BIT - 1) - j % CHAR_BIT)))
            else d)
          (List.replicate nbytes 0)).length := by
      rw [writeCodeBitsAux_length, List.length_replicate]
      have hCB : CHAR_BIT = 8 := rfl
      rw [hCB] at h ⊢
      omega
    rw [writeStep_listBit code nbits _ t p hlen, ih (by omega) p]
    by_cases hp : p = t
    · subst hp; simp
    · by_cases hlt : p < t
      · simp [hp, hlt, Nat.lt_succ_of_lt hlt]
      · have : ¬ p < t + 1 := by omega
        simp [hp, hlt, this]

theorem writeCodeBits_length (code nbits nbytes : Nat) :
    (writeCodeBits code nbits (List.replicate nbytes 0)).length = nbytes := by
  unfold writeCodeBits
  rw [writeCodeBitsAux_length, List.length_replicate]

/-- The `BitMessage` materialised from a code value: its denoted bits are
exactly the MSB-first pattern of the value's low `nbits` bits. -/
theorem writeCodeBits_bmBits (code nbits nbytes : Nat)
    (h : nbits ≤ CHAR_BIT * nbytes) :
    bmBits ⟨writeCodeBits code nbits (List.replicate nbytes 0), nbits, nbytes⟩ =
      codeBits code nbits := by
  unfold bmBits codeBits
  refine List.map_congr_left ?_
  intro p hp
  rw [List.mem_range] at hp
  show listBit (writeCodeBits code nbits (List.replicate nbytes 0)) p = _
  unfold writeCodeBits
  rw [writeCodeBitsAux_listBit code nbits nbytes h nbits le_rfl p]
  simp [hp]

theorem take_listBit (d : List Nat) (n : Nat) (p : Nat) (h : p / CHAR_BIT < n) :
    listBit (d.take n) p = listBit d p := by
  unfold listBit
  rw [List.getD_eq_getElem?_getD, List.getD_eq_getElem?_getD, List.getElem?_take_of_lt h]

theorem copy_bit_message_bmBits (src : BitMessage)
    (h : ∀ p < src.nbits, p / CHAR_BIT < src.nbytes) :
    bmBits (copy_bit_message src) = bmBits src := by
  unfold bmBits copy_bit_message
  refine List.map_congr_left ?_
  intro p hp
  rw [List.mem_range] at hp
  exact take_listBit src.data src.nbytes p (h p hp)

theorem getD_set_eq' {α : Type} (l : List α) (i : Nat) (v d : α) (h : i < l.length) :
    (l.set i v).getD i d = v := by
  rw [List.getD_eq_getElem?_getD, List.getElem?_set_self h]
  rfl

theorem getD_set_ne' {α : Type} (l : List α) (i j : Nat) (v d : α) (h : i ≠ j) :
    (l.set i v).getD j d = l.getD j d := by
  rw [List.getD_eq_getElem?_getD, List.getElem?_set_ne h, ← List.getD_eq_getElem?_getD]

/-! ## Appending code bits to the payload -/

theorem appendCode_aux (codeBM : BitMessage) :
    ∀ (t : Nat) (acc : BitMessage), acc.nbits + t ≤ CHAR_BIT * acc.data.length →
      ((List.range t).foldl
          (fun m k => add_one_bit_message_value m (get_bit_message_value codeBM k))
          acc).data.length = acc.data.length ∧
      ((List.range t).foldl
          (fun m k => add_one_bit_message_value m (get_bit_message_value codeBM k))
          acc).nbits = acc.nbits + t ∧
      ∀ p, listBit ((List.range t).foldl
          (fun m k => add_one_bit_message_value m (get_bit_message_value codeBM k))
          acc).data p =
        if acc.nbits ≤ p ∧ p < acc.nbits + t then listBit codeBM.data (p - acc.nbits)
        else listBit acc.data p := by
  intro t
  induction t with
  | zero =>
    intro acc _
    refine ⟨rfl, rfl, ?_⟩
    intro p
    have hno : ¬ (acc.nbits ≤ p ∧ p < acc.nbits) := by omega
    simp [hno]
  | succ t ih =>
    intro acc hbound
    obtain ⟨hlen, hnb, hbits⟩ := ih acc (by omega)
    rw [List.range_succ, List.foldl_append]
    simp only [List.foldl_cons, List.foldl_nil]
    set r := (List.range t).foldl
      (fun m k => add_one_bit_message_value m (get_bit_message_value codeBM k)) acc with hr
    have hw : r.nbits / CHAR_BIT < r.data.length := by
      rw [hnb, hlen]
      have hCB : CHAR_BIT = 8 := rfl
      rw [hCB] at hbound ⊢
      omega
    obtain ⟨hf1, hf2, _⟩ := add_one_bit_fields r (get_bit_message_value codeBM t)
    refine ⟨by rw [hf2, hlen], by rw [hf1, hnb]; omega, ?_⟩
    intro p
    rw [add_one_bit_listBit r _ p hw, hnb]
    by_cases hp : p = acc.nbits + t
    · subst hp
      have hc1 : acc.nbits ≤ acc.nbits + t ∧ acc.nbits + t < acc.nbits + (t + 1) := by omega
      rw [if_pos rfl, if_pos hc1]
      rw [get_bit_eq_listBit]
      rcases Bool.eq_false_or_eq_true (listBit codeBM.data t) with h | h <;>
        simp [h, Nat.add_sub_cancel_left]
    · rw [if_neg hp, hbits p]
      by_cases hin : acc.nbits ≤ p ∧ p < acc.nbits + t
      · have hin' : acc.nbits ≤ p ∧ p < acc.nbits + (t + 1) := by omega
        rw [if_pos hin, if_pos hin']
      · have hin' : ¬ (acc.nbits ≤ p ∧ p < acc.nbits + (t + 1)) := by omega
        rw [if_neg hin, if_neg hin']

theorem range_map_listBit (m : BitMessage) (a : Nat) :
    (List.range m.nbits).map (fun k => listBit m.data k) = bmBits m := rfl

theorem appendCode_bmBits (codeBM acc : BitMessage)
    (hbound : acc.nbits + codeBM.nbits ≤ CHAR_BIT * acc.data.length) :
    bmBits ((List.range codeBM.nbits).foldl
      (fun m k => add_one_bit_message_value m (get_bit_message_value codeBM k)) acc) =
      bmBits acc ++ bmBits codeBM := by
  obtain ⟨hlen, hnb, hbits⟩ := appendCode_aux codeBM codeBM.nbits acc hbound
  set r := (List.range codeBM.nbits).foldl
    (fun m k => add_one_bit_message_value m (get_bit_message_value codeBM k)) acc with hr
  have hlen2 : (bmBits r).length = (bmBits acc ++ bmBits codeBM).length := by
    simp [bmBits_length, hnb]
  refine List.ext_getElem (by simpa using hlen2) ?_
  intro p hp1 hp2
  have hpn : p < acc.nbits + codeBM.nbits := by
    simpa [bmBits_length, hnb] using hp1
  have hbm : (bmBits r)[p] = listBit r.data p := by
    unfold bmBits
    simp [List.getElem_map, List.getElem_range]
  rw [hbm, hbits p]
  by_cases hlt : p < acc.nbits
  · have : ¬ (acc.nbits ≤ p ∧ p < acc.nbits + codeBM.nbits) := by omega
    rw [if_neg this, List.getElem_append_left (by simpa [bmBits_length] using hlt)]
    unfold bmBits
    simp [List.getElem_map, List.getElem_range]
  · have hc : acc.nbits ≤ p ∧ p < acc.nbits + codeBM.nbits := by omega
    rw [if_pos hc, List.getElem_append_right (by simp [bmBits_length]; omega)]
    unfold bmBits
    simp [List.getElem_map, List.getElem_range, bmBits_length]

/-! ## The encode-message loop -/

/-- Total payload bits of a message under a per-char entry assignment. -/
def totalBits (f : Nat → CharCode) (message : List Nat) : Nat :=
  (message.map fun ch => (f ch).code.nbits).sum

theorem encodeMessageLoop_spec (lookup : List (Option CharCode)) (f : Nat → CharCode) :
    ∀ (message : List Nat) (acc : BitMessage),
      (∀ ch ∈ message, lookup.getD (uintOfChar ch) none = some (f ch)) →
      (∀ ch ∈ message, (f ch).c = ch) →
      acc.nbits + totalBits f message ≤ CHAR_BIT * acc.data.length →
      ∃ r, encodeMessageLoop lookup message acc = some r ∧
        r.data.length = acc.data.length ∧
        r.nbits = acc.nbits + totalBits f message ∧
        bmBits r = bmBits acc ++ (message.map fun ch => bmBits (f ch).code).flatten := by
  intro message
  induction message with
  | nil =>
    intro acc _ _ _
    exact ⟨acc, rfl, rfl, by simp [totalBits], by simp⟩
  | cons ch rest ih =>
    intro acc hlook hc hbound
    have htot : totalBits f (ch :: rest) = (f ch).code.nbits + totalBits f rest := by
      simp [totalBits]
    unfold encodeMessageLoop
    rw [hlook ch (List.mem_cons_self ch rest)]
    simp only []
    rw [if_neg (by
      have := hc ch (List.mem_cons_self ch rest)
      simp [this])]
    set acc1 := (List.range (f ch).code.nbits).foldl
      (fun m k => add_one_bit_message_value m (get_bit_message_value (f ch).code k)) acc
      with hacc1
    have hbound1 : acc.nbits + (f ch).code.nbits ≤ CHAR_BIT * acc.data.length := by
      rw [htot] at hbound; omega
    obtain ⟨hlen1, hnb1, _⟩ := appendCode_aux (f ch).code (f ch).code.nbits acc hbound1
    have hbm1 : bmBits acc1 = bmBits acc ++ bmBits (f ch).code :=
      appendCode_bmBits (f ch).code acc hbound1
    obtain ⟨r, hr, hrlen, hrnb, hrbits⟩ := ih acc1
      (fun x hx => hlook x (List.mem_cons_of_mem ch hx))
      (fun x hx => hc x (List.mem_cons_of_mem ch hx))
      (by rw [hnb1, hlen1]; rw [htot] at hbound; omega)
    refine ⟨r, hr, by rw [hrlen, hlen1], by rw [hrnb, hnb1, htot]; omega, ?_⟩
    rw [hrbits, hbm1]
    simp [List.append_assoc]

theorem uintOfChar_lt_128 (c : Nat) (h : c < 128) : uintOfChar c = c := if_pos h

theorem lookup_fold_preserve (es : List CharCode) (i : Nat) :
    ∀ tbl : List (Option CharCode), (∀ cc ∈ es, uintOfChar cc.c ≠ i) →
      (es.foldl (fun tbl cc => tbl.set (uintOfChar cc.c) (some cc)) tbl).getD i none =
        tbl.getD i none := by
  induction es with
  | nil => intro tbl _; rfl
  | cons e rest ih =>
    intro tbl hne
    simp only [List.foldl_cons]
    rw [ih _ (fun cc hcc => hne cc (List.mem_cons_of_mem e hcc))]
    exact getD_set_ne' tbl _ i (some e) none (hne e (List.mem_cons_self e rest))

theorem lookup_fold_getD (es : List CharCode) :
    ∀ (tbl : List (Option CharCode)) (cc : CharCode),
      (es.map (fun x => x.c)).Nodup → (∀ x ∈ es, x.c < 128) → tbl.length = MAX_CHAR →
      cc ∈ es →
      (es.foldl (fun tbl x => tbl.set (uintOfChar x.c) (some x)) tbl).getD
        (uintOfChar cc.c) none = some cc := by
  induction es with
  | nil => intro tbl cc _ _ _ hmem; cases hmem
  | cons e rest ih =>
    intro tbl cc hnd hlt hlen hmem
    simp only [List.foldl_cons]
    rcases List.mem_cons.mp hmem with rfl | hmem'
    · rw [lookup_fold_preserve rest (uintOfChar cc.c) _ ?_]
      · refine getD_set_eq' tbl _ (some cc) none ?_
        rw [hlen, uintOfChar_lt_128 _ (hlt cc (List.mem_cons_self cc rest))]
        unfold MAX_CHAR
        have := hlt cc (List.mem_cons_self cc rest)
        omega
      · intro x hx
        rw [uintOfChar_lt_128 _ (hlt x (List.mem_cons_of_mem cc hx)),
          uintOfChar_lt_128 _ (hlt cc (List.mem_cons_self cc rest))]
        intro heq
        have hnd' : (∀ x ∈ rest, ¬ x.c = cc.c) ∧ (rest.map (fun x => x.c)).Nodup := by
          simpa using hnd
        exact hnd'.1 x hx heq
    · have hnd' : (∀ x ∈ rest, ¬ x.c = e.c) ∧ (rest.map (fun x => x.c)).Nodup := by
        simpa using hnd
      exact ih _ cc hnd'.2 (fun x hx => hlt x (List.mem_cons_of_mem e hx))
        (by simp [hlen, List.length_set]) hmem'

theorem find?_of_nodup_mem (es : List CharCode) (cc : CharCode)
    (hnd : (es.map (fun x => x.c)).Nodup) (hmem : cc ∈ es) :
    es.find? (fun x => x.c == cc.c) = some cc := by
  induction es with
  | nil => cases hmem
  | cons e rest ih =>
    have hnd' : (∀ x ∈ rest, ¬ x.c = e.c) ∧ (rest.map (fun x => x.c)).Nodup := by
      simpa using hnd
    rcases List.mem_cons.mp hmem with rfl | hmem'
    · rw [List.find?_cons_of_pos _ (by simp)]
    · rw [List.find?_cons_of_neg, ih hnd'.2 hmem']
      simp only [beq_iff_eq]
      intro heq
      exact hnd'.1 cc hmem' (heq.symm)

theorem capacity_inner (ch : Nat) (es : List CharCode) :
    ∀ cap : Nat,
      es.foldl (fun cap2 cc => if cc.c = ch then cap2 + cc.code.nbits else cap2) cap
        = cap + ((es.filter (fun cc => decide (cc.c = ch))).map
            (fun cc => cc.code.nbits)).sum := by
  induction es with
  | nil => intro cap; simp
  | cons e rest ih =>
    intro cap
    simp only [List.foldl_cons]
    by_cases he : e.c = ch
    · rw [if_pos he, ih (cap + e.code.nbits), List.filter_cons_of_pos (by simp [he])]
      simp; omega
    · rw [if_neg he, ih cap, List.filter_cons_of_neg (by simp [he])]

theorem filter_char_eq (es : List CharCode) (cc : CharCode)
    (hnd : (es.map (fun x => x.c)).Nodup) (hmem : cc ∈ es) :
    es.filter (fun x => decide (x.c = cc.c)) = [cc] := by
  induction es with
  | nil => cases hmem
  | cons e rest ih =>
    have hnd' : (∀ x ∈ rest, ¬ x.c = e.c) ∧ (rest.map (fun x => x.c)).Nodup := by
      simpa using hnd
    rcases List.mem_cons.mp hmem with rfl | hmem'
    · rw [List.filter_cons_of_pos (by simp)]
      congr 1
      rw [List.filter_eq_nil_iff]
      intro x hx
      simp only [decide_eq_true_eq]
      exact hnd'.1 x hx
    · rw [List.filter_cons_of_neg (by
        simp only [decide_eq_true_eq]
        exact fun heq => hnd'.1 cc hmem' (heq.symm ▸ rfl)), ih hnd'.2 hmem']

theorem capacity_eq_totalBits (alphabet : List CharCode) (f : Nat → CharCode)
    (hnd : (alphabet.map (fun x => x.c)).Nodup) :
    ∀ (message : List Nat) (cap : Nat),
      (∀ ch ∈ message, f ch ∈ alphabet ∧ (f ch).c = ch) →
      message.foldl
        (fun cap ch =>
          alphabet.foldl (fun cap2 cc => if cc.c = ch then cap2 + cc.code.nbits else cap2) cap)
        cap = cap + totalBits f message := by
  intro message
  induction message with
  | nil => intro cap _; simp [totalBits]
  | cons ch rest ih =>
    intro cap hmem
    simp only [List.foldl_cons]
    rw [capacity_inner ch alphabet cap]
    have h1 := hmem ch (List.mem_cons_self ch rest)
    have hfilter : alphabet.filter (fun cc => decide (cc.c = ch)) = [f ch] := by
      have := filter_char_eq alphabet (f ch) hnd h1.1
      rw [h1.2] at this
      exact this
    rw [hfilter, ih _ (fun x hx => hmem x (List.mem_cons_of_mem ch hx))]
    simp [totalBits]
    omega

theorem huffman_encode_message_spec (message : List Nat) (alphabet : List CharCode)
    (f : Nat → CharCode)
    (hnd : (alphabet.map (fun x => x.c)).Nodup)
    (hlt : ∀ cc ∈ alphabet, cc.c < 128)
    (hmemf : ∀ ch ∈ message, f ch ∈ alphabet ∧ (f ch).c = ch)
    (hlen : 0 < alphabet.length) :
    ∃ r, huffman_encode_message message alphabet emptyBitMessage = some (0, r) ∧
      r.nbits = totalBits f message ∧
      bmBits r = (message.map fun ch => bmBits (f ch).code).flatten := by
  unfold huffman_encode_message
  rw [if_neg (by simp [emptyBitMessage]), if_neg (by omega)]
  simp only []
  rw [capacity_eq_totalBits alphabet f hnd message 0 hmemf]
  have hlook : ∀ ch ∈ message,
      (alphabet.foldl (fun tbl cc => tbl.set (uintOfChar cc.c) (some cc))
        (List.replicate MAX_CHAR (none : Option CharCode))).getD (uintOfChar ch) none =
        some (f ch) := by
    intro ch hch
    have h1 := hmemf ch hch
    have := lookup_fold_getD alphabet (List.replicate MAX_CHAR none) (f ch) hnd hlt
      (by simp) h1.1
    rw [h1.2] at this
    exact this
  obtain ⟨r, hr, hrlen, hrnb, hrbits⟩ := encodeMessageLoop_spec
    (alphabet.foldl (fun tbl cc => tbl.set (uintOfChar cc.c) (some cc))
      (List.replicate MAX_CHAR (none : Option CharCode))) f message
    ⟨List.replicate ((0 + totalBits f message) / CHAR_BIT + 1) 0, 0, 0⟩
    hlook (fun ch hch => (hmemf ch hch).2)
    (by
      simp only [List.length_replicate]
      have hCB : CHAR_BIT = 8 := rfl
      rw [hCB]
      omega)
  refine ⟨r, ?_, by rw [hrnb]; simp, by rw [hrbits]; simp [bmBits, emptyBitMessage]⟩
  rw [hr]
  rfl

/-! ## Tree shape, leaves and code paths -/

/-- The leaf payloads of a tree, left to right (each aliases an alphabet
entry). -/
def treeLeaves : HuffmanTree → List CharCode
  | .leaf d => [d]
  | .parent _ l r => treeLeaves l ++ treeLeaves r

/-- Height of a tree (leaf = 0). -/
def HuffmanTree.height : HuffmanTree → Nat
  | .leaf _ => 0
  | .parent _ l r => 1 + max l.height r.height

/-- The `(char, path)` pairs `_generate_huffman_code` assigns, at the
mathematical level: bit 0 on left edges, bit 1 on right edges, and the
single-leaf special case forcing one 0 bit on an empty path. -/
def treeCodes : HuffmanTree → List Bool → List (Nat × List Bool)
  | .leaf d, p => [(d.c, if p.isEmpty then [false] else p)]
  | .parent _ l r, p => treeCodes l (p ++ [false]) ++ treeCodes r (p ++ [true])

theorem treeLeaves_ne_nil (t : HuffmanTree) : treeLeaves t ≠ [] := by
  induction t with
  | leaf d => simp [treeLeaves]
  | parent d l r ihl ihr => simp [treeLeaves, ihl]

theorem height_lt_leaves (t : HuffmanTree) : t.height + 1 ≤ (treeLeaves t).length := by
  induction t with
  | leaf d => simp [treeLeaves, HuffmanTree.height]
  | parent d l r ihl ihr =>
    have hl := List.length_pos.mpr (treeLeaves_ne_nil l)
    have hr := List.length_pos.mpr (treeLeaves_ne_nil r)
    simp only [treeLeaves, HuffmanTree.height, List.length_append]
    omega

theorem treeCodes_chars (t : HuffmanTree) (p : List Bool) :
    (treeCodes t p).map (fun pr => pr.1) = (treeLeaves t).map (fun cc => cc.c) := by
  induction t generalizing p with
  | leaf d => simp [treeCodes, treeLeaves]
  | parent d l r ihl ihr => simp [treeCodes, treeLeaves, ihl, ihr]

theorem treeCodes_length_pos (t : HuffmanTree) (p : List Bool) :
    ∀ pr ∈ treeCodes t p, 1 ≤ pr.2.length := by
  induction t generalizing p with
  | leaf d =>
    intro pr hpr
    simp only [treeCodes, List.mem_singleton] at hpr
    subst hpr
    by_cases hp : p.isEmpty
    · simp [hp]
    · simp only [hp, if_false]
      cases p with
      | nil => simp at hp
      | cons b bs => simp
  | parent d l r ihl ihr =>
    intro pr hpr
    rcases List.mem_append.mp hpr with h | h
    · exact ihl (p ++ [false]) pr h
    · exact ihr (p ++ [true]) pr h

/-- Kraft inequality for the code paths of a tree, scaled by `2^D`. -/
theorem treeCodes_kraft (t : HuffmanTree) (p : List Bool) (D : Nat)
    (hD : p.length + t.height ≤ D) :
    ((treeCodes t p).map (fun pr => 2 ^ (D - pr.2.length))).sum ≤ 2 ^ (D - p.length) := by
  induction t generalizing p with
  | leaf d =>
    by_cases hp : p.isEmpty
    · have hpnil : p = [] := List.isEmpty_iff.mp hp
      subst hpnil
      simp only [treeCodes, List.isEmpty_nil, if_pos, List.map_cons, List.map_nil,
        List.sum_cons, List.sum_nil, List.length_singleton, List.length_nil, Nat.sub_zero]
      have h1 : 2 ^ (D - 1) ≤ 2 ^ D := Nat.pow_le_pow_right (by omega) (by omega)
      omega
    · simp only [treeCodes, List.map_cons, List.map_nil, List.sum_cons, List.sum_nil]
      rw [if_neg hp]
      omega
  | parent d l r ihl ihr =>
    simp only [treeCodes, List.map_append, List.sum_append]
    simp only [HuffmanTree.height] at hD
    have hbl := ihl (p ++ [false]) (by simp; omega)
    have hbr := ihr (p ++ [true]) (by simp; omega)
    simp only [List.length_append, List.length_singleton] at hbl hbr
    have hsplit : 2 ^ (D - p.length) = 2 ^ (D - (p.length + 1)) + 2 ^ (D - (p.length + 1)) := by
      have h1 : D - p.length = (D - (p.length + 1)) + 1 := by omega
      rw [h1, Nat.pow_succ]
      omega
    omega

/-! ## The traversal writes each leaf its path -/

/-- Relation between the shared code buffer and the abstract path it holds
during the `_generate_huffman_code` traversal: allocation size, counters,
and the first `nbits` denoted bits. -/
def Represents (buf : BitMessage) (p : List Bool) (cap : Nat) : Prop :=
  buf.data.length = cap ∧ buf.nbits = p.length ∧
  (buf.nbytes = buf.nbits / CHAR_BIT + 1 ∨ (buf.nbits = 0 ∧ buf.nbytes = 0)) ∧
  ∀ q < p.length, listBit buf.data q = p.getD q false

theorem Represents.add {buf : BitMessage} {p : List Bool} {cap : Nat}
    (h : Represents buf p cap) (hlt : p.length < CHAR_BIT * cap) (v : Nat) :
    Represents (add_one_bit_message_value buf v) (p ++ [decide (v ≠ 0)]) cap := by
  obtain ⟨hlen, hnb, _, hagree⟩ := h
  have hCB : CHAR_BIT = 8 := rfl
  have hw : buf.nbits / CHAR_BIT < buf.data.length := by
    rw [hnb, hlen, hCB]; rw [hCB] at hlt; omega
  obtain ⟨hf1, hf2, hf3⟩ := add_one_bit_fields buf v
  refine ⟨by rw [hf2, hlen], by rw [hf1, hnb]; simp, by left; rw [hf3, hf1], ?_⟩
  intro q hq
  rw [add_one_bit_listBit buf v q hw, hnb]
  simp only [List.length_append, List.length_singleton] at hq
  by_cases hqp : q = p.length
  · subst hqp
    rw [if_pos rfl, List.getD_eq_getElem?_getD, List.getElem?_append_right le_rfl]
    simp
  · have hql : q < p.length := by omega
    rw [if_neg hqp, hagree q hql]
    simp [List.getD_eq_getElem?_getD, List.getElem?_append_left hql]

theorem Represents.remove {buf : BitMessage} {p : List Bool} {b : Bool} {cap : Nat}
    (h : Represents buf (p ++ [b]) cap) :
    Represents (remove_one_bit_message_value buf) p cap := by
  obtain ⟨hlen, hnb, _, hagree⟩ := h
  simp only [List.length_append, List.length_singleton] at hnb
  refine ⟨hlen, by unfold remove_one_bit_message_value; simp [hnb], ?_, ?_⟩
  · left
    unfold remove_one_bit_message_value
    simp [hnb]
  · intro q hq
    unfold remove_one_bit_message_value
    simp only []
    rw [hagree q (by simp; omega), List.getD_eq_getElem?_getD,
      List.getElem?_append_left hq, ← List.getD_eq_getElem?_getD]

theorem bmBits_eq_of_agree (buf : BitMessage) (p : List Bool)
    (hnb : buf.nbits = p.length)
    (hagree : ∀ q < p.length, listBit buf.data q = p.getD q false) :
    bmBits buf = p := by
  refine List.ext_getElem (by simp [bmBits_length, hnb]) ?_
  intro q hq1 hq2
  have hql : q < p.length := hq2
  have h1 : (bmBits buf)[q] = listBit buf.data q := by
    unfold bmBits
    simp [List.getElem_map, List.getElem_range]
  rw [h1, hagree q hql, List.getD_eq_getElem?_getD, List.getElem?_eq_getElem hq2]
  rfl

/-- The property each traversal assignment has relative to its abstract
`(char, path)` pair. -/
def CodeMatches (a : Nat × BitMessage) (b : Nat × List Bool) : Prop :=
  a.1 = b.1 ∧ a.2.nbits = b.2.length ∧ a.2.nbytes = b.2.length / CHAR_BIT + 1 ∧
  a.2.data.length = b.2.length / CHAR_BIT + 1 ∧ bmBits a.2 = b.2

theorem leaf_code_matches (buf : BitMessage) (p : List Bool) (cap : Nat) (c : Nat)
    (hrep : Represents buf p cap) (hne : p ≠ []) (hbound : p.length < CHAR_BIT * cap) :
    CodeMatches (c, copy_bit_message buf) (c, p) := by
  obtain ⟨hlen, hnb, hby, hagree⟩ := hrep
  have hplen : 0 < p.length := List.length_pos.mpr hne
  have hby' : buf.nbytes = buf.nbits / CHAR_BIT + 1 := by
    rcases hby with h | h
    · exact h
    · omega
  have hCB : CHAR_BIT = 8 := rfl
  refine ⟨rfl, hnb, by rw [show (copy_bit_message buf).nbytes = buf.nbytes from rfl, hby', hnb],
    ?_, ?_⟩
  · show (buf.data.take buf.nbytes).length = p.length / CHAR_BIT + 1
    rw [List.length_take, hby', hnb, hlen]
    rw [hCB] at hbound ⊢
    omega
  · have hcopy := copy_bit_message_bmBits buf (by
      intro q hq
      rw [hby']
      rw [hCB] at hbound ⊢
      omega)
    rw [hcopy]
    exact bmBits_eq_of_agree buf p hnb hagree

theorem generate_code_aux (t : HuffmanTree) :
    ∀ (p : List Bool) (buf : BitMessage) (cap : Nat),
      p ≠ [] → Represents buf p cap → p.length + t.height < CHAR_BIT * cap →
      List.Forall₂ CodeMatches (_generate_huffman_code t buf).1 (treeCodes t p) ∧
      Represents (_generate_huffman_code t buf).2 p cap := by
  induction t with
  | leaf d =>
    intro p buf cap hne hrep hbound
    have hnb0 : ¬ buf.nbits = 0 := by
      have := hrep.2.1
      have := List.length_pos.mpr hne
      omega
    have hgen : _generate_huffman_code (.leaf d) buf = ([(d.c, copy_bit_message buf)], buf) := by
      unfold _generate_huffman_code
      simp [hnb0]
    rw [hgen]
    have hcodes : treeCodes (.leaf d) p = [(d.c, p)] := by
      unfold treeCodes
      rw [if_neg (by simpa [List.isEmpty_iff] using hne)]
    rw [hcodes]
    refine ⟨List.forall₂_cons.mpr ⟨?_, List.Forall₂.nil⟩, hrep⟩
    exact leaf_code_matches buf p cap d.c hrep hne (by
      have hh : HuffmanTree.height (.leaf d) = 0 := rfl
      rw [hh] at hbound
      omega)
  | parent dd l r ihl ihr =>
    intro p buf cap hne hrep hbound
    have hheight : HuffmanTree.height (.parent dd l r) = 1 + max l.height r.height := rfl
    have hb1 : p.length < CHAR_BIT * cap := by rw [hheight] at hbound; omega
    have hrep1 : Represents (add_one_bit_message_value buf 0) (p ++ [false]) cap := by
      have := hrep.add hb1 0
      simpa using this
    have hbl : (p ++ [false]).length + l.height < CHAR_BIT * cap := by
      simp only [List.length_append, List.length_singleton]
      rw [hheight] at hbound
      omega
    obtain ⟨hfl, hrepl⟩ := ihl (p ++ [false]) (add_one_bit_message_value buf 0) cap
      (by simp) hrep1 hbl
    have hrep3 : Represents
        (remove_one_bit_message_value (_generate_huffman_code l
          (add_one_bit_message_value buf 0)).2) p cap := hrepl.remove
    have hrep4 : Represents
        (add_one_bit_message_value (remove_one_bit_message_value
          (_generate_huffman_code l (add_one_bit_message_value buf 0)).2) 1)
        (p ++ [true]) cap := by
      have := hrep3.add hb1 1
      simpa using this
    have hbr : (p ++ [true]).length + r.height < CHAR_BIT * cap := by
      simp only [List.length_append, List.length_singleton]
      rw [hheight] at hbound
      omega
    obtain ⟨hfr, hrepr⟩ := ihr (p ++ [true]) _ cap (by simp) hrep4 hbr
    have hgen : _generate_huffman_code (.parent dd l r) buf =
        ((_generate_huffman_code l (add_one_bit_message_value buf 0)).1 ++
          (_generate_huffman_code r (add_one_bit_message_value
            (remove_one_bit_message_value (_generate_huffman_code l
              (add_one_bit_message_value buf 0)).2) 1)).1,
         remove_one_bit_message_value (_generate_huffman_code r
           (add_one_bit_message_value (remove_one_bit_message_value
             (_generate_huffman_code l (add_one_bit_message_value buf 0)).2) 1)).2) := rfl
    have hcodes : treeCodes (.parent dd l r) p =
        treeCodes l (p ++ [false]) ++ treeCodes r (p ++ [true]) := rfl
    rw [hgen, hcodes]
    exact ⟨List.rel_append hfl hfr, hrepr.remove⟩

theorem generate_code_root (t : HuffmanTree) (cap : Nat)
    (hbound : t.height + 1 < CHAR_BIT * cap) :
    List.Forall₂ CodeMatches
      (_generate_huffman_code t ⟨List.replicate cap 0, 0, 0⟩).1
      (treeCodes t []) := by
  have hCB : CHAR_BIT = 8 := rfl
  have hrep0 : Represents ⟨List.replicate cap 0, 0, 0⟩ [] cap :=
    ⟨by simp, rfl, Or.inr ⟨rfl, rfl⟩, by intro q hq; simp at hq⟩
  have hb0 : ([] : List Bool).length < CHAR_BIT * cap := by
    simp only [List.length_nil]
    rw [hCB] at hbound ⊢
    omega
  cases t with
  | leaf d =>
    have hrep1 : Represents (add_one_bit_message_value ⟨List.replicate cap 0, 0, 0⟩ 0)
        [false] cap := by
      have := hrep0.add hb0 0
      simpa using this
    have hgen : _generate_huffman_code (.leaf d) ⟨List.replicate cap 0, 0, 0⟩ =
        ([(d.c, copy_bit_message (add_one_bit_message_value ⟨List.replicate cap 0, 0, 0⟩ 0))],
         add_one_bit_message_value ⟨List.replicate cap 0, 0, 0⟩ 0) := rfl
    have hcodes : treeCodes (.leaf d) [] = [(d.c, [false])] := rfl
    rw [hgen, hcodes]
    refine List.forall₂_cons.mpr ⟨?_, List.Forall₂.nil⟩
    refine leaf_code_matches _ [false] cap d.c hrep1 (by simp) ?_
    have hh : HuffmanTree.height (.leaf d) = 0 := rfl
    rw [hh] at hbound
    simp only [List.length_singleton]
    omega
  | parent dd l r =>
    have hheight : HuffmanTree.height (.parent dd l r) = 1 + max l.height r.height := rfl
    have hrep1 : Represents (add_one_bit_message_value ⟨List.replicate cap 0, 0, 0⟩ 0)
        [false] cap := by
      have := hrep0.add hb0 0
      simpa using this
    have hbl : ([false] : List Bool).length + l.height < CHAR_BIT * cap := by
      simp only [List.length_singleton]
      rw [hheight] at hbound
      omega
    obtain ⟨hfl, hrepl⟩ := generate_code_aux l [false]
      (add_one_bit_message_value ⟨List.replicate cap 0, 0, 0⟩ 0) cap (by simp) hrep1 hbl
    have hrep3 : Represents
        (remove_one_bit_message_value (_generate_huffman_code l
          (add_one_bit_message_value ⟨List.replicate cap 0, 0, 0⟩ 0)).2) [] cap := by
      have : ([] : List Bool) ++ [false] = [false] := rfl
      exact Represents.remove (by rw [this]; exact hrepl)
    have hrep4 : Represents
        (add_one_bit_message_value (remove_one_bit_message_value
          (_generate_huffman_code l (add_one_bit_message_value
            ⟨List.replicate cap 0, 0, 0⟩ 0)).2) 1)
        [true] cap := by
      have := hrep3.add hb0 1
      simpa using this
    have hbr : ([true] : List Bool).length + r.height < CHAR_BIT * cap := by
      simp only [List.length_singleton]
      rw [hheight] at hbound
      omega
    obtain ⟨hfr, _⟩ := generate_code_aux r [true] _ cap (by simp) hrep4 hbr
    have hgen : _generate_huffman_code (.parent dd l r) ⟨List.replicate cap 0, 0, 0⟩ =
        ((_generate_huffman_code l (add_one_bit_message_value
            ⟨List.replicate cap 0, 0, 0⟩ 0)).1 ++
          (_generate_huffman_code r (add_one_bit_message_value
            (remove_one_bit_message_value (_generate_huffman_code l
              (add_one_bit_message_value ⟨List.replicate cap 0, 0, 0⟩ 0)).2) 1)).1,
         remove_one_bit_message_value (_generate_huffman_code r
           (add_one_bit_message_value (remove_one_bit_message_value
             (_generate_huffman_code l (add_one_bit_message_value
               ⟨List.replicate cap 0, 0, 0⟩ 0)).2) 1)).2) := rfl
    have hcodes : treeCodes (.parent dd l r) [] =
        treeCodes l [false] ++ treeCodes r [true] := rfl
    rw [hgen, hcodes]
    exact List.rel_append hfl hfr

/-! ## The single-symbol pipeline (input one repeated byte) -/

theorem filterMap_range_single {α : Type} (N b : Nat) (hb : b < N)
    (f : Nat → Option α) (a : α) (hfb : f b = some a)
    (hother : ∀ i < N, i ≠ b → f i = none) :
    (List.range N).filterMap f = [a] := by
  have hsplit : N = (b + 1) + (N - (b + 1)) := by omega
  rw [hsplit, List.range_add, List.filterMap_append, List.range_succ, List.filterMap_append]
  have h1 : (List.range b).filterMap f = [] := by
    rw [List.filterMap_eq_nil]
    intro x hx
    have hxb := List.mem_range.mp hx
    exact hother x (by omega) (by omega)
  have h2 : ([b] : List Nat).filterMap f = [a] := by simp [hfb]
  have h3 : ∀ (g : Nat → Nat), (∀ j, g j = b + 1 + j) →
      ((List.range (N - (b + 1))).map g).filterMap f = [] := by
    intro g hg
    rw [List.filterMap_eq_nil]
    intro x hx
    rcases List.mem_map.mp hx with ⟨j, hj, rfl⟩
    have hjN : j < N - (b + 1) := List.mem_range.mp hj
    rw [hg j]
    exact hother _ (by omega) (by omega)
  rw [h1, h2, h3 _ (fun j => rfl)]
  rfl

theorem build_alphabet_replicate (n b : Nat) (hn : 0 < n) (hb : b < MAX_CHAR) :
    build_alphabet (List.replicate n b) = [⟨b, n, emptyBitMessage⟩] := by
  have hfreq : ∀ i, i < MAX_CHAR →
      (count_frequencies (List.replicate n b) (List.replicate MAX_CHAR 0)).getD i 0 =
        if i = b then n else 0 := by
    intro i hi
    rw [count_frequencies_getD i hi _ _ (by simp)
      (by intro x hx; rw [List.eq_of_mem_replicate hx]; exact hb)]
    rw [getD_replicate_zero, List.count_replicate, Nat.zero_add]
    rcases eq_or_ne i b with rfl | hib
    · simp
    · rw [if_neg (by simpa using Ne.symm hib), if_neg hib]
  have hfm : (List.range MAX_CHAR).filterMap (fun i =>
      if (count_frequencies (List.replicate n b) (List.replicate MAX_CHAR 0)).getD i 0 > 0 then
        some (⟨i, (count_frequencies (List.replicate n b)
          (List.replicate MAX_CHAR 0)).getD i 0, emptyBitMessage⟩ : CharCode)
      else none) = [⟨b, n, emptyBitMessage⟩] := by
    refine filterMap_range_single MAX_CHAR b hb _ _ ?_ ?_
    · rw [hfreq b hb]
      simp [hn]
    · intro i hi hib
      rw [hfreq i hi, if_neg hib]
      simp
  show (((List.range MAX_CHAR).filterMap (fun i =>
      if (count_frequencies (List.replicate n b) (List.replicate MAX_CHAR 0)).getD i 0 > 0 then
        some (⟨i, (count_frequencies (List.replicate n b)
          (List.replicate MAX_CHAR 0)).getD i 0, emptyBitMessage⟩ : CharCode)
      else none)).insertionSort freqOrder) = [⟨b, n, emptyBitMessage⟩]
  rw [hfm]
  rfl

theorem generate_huffman_tree_single (cc : CharCode) :
    generate_huffman_tree [cc] = some (.leaf cc) := rfl

theorem generate_huffman_code_single (b n : Nat) :
    generate_huffman_code [⟨b, n, emptyBitMessage⟩] = (0, [⟨b, n, ⟨[0], 1, 1⟩⟩]) := by
  simp [generate_huffman_code, generate_huffman_tree_single, _generate_huffman_code,
    add_one_bit_message_value, copy_bit_message, emptyBitMessage, List.lookup,
    transform_to_canonical_code, transformGo, writeCodeBits, CHAR_BIT, U64]

theorem huffman_encode_alphabet_single (b n : Nat) :
    huffman_encode_alphabet [⟨b, n, ⟨[0], 1, 1⟩⟩] = (0, ⟨[1, 1, b], 24, 3⟩) := rfl

theorem set_replicate_self {α : Type} (a : α) :
    ∀ (m i : Nat), (List.replicate m a).set i a = List.replicate m a := by
  intro m
  induction m with
  | zero => intro i; rfl
  | succ m ih =>
    intro i
    cases i with
    | zero => simp [List.replicate_succ]
    | succ j => simp [List.replicate_succ, ih j]

theorem get_bit_zero_data (msg : BitMessage) (m : Nat)
    (hdata : msg.data = List.replicate m 0) (pos : Nat) :
    get_bit_message_value msg pos = 0 := by
  unfold get_bit_message_value
  rw [hdata, getD_replicate_zero, Nat.zero_shiftRight, Nat.zero_and]

theorem capacity_single (b n k init : Nat) :
    (List.replicate k b).foldl
      (fun cap ch => [(⟨b, n, ⟨[0], 1, 1⟩⟩ : CharCode)].foldl
        (fun cap2 cc => if cc.c = ch then cap2 + cc.code.nbits else cap2) cap)
      init = init + k := by
  induction k generalizing init with
  | zero => simp
  | succ k ih =>
    rw [List.replicate_succ, List.foldl_cons, ih]
    have hstep : [(⟨b, n, ⟨[0], 1, 1⟩⟩ : CharCode)].foldl
        (fun cap2 cc => if cc.c = b then cap2 + cc.code.nbits else cap2) init = init + 1 := by
      simp
    rw [hstep]
    omega

theorem encode_step_single (b n : Nat) (hb : b < 128) (m : Nat) :
    ∀ (rest : List Nat) (acc : BitMessage), acc.data = List.replicate m 0 →
      encodeMessageLoop
        ((List.replicate MAX_CHAR (none : Option CharCode)).set (uintOfChar b)
          (some ⟨b, n, ⟨[0], 1, 1⟩⟩)) (b :: rest) acc =
      encodeMessageLoop
        ((List.replicate MAX_CHAR (none : Option CharCode)).set (uintOfChar b)
          (some ⟨b, n, ⟨[0], 1, 1⟩⟩)) rest
        ⟨List.replicate m 0, acc.nbits + 1, (acc.nbits + 1) / CHAR_BIT + 1⟩ := by
  intro rest acc hdata
  have hu : uintOfChar b = b := if_pos hb
  have hlookup : ((List.replicate MAX_CHAR (none : Option CharCode)).set (uintOfChar b)
      (some ⟨b, n, ⟨[0], 1, 1⟩⟩)).getD (uintOfChar b) none = some ⟨b, n, ⟨[0], 1, 1⟩⟩ := by
    refine getD_set_eq' _ _ _ _ ?_
    rw [List.length_replicate, hu]
    show b < MAX_CHAR
    have : MAX_CHAR = 256 := rfl
    omega
  show (match ((List.replicate MAX_CHAR (none : Option CharCode)).set (uintOfChar b)
      (some ⟨b, n, ⟨[0], 1, 1⟩⟩)).getD (uintOfChar b) none with
    | none => none
    | some cc => if cc.c ≠ b then none else _) = _
  rw [hlookup]
  simp only [ne_eq, not_true_eq_false, reduceIte, if_neg (by simp : ¬ ¬ (b = b))]
  have hbit : get_bit_message_value (⟨[0], 1, 1⟩ : BitMessage) 0 = 0 := rfl
  have hfold : (List.range (1 : Nat)).foldl
      (fun mm k => add_one_bit_message_value mm
        (get_bit_message_value (⟨[0], 1, 1⟩ : BitMessage) k)) acc =
      add_one_bit_message_value acc 0 := by
    rw [show List.range 1 = [0] from rfl, List.foldl_cons, List.foldl_nil, hbit]
  have hadd : add_one_bit_message_value acc 0 =
      ⟨List.replicate m 0, acc.nbits + 1, (acc.nbits + 1) / CHAR_BIT + 1⟩ := by
    unfold add_one_bit_message_value
    simp only [ne_eq, not_true_eq_false, reduceIte]
    rw [hdata, getD_replicate_zero]
    have hz : (0 : Nat) &&& (255 ^^^ (1 <<< ((CHAR_BIT - 1) - acc.nbits % CHAR_BIT))) = 0 :=
      Nat.zero_and _
    rw [hz, set_replicate_self]
  show encodeMessageLoop _ rest ((List.range (1 : Nat)).foldl _ acc) = _
  rw [hfold, hadd]

theorem encodeLoop_single (b n : Nat) (hb : b < 128) (m : Nat) :
    ∀ (k : Nat) (acc : BitMessage), acc.data = List.replicate m 0 → 1 ≤ k →
      encodeMessageLoop
        ((List.replicate MAX_CHAR (none : Option CharCode)).set (uintOfChar b)
          (some ⟨b, n, ⟨[0], 1, 1⟩⟩)) (List.replicate k b) acc =
      some ⟨List.replicate m 0, acc.nbits + k, (acc.nbits + k) / CHAR_BIT + 1⟩ := by
  intro k
  induction k with
  | zero => intro acc _ hk; omega
  | succ k ih =>
    intro acc hdata _
    rw [List.replicate_succ, encode_step_single b n hb m _ acc hdata]
    cases k with
    | zero =>
      show some _ = _
      simp [Nat.add_comm]
    | succ j =>
      rw [ih _ rfl (by omega)]
      show some _ = some _
      have h1 : acc.nbits + 1 + (j + 1) = acc.nbits + (j + 1 + 1) := by omega
      rw [h1]

theorem huffman_encode_message_single (b n freq : Nat) (hb : b < 128) (hn : 1 ≤ n) :
    huffman_encode_message (List.replicate n b) [⟨b, freq, ⟨[0], 1, 1⟩⟩] emptyBitMessage =
      some (0, ⟨List.replicate (n / CHAR_BIT + 1) 0, n, n / CHAR_BIT + 1⟩) := by
  unfold huffman_encode_message
  rw [if_neg (by simp [emptyBitMessage])]
  rw [if_neg (by simp)]
  show Option.map _ (encodeMessageLoop _ _ _) = _
  rw [capacity_single b freq n 0, Nat.zero_add]
  simp only [List.foldl_cons, List.foldl_nil]
  rw [show uintOfChar (⟨b, freq, ⟨[0], 1, 1⟩⟩ : CharCode).c = uintOfChar b from rfl]
  rw [encodeLoop_single b freq hb (n / CHAR_BIT + 1) n
    ⟨List.replicate (n / CHAR_BIT + 1) 0, 0, 0⟩ rfl hn]
  show some (0, (⟨List.replicate (n / CHAR_BIT + 1) 0, 0 + n,
    (0 + n) / CHAR_BIT + 1⟩ : BitMessage)) = _
  rw [Nat.zero_add]

theorem huffman_encode_single (b n : Nat) (hb : b < 128) (hn : 1 ≤ n) :
    huffman_encode (List.replicate n b) ⟨emptyBitMessage, emptyBitMessage⟩ =
      some (0, ⟨⟨[1, 1, b], 24, 3⟩,
        ⟨List.replicate (n / CHAR_BIT + 1) 0, n, n / CHAR_BIT + 1⟩⟩) := by
  have hMC : b < MAX_CHAR := by show b < 256; omega
  have hba := build_alphabet_replicate n b (by omega) hMC
  have hgc := generate_huffman_code_single b n
  have hea := huffman_encode_alphabet_single b n
  have hem := huffman_encode_message_single b n n hb hn
  have hn0 : ¬ (List.replicate n b).length = 0 := by simp; omega
  simp only [huffman_encode, if_neg hn0, hba, hgc, hea, hem]
  simp

theorem huffman_decode_alphabet_single (b : Nat) (pm : BitMessage) :
    huffman_decode_alphabet ⟨⟨[1, 1, b], 24, 3⟩, pm⟩ [] =
      ⟨0, [⟨b, 0, ⟨[0], 1, 1⟩⟩], [0, 1, 1, 2]⟩ := by
  simp [huffman_decode_alphabet, decodeAlphabetLoop, decodeAlphabetGroup, writeCodeBits,
    CHAR_BIT, U64, STATUS_CODE_ALPHABET_NOT_EMPTY, List.range_succ, List.range_zero]

theorem create_alphabet_code_tree_single (b f0 : Nat) :
    create_alphabet_code_tree [⟨b, f0, ⟨[0], 1, 1⟩⟩] =
      some ⟨[none, some ⟨b, f0, ⟨[0], 1, 1⟩⟩, none], 3, 1⟩ := by
  simp [create_alphabet_code_tree, fillCodeTree, codePos, get_bit_message_value, CHAR_BIT,
    List.range_succ, List.range_zero]

theorem decodeWalk_single (b f0 : Nat) (msg : BitMessage) (m : Nat)
    (hdata : msg.data = List.replicate m 0) (start : Nat) :
    decodeWalk msg ⟨[none, some ⟨b, f0, ⟨[0], 1, 1⟩⟩, none], 3, 1⟩ start 0 0 =
      (1, 1, [0, 1], [start]) := by
  have hbit : ∀ p, get_bit_message_value msg p = 0 := fun p => get_bit_zero_data msg m hdata p
  simp [decodeWalk, decodeWalkF, hbit]

theorem decodeLoop_single (b f0 : Nat) (msg : BitMessage) (m : Nat)
    (hdata : msg.data = List.replicate m 0) :
    ∀ (fuel start : Nat) (out tr br : List Nat), msg.nbits ≤ start + fuel →
      (decodeMessageLoop msg ⟨[none, some ⟨b, f0, ⟨[0], 1, 1⟩⟩, none], 3, 1⟩
          fuel start out tr br).status = 0 ∧
      (decodeMessageLoop msg ⟨[none, some ⟨b, f0, ⟨[0], 1, 1⟩⟩, none], 3, 1⟩
          fuel start out tr br).output = out ++ List.replicate (msg.nbits - start) b ∧
      (decodeMessageLoop msg ⟨[none, some ⟨b, f0, ⟨[0], 1, 1⟩⟩, none], 3, 1⟩
          fuel start out tr br).fuelOut = false := by
  intro fuel
  induction fuel with
  | zero =>
    intro start out tr br hle
    have hns : msg.nbits - start = 0 := by omega
    unfold decodeMessageLoop
    refine ⟨rfl, by rw [hns]; simp, ?_⟩
    show decide (start < msg.nbits) = false
    simp only [decide_eq_false_iff_not]
    omega
  | succ fuel ih =>
    intro start out tr br hle
    unfold decodeMessageLoop
    by_cases hst : start < msg.nbits
    · rw [if_pos hst]
      rw [decodeWalk_single b f0 msg m hdata start]
      simp only [List.getD_cons_succ, List.getD_cons_zero]
      obtain ⟨h1, h2, h3⟩ := ih (start + 1) (out ++ [b]) (tr ++ [0, 1] ++ [1]) (br ++ [start])
        (by omega)
      refine ⟨h1, ?_, h3⟩
      rw [h2, List.append_assoc]
      have hrep : ([b] : List Nat) ++ List.replicate (msg.nbits - (start + 1)) b =
          List.replicate (msg.nbits - start) b := by
        have hk : msg.nbits - start = (msg.nbits - (start + 1)) + 1 := by omega
        rw [hk, List.replicate_succ]
        rfl
      rw [hrep]
    · rw [if_neg hst]
      have hns : msg.nbits - start = 0 := by omega
      refine ⟨rfl, by rw [hns]; simp, rfl⟩

theorem huffman_decode_single (b n : Nat) (hn : 1 ≤ n) :
    huffman_decode ⟨⟨[1, 1, b], 24, 3⟩,
        ⟨List.replicate (n / CHAR_BIT + 1) 0, n, n / CHAR_BIT + 1⟩⟩ =
      some (0, some (List.replicate n b)) := by
  unfold huffman_decode
  rw [huffman_decode_alphabet_single b]
  simp only []
  rw [if_neg (by simp)]
  rw [create_alphabet_code_tree_single b 0]
  obtain ⟨h1, h2, h3⟩ := decodeLoop_single b 0
    (⟨List.replicate (n / CHAR_BIT + 1) 0, n, n / CHAR_BIT + 1⟩ : BitMessage)
    (n / CHAR_BIT + 1) rfl n 0 [] [] [] (by show n ≤ 0 + n; omega)
  show (if (huffman_decode_message _ _).fuelOut then none else _) = _
  unfold huffman_decode_message
  rw [h3, if_neg (by simp), h1, if_neg (by simp), h2]
  rfl

/-- C8 (amended): for a message of `n ≥ 1` copies of one byte `b` with
`1 ≤ b ≤ 127`, code generation assigns the sole symbol the one-bit code 0
(`nbits = 1`, bit pattern `[false]`), the encoded payload has exactly `n`
bits (all zero), and decoding returns the original message.  The claim's
full range "every input made of one repeated byte" fails for bytes of 128
or more (see the counterexample): those miss the encoder's lookup table
and the encode aborts. -/
theorem c8_single_symbol (n b : Nat) (hn : 1 ≤ n) (hb1 : 1 ≤ b) (hb : b < 128) :
    (generate_huffman_code (build_alphabet (List.replicate n b))).2 =
      [⟨b, n, ⟨[0], 1, 1⟩⟩] ∧
    bmBits (⟨[0], 1, 1⟩ : BitMessage) = [false] ∧
    huffman_encode (List.replicate n b) ⟨emptyBitMessage, emptyBitMessage⟩ =
      some (0, ⟨⟨[1, 1, b], 24, 3⟩,
        ⟨List.replicate (n / CHAR_BIT + 1) 0, n, n / CHAR_BIT + 1⟩⟩) ∧
    huffman_decode ⟨⟨[1, 1, b], 24, 3⟩,
        ⟨List.replicate (n / CHAR_BIT + 1) 0, n, n / CHAR_BIT + 1⟩⟩ =
      some (0, some (List.replicate n b)) := by
  have hb1' : 1 ≤ b := hb1
  refine ⟨?_, by decide, huffman_encode_single b n hb hn, huffman_decode_single b n hn⟩
  rw [build_alphabet_replicate n b (by omega) (by show b < 256; omega),
    generate_huffman_code_single b n]

/-- Witness for the C8 theorem at `n = 3`, `b = 97` (the message "aaa"). -/
theorem c8_witness : (1 ≤ 3 ∧ 1 ≤ 97 ∧ 97 < 128) ∧
    ((generate_huffman_code (build_alphabet (List.replicate 3 97))).2 =
        [⟨97, 3, ⟨[0], 1, 1⟩⟩] ∧
      bmBits (⟨[0], 1, 1⟩ : BitMessage) = [false] ∧
      huffman_encode (List.replicate 3 97) ⟨emptyBitMessage, emptyBitMessage⟩ =
        some (0, ⟨⟨[1, 1, 97], 24, 3⟩,
          ⟨List.replicate (3 / CHAR_BIT + 1) 0, 3, 3 / CHAR_BIT + 1⟩⟩) ∧
      huffman_decode ⟨⟨[1, 1, 97], 24, 3⟩,
          ⟨List.replicate (3 / CHAR_BIT + 1) 0, 3, 3 / CHAR_BIT + 1⟩⟩ =
        some (0, some (List.replicate 3 97))) :=
  ⟨by decide, c8_single_symbol 3 97 (by decide) (by decide) (by decide)⟩

/-- C8 counterexample: for two copies of byte 200 (an "alphabet of length
1" input in the claim's range) the encoder aborts — `(unsigned int)c` for
the signed char holding 200 indexes far past the 256-entry code table, the
lookup misses and `assert(char_code != NULL)` fails — so no payload is
produced at all. -/
theorem c8_counterexample :
    huffman_encode (List.replicate 2 200) ⟨emptyBitMessage, emptyBitMessage⟩ = none := by
  decide

/-- C1: the round-trip claim fails on the one-byte sequence `[150]` — the
encoder reads the code table at `(unsigned int)c` of the signed char
holding 150, far past the table's 256 entries, and `assert` aborts, so
`decode(encode(S))` cannot return `S` for any `S` containing a byte of 128
or more. -/
theorem c1_high_byte_encode_aborts :
    huffman_encode [150] ⟨emptyBitMessage, emptyBitMessage⟩ = none := by decide

/-! ## The merge loop: the final tree holds exactly the alphabet's entries -/

/-- All leaf entries stored in a queue, in queue order. -/
def queueLeaves : List HuffmanTree → List CharCode
  | [] => []
  | t :: q => treeLeaves t ++ queueLeaves q

theorem queueLeaves_perm {q q' : List HuffmanTree} (h : List.Perm q q') :
    List.Perm (queueLeaves q) (queueLeaves q') := by
  induction h with
  | nil => exact List.Perm.refl _
  | cons t _ ih => exact List.Perm.append_left (treeLeaves t) ih
  | swap x y q =>
    show List.Perm (treeLeaves y ++ (treeLeaves x ++ queueLeaves q))
      (treeLeaves x ++ (treeLeaves y ++ queueLeaves q))
    rw [← List.append_assoc, ← List.append_assoc]
    exact List.Perm.append_right (queueLeaves q) (List.perm_append_comm)
  | trans _ _ ih1 ih2 => exact ih1.trans ih2

theorem pop_queueLeaves (q : List HuffmanTree) (h : q ≠ []) :
    List.Perm
      (treeLeaves (pop_min_freq_huffman_queue q).1 ++
        queueLeaves (pop_min_freq_huffman_queue q).2)
      (queueLeaves q) :=
  queueLeaves_perm (pop_min_freq_huffman_queue_perm q h)

theorem append_queueLeaves (q : List HuffmanTree) (node : HuffmanTree) :
    List.Perm (queueLeaves (append_huffman_queue q node))
      (treeLeaves node ++ queueLeaves q) :=
  queueLeaves_perm (append_huffman_queue_perm q node)

theorem mergeLoopF_queueLeaves (fuel : Nat) :
    ∀ q : List HuffmanTree, List.Perm (queueLeaves (mergeLoopF fuel q)) (queueLeaves q) := by
  induction fuel with
  | zero => intro q; exact List.Perm.refl _
  | succ fuel ih =>
    intro q
    unfold mergeLoopF
    by_cases h : 1 < q.length
    · rw [if_pos h]
      have hq1 : q ≠ [] := by intro hq; subst hq; simp at h
      have hp1len : (pop_min_freq_huffman_queue q).2.length = q.length - 1 :=
        pop_min_freq_huffman_queue_length q
      have hq2 : (pop_min_freq_huffman_queue q).2 ≠ [] := by
        intro hq
        have := congrArg List.length hq
        rw [hp1len] at this
        simp at this
        omega
      have h1 := ih (append_huffman_queue (pop_min_freq_huffman_queue
        (pop_min_freq_huffman_queue q).2).2
        (create_parent_huffman_node (pop_min_freq_huffman_queue q).1
          (pop_min_freq_huffman_queue (pop_min_freq_huffman_queue q).2).1))
      have h2 := append_queueLeaves (pop_min_freq_huffman_queue
        (pop_min_freq_huffman_queue q).2).2
        (create_parent_huffman_node (pop_min_freq_huffman_queue q).1
          (pop_min_freq_huffman_queue (pop_min_freq_huffman_queue q).2).1)
      have h3 : treeLeaves (create_parent_huffman_node (pop_min_freq_huffman_queue q).1
          (pop_min_freq_huffman_queue (pop_min_freq_huffman_queue q).2).1) =
          treeLeaves (pop_min_freq_huffman_queue q).1 ++
            treeLeaves (pop_min_freq_huffman_queue (pop_min_freq_huffman_queue q).2).1 := rfl
    -- reassociate and collapse the two pops
      refine (h1.trans (h2.trans ?_))
      rw [h3, List.append_assoc]
      refine (List.Perm.append_left (treeLeaves (pop_min_freq_huffman_queue q).1)
        (pop_queueLeaves (pop_min_freq_huffman_queue q).2 hq2)).trans ?_
      exact pop_queueLeaves q hq1
    · rw [if_neg h]

theorem mergeLoopF_length_one (fuel : Nat) :
    ∀ q : List HuffmanTree, 1 ≤ q.length → q.length ≤ fuel + 1 →
      (mergeLoopF fuel q).length = 1 := by
  induction fuel with
  | zero =>
    intro q h1 h2
    show q.length = 1
    omega
  | succ fuel ih =>
    intro q h1 h2
    unfold mergeLoopF
    by_cases h : 1 < q.length
    · rw [if_pos h]
      have hlen : (append_huffman_queue (pop_min_freq_huffman_queue
          (pop_min_freq_huffman_queue q).2).2
          (create_parent_huffman_node (pop_min_freq_huffman_queue q).1
            (pop_min_freq_huffman_queue (pop_min_freq_huffman_queue q).2).1)).length =
          q.length - 1 := by
        rw [append_huffman_queue_length, pop_min_freq_huffman_queue_length,
          pop_min_freq_huffman_queue_length]
        omega
      rw [ih _ (by omega) (by omega)]
    · rw [if_neg h]
      show q.length = 1
      omega

theorem initial_queue_spec (al : List CharCode) :
    ∀ q0 : List HuffmanTree,
      (al.foldl (fun q cc => append_huffman_queue q (create_huffman_node cc)) q0).length =
        q0.length + al.length ∧
      List.Perm
        (queueLeaves (al.foldl (fun q cc => append_huffman_queue q (create_huffman_node cc)) q0))
        (queueLeaves q0 ++ al) := by
  induction al with
  | nil => intro q0; exact ⟨by simp, by simp⟩
  | cons cc rest ih =>
    intro q0
    simp only [List.foldl_cons]
    obtain ⟨hlen, hperm⟩ := ih (append_huffman_queue q0 (create_huffman_node cc))
    constructor
    · rw [hlen, append_huffman_queue_length]
      simp
      omega
    · refine hperm.trans ?_
      have h1 : List.Perm (queueLeaves (append_huffman_queue q0 (create_huffman_node cc)))
          ([cc] ++ queueLeaves q0) := append_queueLeaves q0 (create_huffman_node cc)
      refine ((h1.append_right rest).trans ?_)
      show List.Perm (cc :: (queueLeaves q0 ++ rest)) (queueLeaves q0 ++ cc :: rest)
      exact List.perm_middle.symm

theorem generate_huffman_tree_leaves (al : List CharCode) (h : al ≠ []) :
    ∃ root, generate_huffman_tree al = some root ∧ List.Perm (treeLeaves root) al := by
  obtain ⟨hlen, hperm⟩ := initial_queue_spec al []
  have hal : 0 < al.length := List.length_pos.mpr h
  have hlen' : (al.foldl (fun q cc => append_huffman_queue q (create_huffman_node cc))
      []).length = al.length := by simpa using hlen
  have hml : (mergeLoop (al.foldl (fun q cc =>
      append_huffman_queue q (create_huffman_node cc)) [])).length = 1 := by
    unfold mergeLoop
    exact mergeLoopF_length_one _ _ (by omega) (by omega)
  obtain ⟨t, ht⟩ := List.length_eq_one.mp hml
  refine ⟨t, ?_, ?_⟩
  · unfold generate_huffman_tree
    rw [if_neg (by omega)]
    rw [ht]
    show some ([t].getD 0 dflNode) = some t
    rw [List.getD_cons_zero]
  · have h1 := mergeLoopF_queueLeaves (al.foldl (fun q cc =>
      append_huffman_queue q (create_huffman_node cc)) []).length
      (al.foldl (fun q cc => append_huffman_queue q (create_huffman_node cc)) [])
    rw [show mergeLoopF (al.foldl (fun q cc =>
      append_huffman_queue q (create_huffman_node cc)) []).length
      (al.foldl (fun q cc => append_huffman_queue q (create_huffman_node cc)) []) =
      mergeLoop (al.foldl (fun q cc => append_huffman_queue q (create_huffman_node cc)) [])
      from rfl, ht] at h1
    have h2 : queueLeaves [t] = treeLeaves t := by
      show treeLeaves t ++ queueLeaves [] = treeLeaves t
      simp [queueLeaves]
    rw [h2] at h1
    refine h1.trans ?_
    simpa using hperm

/-! ## Code-length bounds and numeric values of bit patterns -/

theorem treeCodes_length_le_aux (t : HuffmanTree) :
    ∀ p : List Bool, p ≠ [] → ∀ pr ∈ treeCodes t p, pr.2.length ≤ p.length + t.height := by
  induction t with
  | leaf d =>
    intro p hne pr hpr
    simp only [treeCodes, List.mem_singleton] at hpr
    subst hpr
    rw [if_neg (by simpa [List.isEmpty_iff] using hne)]
    show p.length ≤ p.length + HuffmanTree.height (.leaf d)
    omega
  | parent dd l r ihl ihr =>
    intro p _ pr hpr
    have hh : HuffmanTree.height (.parent dd l r) = 1 + max l.height r.height := rfl
    rcases List.mem_append.mp hpr with hmem | hmem
    · have := ihl (p ++ [false]) (by simp) pr hmem
      simp only [List.length_append, List.length_singleton] at this
      rw [hh]
      omega
    · have := ihr (p ++ [true]) (by simp) pr hmem
      simp only [List.length_append, List.length_singleton] at this
      rw [hh]
      omega

theorem treeCodes_length_le_root (t : HuffmanTree) :
    ∀ pr ∈ treeCodes t [], pr.2.length ≤ max t.height 1 := by
  cases t with
  | leaf d =>
    intro pr hpr
    simp only [treeCodes, List.mem_singleton] at hpr
    subst hpr
    simp
  | parent dd l r =>
    intro pr hpr
    have hh : HuffmanTree.height (.parent dd l r) = 1 + max l.height r.height := rfl
    rcases List.mem_append.mp hpr with hmem | hmem
    · have := treeCodes_length_le_aux l [false] (by simp) pr hmem
      simp only [List.length_singleton] at this
      rw [hh]
      omega
    · have := treeCodes_length_le_aux r [true] (by simp) pr hmem
      simp only [List.length_singleton] at this
      rw [hh]
      omega

/-- Numeric value of an MSB-first bit pattern (the integer a canonical code
denotes). -/
def bitsVal (l : List Bool) : Nat :=
  l.foldl (fun a b => 2 * a + (if b then 1 else 0)) 0

theorem codeBits_succ (v ℓ : Nat) :
    codeBits v (ℓ + 1) = v.testBit ℓ :: codeBits v ℓ := by
  unfold codeBits
  rw [List.range_succ_eq_map]
  simp only [List.map_cons, Nat.sub_zero, List.map_map]
  refine congrArg _ (List.map_congr_left ?_)
  intro j hj
  simp only [Function.comp]
  congr 1
  omega

theorem bitsVal_foldl_codeBits (ℓ : Nat) :
    ∀ (v a : Nat), v < 2 ^ ℓ →
      (codeBits v ℓ).foldl (fun acc b => 2 * acc + (if b then 1 else 0)) a = a * 2 ^ ℓ + v := by
  induction ℓ with
  | zero =>
    intro v a hv
    have hv0 : v = 0 := by omega
    subst hv0
    show a = a * 1 + 0
    omega
  | succ ℓ ih =>
    intro v a hv
    rw [codeBits_succ, List.foldl_cons]
    have hlow : codeBits v ℓ = codeBits (v % 2 ^ ℓ) ℓ := by
      unfold codeBits
      refine List.map_congr_left ?_
      intro j hj
      rw [List.mem_range] at hj
      rw [Nat.testBit_mod_two_pow]
      rw [Bool.and_iff_right_iff_imp.mpr (by intro _; simpa using by omega)]
    rw [hlow, ih (v % 2 ^ ℓ) _ (Nat.mod_lt _ (Nat.pos_pow_of_pos ℓ (by omega)))]
    have hbit : (if v.testBit ℓ then 1 else 0) = v / 2 ^ ℓ := by
      have h2 : v / 2 ^ ℓ < 2 := by
        have hv2 : v < 2 ^ ℓ * 2 := by rw [← Nat.pow_succ]; exact hv
        exact Nat.div_lt_of_lt_mul hv2
      by_cases hb : v.testBit ℓ
      · rw [if_pos hb]
        rw [Nat.testBit_to_div_mod] at hb
        simp only [decide_eq_true_eq] at hb
        generalize hq : v / 2 ^ ℓ = q at h2 hb ⊢
        omega
      · rw [if_neg hb]
        rw [Nat.testBit_to_div_mod] at hb
        simp only [decide_eq_true_eq] at hb
        generalize hq : v / 2 ^ ℓ = q at h2 hb ⊢
        omega
    rw [hbit]
    have hsplit : v = 2 ^ ℓ * (v / 2 ^ ℓ) + v % 2 ^ ℓ := (Nat.div_add_mod v (2 ^ ℓ)).symm
    rw [Nat.pow_succ]
    nlinarith [hsplit]

theorem bitsVal_codeBits (v ℓ : Nat) (hv : v < 2 ^ ℓ) :
    bitsVal (codeBits v ℓ) = v := by
  unfold bitsVal
  rw [bitsVal_foldl_codeBits ℓ v 0 hv]
  omega

theorem codeBits_take (v2 ℓ1 ℓ2 : Nat) (hle : ℓ1 ≤ ℓ2) :
    (codeBits v2 ℓ2).take ℓ1 = codeBits (v2 >>> (ℓ2 - ℓ1)) ℓ1 := by
  unfold codeBits
  rw [← List.map_take, List.take_range, Nat.min_eq_left hle]
  refine List.map_congr_left ?_
  intro j hj
  rw [List.mem_range] at hj
  rw [Nat.testBit_shiftRight]
  congr 1
  omega

theorem codeBits_prefix_iff (v1 v2 ℓ1 ℓ2 : Nat) (h1 : v1 < 2 ^ ℓ1) (h2 : v2 < 2 ^ ℓ2)
    (hle : ℓ1 ≤ ℓ2) :
    (codeBits v1 ℓ1 <+: codeBits v2 ℓ2) ↔ v2 >>> (ℓ2 - ℓ1) = v1 := by
  constructor
  · intro hpre
    have hsh : v2 >>> (ℓ2 - ℓ1) < 2 ^ ℓ1 := by
      rw [Nat.shiftRight_eq_div_pow]
      apply Nat.div_lt_of_lt_mul
      calc v2 < 2 ^ ℓ2 := h2
        _ = 2 ^ (ℓ2 - ℓ1) * 2 ^ ℓ1 := by rw [← Nat.pow_add]; congr 1; omega
    have htake : (codeBits v2 ℓ2).take ℓ1 = codeBits v1 ℓ1 := by
      obtain ⟨t, ht⟩ := hpre
      rw [← ht]
      exact List.take_left' (codeBits_length v1 ℓ1)
    rw [codeBits_take v2 ℓ1 ℓ2 hle] at htake
    have := congrArg bitsVal htake
    rw [bitsVal_codeBits _ ℓ1 hsh, bitsVal_codeBits v1 ℓ1 h1] at this
    exact this
  · intro hsh
    have : codeBits v1 ℓ1 = (codeBits v2 ℓ2).take ℓ1 := by
      rw [codeBits_take v2 ℓ1 ℓ2 hle, hsh]
    rw [this]
    exact List.take_prefix ℓ1 _

/-! ## The canonical code values realised by the transform pass -/

/-- The sequence of `current_code` values `transform_to_canonical_code`
assigns, as a function of the (length-sorted) code lengths; mirrors the
loop body of `transformGo` exactly. -/
def canonVals : Nat → Nat → List Nat → List Nat
  | _, _, [] => []
  | cur, prev, ℓ :: rest =>
    let c' := if ℓ > prev then (cur <<< (ℓ - prev)) % U64 else cur
    c' :: canonVals ((c' + 1) % U64) (if ℓ > prev then ℓ else prev) rest

theorem transformGo_eq_canonVals :
    ∀ (cs : List CharCode) (cur prev : Nat),
      transformGo cur prev cs = List.zipWith
        (fun cc v => { cc with code := ⟨writeCodeBits v cc.code.nbits
          (List.replicate cc.code.nbytes 0), cc.code.nbits, cc.code.nbytes⟩ })
        cs (canonVals cur prev (cs.map fun cc => cc.code.nbits)) := by
  intro cs
  induction cs with
  | nil => intro cur prev; rfl
  | cons cc rest ih =>
    intro cur prev
    simp only [transformGo, canonVals, List.map_cons, List.zipWith_cons_cons]
    rw [ih]

/-- Invariant of the canonical forward pass: under the Kraft-style budget,
every assigned value `v_k` fits in its length (`v_k < 2^ℓ_k`) and the
scaled value equals the budget consumed by the earlier codes. -/
theorem canonVals_spec (L : Nat) :
    ∀ (lens : List Nat) (cur prev : Nat),
      List.Chain' (· ≤ ·) (prev :: lens) →
      (∀ ℓ ∈ lens, 1 ≤ ℓ ∧ ℓ ≤ 63) →
      prev ≤ 63 → prev ≤ L → (∀ ℓ ∈ lens, ℓ ≤ L) →
      cur ≤ 2 ^ prev →
      cur * 2 ^ (L - prev) + ((lens.map fun ℓ => 2 ^ (L - ℓ)).sum) ≤ 2 ^ L →
      (canonVals cur prev lens).length = lens.length ∧
      ∀ k, k < lens.length →
        (canonVals cur prev lens).getD k 0 < 2 ^ (lens.getD k 0) ∧
        (canonVals cur prev lens).getD k 0 * 2 ^ (L - lens.getD k 0) =
          cur * 2 ^ (L - prev) + (((lens.take k).map fun ℓ => 2 ^ (L - ℓ)).sum) := by
  intro lens
  induction lens with
  | nil =>
    intro cur prev _ _ _ _ _ _ _
    exact ⟨rfl, fun k hk => absurd hk (by simp)⟩
  | cons ℓ rest ih =>
    intro cur prev hchain hbnd hprev63 hprevL hlenL hcur hkraft
    have hprevℓ : prev ≤ ℓ := List.chain'_cons.mp hchain |>.1
    have hℓ63 : 1 ≤ ℓ ∧ ℓ ≤ 63 := hbnd ℓ (List.mem_cons_self ℓ rest)
    have hℓL : ℓ ≤ L := hlenL ℓ (List.mem_cons_self ℓ rest)
    -- the assigned value, before and after removing the (identity) mod
    have hshift : cur <<< (ℓ - prev) = cur * 2 ^ (ℓ - prev) := Nat.shiftLeft_eq cur (ℓ - prev)
    have hshift_le : cur * 2 ^ (ℓ - prev) ≤ 2 ^ ℓ := by
      calc cur * 2 ^ (ℓ - prev) ≤ 2 ^ prev * 2 ^ (ℓ - prev) :=
            Nat.mul_le_mul_right _ hcur
        _ = 2 ^ ℓ := by rw [← Nat.pow_add]; congr 1; omega
    have hU : cur * 2 ^ (ℓ - prev) < U64 := by
      have h1 : (2 : Nat) ^ ℓ ≤ 2 ^ 63 := Nat.pow_le_pow_right (by omega) hℓ63.2
      have h2 : (2 : Nat) ^ 63 < U64 := by norm_num [U64]
      omega
    have hc' : (if ℓ > prev then (cur <<< (ℓ - prev)) % U64 else cur) =
        cur * 2 ^ (ℓ - prev) := by
      by_cases hgt : ℓ > prev
      · rw [if_pos hgt, hshift, Nat.mod_eq_of_lt hU]
      · rw [if_neg hgt, show ℓ - prev = 0 from by omega]
        simp
    have hprev' : (if ℓ > prev then ℓ else prev) = ℓ := by
      by_cases hgt : ℓ > prev
      · rw [if_pos hgt]
      · rw [if_neg hgt]
        omega
    have hscale : (cur * 2 ^ (ℓ - prev)) * 2 ^ (L - ℓ) = cur * 2 ^ (L - prev) := by
      rw [Nat.mul_assoc, ← Nat.pow_add]
      congr 2
      omega
    have hsum : cur * 2 ^ (L - prev) +
        (2 ^ (L - ℓ) + ((rest.map fun x => 2 ^ (L - x)).sum)) ≤ 2 ^ L := by
      simpa using hkraft
    have hfit : cur * 2 ^ (ℓ - prev) + 1 ≤ 2 ^ ℓ := by
      have h1 : (cur * 2 ^ (ℓ - prev) + 1) * 2 ^ (L - ℓ) ≤ 2 ^ L := by
        rw [Nat.add_mul, Nat.one_mul, hscale]
        omega
      have h2 : (2 : Nat) ^ L = 2 ^ ℓ * 2 ^ (L - ℓ) := by
        rw [← Nat.pow_add]
        congr 1
        omega
      rw [h2] at h1
      exact Nat.le_of_mul_le_mul_right h1 (Nat.two_pow_pos (L - ℓ))
    have hmod : (cur * 2 ^ (ℓ - prev) + 1) % U64 = cur * 2 ^ (ℓ - prev) + 1 := by
      apply Nat.mod_eq_of_lt
      have h1 : (2 : Nat) ^ ℓ ≤ 2 ^ 63 := Nat.pow_le_pow_right (by omega) hℓ63.2
      have h2 : (2 : Nat) ^ 63 < U64 := by norm_num [U64]
      omega
    have hrec := ih (cur * 2 ^ (ℓ - prev) + 1) ℓ
      (List.Chain'.tail hchain)
      (fun x hx => hbnd x (List.mem_cons_of_mem _ hx))
      hℓ63.2 hℓL
      (fun x hx => hlenL x (List.mem_cons_of_mem _ hx))
      hfit
      (by rw [Nat.add_mul, Nat.one_mul, hscale]; omega)
    obtain ⟨hlen, hspec⟩ := hrec
    have hcons : canonVals cur prev (ℓ :: rest) =
        (cur * 2 ^ (ℓ - prev)) ::
          canonVals (cur * 2 ^ (ℓ - prev) + 1) ℓ rest := by
      show (let c' := if ℓ > prev then (cur <<< (ℓ - prev)) % U64 else cur;
        c' :: canonVals ((c' + 1) % U64) (if ℓ > prev then ℓ else prev) rest) = _
      rw [show (let c' := if ℓ > prev then (cur <<< (ℓ - prev)) % U64 else cur;
        c' :: canonVals ((c' + 1) % U64) (if ℓ > prev then ℓ else prev) rest) =
        ((if ℓ > prev then (cur <<< (ℓ - prev)) % U64 else cur) ::
          canonVals (((if ℓ > prev then (cur <<< (ℓ - prev)) % U64 else cur) + 1) % U64)
            (if ℓ > prev then ℓ else prev) rest) from rfl]
      rw [hc', hprev', hmod]
    rw [hcons]
    constructor
    · simp [hlen]
    · intro k hk
      cases k with
      | zero =>
        refine ⟨by simpa using Nat.lt_of_lt_of_le (Nat.lt_succ_self _) hfit, ?_⟩
        simp only [List.getD_cons_zero, List.take_zero, List.map_nil, List.sum_nil,
          Nat.add_zero]
        exact hscale
      | succ k =>
        have hk' : k < rest.length := by simpa using hk
        obtain ⟨hv1, hv2⟩ := hspec k hk'
        refine ⟨by simpa using hv1, ?_⟩
        simp only [List.getD_cons_succ, List.take_succ_cons, List.map_cons, List.sum_cons]
        rw [hv2, Nat.add_mul, Nat.one_mul, hscale]
        omega

theorem getD_map_lt {α β : Type} (f : α → β) (l : List α) (k : Nat) (hk : k < l.length)
    (d : α) (d' : β) : (l.map f).getD k d' = f (l.getD k d) := by
  rw [List.getD_eq_getElem?_getD, List.getElem?_map, List.getElem?_eq_getElem hk]
  rw [List.getD_eq_getElem?_getD, List.getElem?_eq_getElem hk]
  rfl

theorem sum_take_succ (l : List Nat) (i : Nat) (hi : i < l.length) :
    (l.take (i + 1)).sum = (l.take i).sum + l.getD i 0 := by
  rw [List.take_succ, List.sum_append, List.getElem?_eq_getElem hi]
  rw [List.getD_eq_getElem?_getD, List.getElem?_eq_getElem hi]
  rfl

theorem sum_take_mono (l : List Nat) (a b : Nat) (h : a ≤ b) :
    (l.take a).sum ≤ (l.take b).sum := by
  have h1 : l.take a = (l.take b).take a := by
    rw [List.take_take, Nat.min_eq_left h]
  rw [h1]
  conv_rhs => rw [← List.take_append_drop a (l.take b)]
  rw [List.sum_append]
  omega

/-! ## The transform stage: canonical properties of the rewritten codes -/

theorem nbitsOrder_le_nbits {a b : CharCode} (h : nbitsOrder a b) :
    a.code.nbits ≤ b.code.nbits := by
  unfold nbitsOrder alphabet_nbits_comparator at h
  by_cases h1 : a.code.nbits > b.code.nbits
  · rw [if_pos h1] at h
    norm_num at h
  · omega

theorem transform_canonical_spec (sorted : List CharCode)
    (hsorted : List.Pairwise nbitsOrder sorted)
    (hnb : ∀ cc ∈ sorted, 1 ≤ cc.code.nbits ∧ cc.code.nbits ≤ 63)
    (hnbytes : ∀ cc ∈ sorted, cc.code.nbytes = cc.code.nbits / CHAR_BIT + 1)
    (hkraft : ((sorted.map fun cc => 2 ^ (64 - cc.code.nbits)).sum) ≤ 2 ^ 64) :
    ∃ vals : List Nat,
      vals.length = sorted.length ∧
      (transform_to_canonical_code sorted).length = sorted.length ∧
      (∀ k, k < sorted.length →
        ((transform_to_canonical_code sorted).getD k dflCC).c = (sorted.getD k dflCC).c ∧
        ((transform_to_canonical_code sorted).getD k dflCC).freq =
          (sorted.getD k dflCC).freq ∧
        ((transform_to_canonical_code sorted).getD k dflCC).code.nbits =
          (sorted.getD k dflCC).code.nbits ∧
        bmBits ((transform_to_canonical_code sorted).getD k dflCC).code =
          codeBits (vals.getD k 0) ((sorted.getD k dflCC).code.nbits) ∧
        vals.getD k 0 < 2 ^ (sorted.getD k dflCC).code.nbits) ∧
      (∀ k, k + 1 < sorted.length →
        (sorted.getD k dflCC).code.nbits = (sorted.getD (k + 1) dflCC).code.nbits →
        vals.getD (k + 1) 0 = vals.getD k 0 + 1) ∧
      (∀ i j, i < j → j < sorted.length →
        vals.getD i 0 + 1 ≤
          vals.getD j 0 >>> ((sorted.getD j dflCC).code.nbits -
            (sorted.getD i dflCC).code.nbits)) := by
  cases hs : sorted with
  | nil =>
    refine ⟨[], rfl, rfl, ?_, ?_, ?_⟩ <;> intro k <;> simp
  | cons cc0 tl =>
    rw [← hs]
    have hne : sorted ≠ [] := by rw [hs]; simp
    have hlenpos : 0 < sorted.length := List.length_pos.mpr hne
    set lens := sorted.map fun cc => cc.code.nbits with hlens
    set prev := (sorted.headD dflCC).code.nbits with hprevdef
    -- the Chain' hypothesis
    have hpair : List.Pairwise (· ≤ ·) lens := by
      rw [hlens]
      exact List.Pairwise.map _ (fun a b hab => nbitsOrder_le_nbits hab) hsorted
    have hlens2 : lens = cc0.code.nbits :: tl.map (fun cc => cc.code.nbits) := by
      rw [hlens, hs, List.map_cons]
    have hprev2 : prev = cc0.code.nbits := by
      rw [hprevdef, hs]
      rfl
    have hchain : List.Chain' (· ≤ ·) (prev :: lens) := by
      rw [hlens2, hprev2]
      refine List.chain'_cons.mpr ⟨le_refl _, ?_⟩
      rw [← hlens2]
      exact hpair.chain'
    have hbnd : ∀ ℓ ∈ lens, 1 ≤ ℓ ∧ ℓ ≤ 63 := by
      intro ℓ hℓ
      rw [hlens] at hℓ
      obtain ⟨cc, hcc, rfl⟩ := List.mem_map.mp hℓ
      exact hnb cc hcc
    have hprev63 : prev ≤ 63 := by
      have : (sorted.headD dflCC) ∈ sorted := by
        rw [hs]
        exact List.mem_cons_self _ _
      exact (hnb _ this).2
    have hkraft' : 0 * 2 ^ (64 - prev) + ((lens.map fun ℓ => 2 ^ (64 - ℓ)).sum) ≤ 2 ^ 64 := by
      rw [Nat.zero_mul, Nat.zero_add, hlens, List.map_map]
      exact hkraft
    obtain ⟨hvlen, hvspec⟩ := canonVals_spec 64 lens 0 prev hchain hbnd hprev63 (by omega)
      (fun ℓ hℓ => by have := (hbnd ℓ hℓ).2; omega) (by positivity) hkraft'
    have hlenslen : lens.length = sorted.length := by rw [hlens]; simp
    refine ⟨canonVals 0 prev lens, by omega, ?_, ?_, ?_, ?_⟩
    all_goals (
      have htr : transform_to_canonical_code sorted = List.zipWith
          (fun cc v => { cc with code := ⟨writeCodeBits v cc.code.nbits
            (List.replicate cc.code.nbytes 0), cc.code.nbits, cc.code.nbytes⟩ })
          sorted (canonVals 0 prev lens) := by
        unfold transform_to_canonical_code
        rw [if_neg (by omega), transformGo_eq_canonVals]
      )
    · rw [htr, List.length_zipWith]
      omega
    · intro k hk
      have hklens : k < lens.length := by omega
      have hgetz : (transform_to_canonical_code sorted).getD k dflCC =
          (fun cc v => { cc with code := (⟨writeCodeBits v cc.code.nbits
            (List.replicate cc.code.nbytes 0), cc.code.nbits, cc.code.nbytes⟩ : BitMessage) })
            (sorted.getD k dflCC) ((canonVals 0 prev lens).getD k 0) := by
        rw [htr, List.getD_eq_getElem?_getD,
          List.getElem?_eq_getElem (by rw [List.length_zipWith]; omega),
          List.getElem_zipWith]
        rw [List.getD_eq_getElem?_getD (l := sorted), List.getElem?_eq_getElem hk]
        rw [List.getD_eq_getElem?_getD (l := canonVals 0 prev lens),
          List.getElem?_eq_getElem (by omega)]
        rfl
      obtain ⟨hv1, _⟩ := hvspec k hklens
      have hlensk : lens.getD k 0 = (sorted.getD k dflCC).code.nbits := by
        rw [hlens]
        exact getD_map_lt _ sorted k hk dflCC 0
      have hmem : sorted.getD k dflCC ∈ sorted := by
        rw [List.getD_eq_getElem?_getD, List.getElem?_eq_getElem hk]
        exact List.getElem_mem hk
      refine ⟨by rw [hgetz], by rw [hgetz], by rw [hgetz], ?_, by rw [← hlensk]; exact hv1⟩
      rw [hgetz]
      have hside : (sorted.getD k dflCC).code.nbits ≤
          CHAR_BIT * (sorted.getD k dflCC).code.nbytes := by
        rw [hnbytes _ hmem]
        have hCB : CHAR_BIT = 8 := rfl
        rw [hCB]
        omega
      show bmBits ⟨writeCodeBits ((canonVals 0 prev lens).getD k 0)
          (sorted.getD k dflCC).code.nbits
          (List.replicate (sorted.getD k dflCC).code.nbytes 0),
        (sorted.getD k dflCC).code.nbits, (sorted.getD k dflCC).code.nbytes⟩ = _
      rw [writeCodeBits_bmBits _ _ _ hside]
    · intro k hk1 heq
      have hklens : k < lens.length := by omega
      have hk1lens : k + 1 < lens.length := by omega
      obtain ⟨_, hs1⟩ := hvspec k hklens
      obtain ⟨_, hs2⟩ := hvspec (k + 1) hk1lens
      have hlensk : lens.getD k 0 = (sorted.getD k dflCC).code.nbits :=
        getD_map_lt _ sorted k (by omega) dflCC 0
      have hlensk1 : lens.getD (k + 1) 0 = (sorted.getD (k + 1) dflCC).code.nbits :=
        getD_map_lt _ sorted (k + 1) (by omega) dflCC 0
      have hml : ((lens.take (k + 1)).map fun ℓ => 2 ^ (64 - ℓ)).sum =
          ((lens.take k).map fun ℓ => 2 ^ (64 - ℓ)).sum + 2 ^ (64 - lens.getD k 0) := by
        rw [List.map_take, List.map_take, sum_take_succ _ k (by simp; omega)]
        congr 1
        exact getD_map_lt _ lens k hklens 0 0
      have hleq : lens.getD (k + 1) 0 = lens.getD k 0 := by
        rw [hlensk, hlensk1]
        exact heq.symm
      rw [hml, hleq] at hs2
      have hpos : 0 < 2 ^ (64 - lens.getD k 0) := Nat.two_pow_pos _
      refine Nat.eq_of_mul_eq_mul_right hpos ?_
      rw [Nat.add_mul, Nat.one_mul, hs1, hs2]
      omega
    · intro i j hij hj
      have hilens : i < lens.length := by omega
      have hjlens : j < lens.length := by omega
      obtain ⟨_, hsi⟩ := hvspec i hilens
      obtain ⟨hvj, hsj⟩ := hvspec j hjlens
      have hlensi : lens.getD i 0 = (sorted.getD i dflCC).code.nbits :=
        getD_map_lt _ sorted i (by omega) dflCC 0
      have hlensj : lens.getD j 0 = (sorted.getD j dflCC).code.nbits :=
        getD_map_lt _ sorted j (by omega) dflCC 0
      have hℓle : lens.getD i 0 ≤ lens.getD j 0 := by
        have := List.pairwise_iff_getElem.mp hpair i j (by omega) (by omega) hij
        rw [List.getD_eq_getElem?_getD, List.getElem?_eq_getElem hilens,
          List.getD_eq_getElem?_getD, List.getElem?_eq_getElem hjlens]
        simpa using this
      have hℓj64 : lens.getD j 0 ≤ 63 := by
        have : lens.getD j 0 ∈ lens := by
          rw [List.getD_eq_getElem?_getD, List.getElem?_eq_getElem hjlens]
          exact List.getElem_mem hjlens
        exact (hbnd _ this).2
      -- sum over take j dominates sum over take (i+1)
      have hsum_ge : ((lens.take j).map fun ℓ => 2 ^ (64 - ℓ)).sum ≥
          ((lens.take i).map fun ℓ => 2 ^ (64 - ℓ)).sum + 2 ^ (64 - lens.getD i 0) := by
        have h1 : ((lens.take (i + 1)).map fun ℓ => 2 ^ (64 - ℓ)).sum =
            ((lens.take i).map fun ℓ => 2 ^ (64 - ℓ)).sum + 2 ^ (64 - lens.getD i 0) := by
          rw [List.map_take, List.map_take, sum_take_succ _ i (by simp; omega)]
          congr 1
          exact getD_map_lt _ lens i hilens 0 0
        rw [← h1, List.map_take, List.map_take]
        exact sum_take_mono _ (i + 1) j (by omega)
      have hscaled : (canonVals 0 prev lens).getD j 0 * 2 ^ (64 - lens.getD j 0) ≥
          ((canonVals 0 prev lens).getD i 0 + 1) * 2 ^ (64 - lens.getD i 0) := by
        rw [hsj, Nat.add_mul, Nat.one_mul, hsi]
        omega
      have hsplitpow : (2 : Nat) ^ (64 - lens.getD i 0) =
          2 ^ (lens.getD j 0 - lens.getD i 0) * 2 ^ (64 - lens.getD j 0) := by
        rw [← Nat.pow_add]
        congr 1
        omega
      rw [hsplitpow, ← Nat.mul_assoc] at hscaled
      have hcancel : (canonVals 0 prev lens).getD j 0 ≥
          ((canonVals 0 prev lens).getD i 0 + 1) * 2 ^ (lens.getD j 0 - lens.getD i 0) :=
        Nat.le_of_mul_le_mul_right hscaled (Nat.two_pow_pos _)
      rw [← hlensi, ← hlensj, Nat.shiftRight_eq_div_pow]
      rw [Nat.le_div_iff_mul_le (Nat.two_pow_pos _)]
      exact hcancel

/-! ## Writing the traversal's codes back through the alphabet pointers -/

theorem forall₂_map_eq {α β γ : Type} (R : α → β → Prop) (f : α → γ) (g : β → γ)
    (hfg : ∀ a b, R a b → f a = g b) :
    ∀ {as : List α} {bs : List β}, List.Forall₂ R as bs → as.map f = bs.map g := by
  intro as
  induction as with
  | nil =>
    intro bs h
    cases h
    rfl
  | cons a as ih =>
    intro bs h
    cases h with
    | cons hab htail =>
      simp only [List.map_cons]
      rw [hfg _ _ hab, ih htail]

theorem forall₂_mem_left {α β : Type} (R : α → β → Prop) :
    ∀ {as : List α} {bs : List β}, List.Forall₂ R as bs → ∀ a ∈ as, ∃ b ∈ bs, R a b := by
  intro as
  induction as with
  | nil => intro bs _ a ha; cases ha
  | cons x as ih =>
    intro bs h a ha
    cases h with
    | cons hab htail =>
      rcases List.mem_cons.mp ha with rfl | hmem
      · exact ⟨_, List.mem_cons_self _ _, hab⟩
      · obtain ⟨b, hb, hRb⟩ := ih htail a hmem
        exact ⟨b, List.mem_cons_of_mem _ hb, hRb⟩

theorem forall₂_mem_right {α β : Type} (R : α → β → Prop) :
    ∀ {as : List α} {bs : List β}, List.Forall₂ R as bs → ∀ b ∈ bs, ∃ a ∈ as, R a b := by
  intro as
  induction as with
  | nil =>
    intro bs h b hb
    cases h
    cases hb
  | cons x as ih =>
    intro bs h b hb
    cases h with
    | cons hab htail =>
      rcases List.mem_cons.mp hb with rfl | hmem
      · exact ⟨x, List.mem_cons_self _ _, hab⟩
      · obtain ⟨a, ha, hRa⟩ := ih htail b hmem
        exact ⟨a, List.mem_cons_of_mem _ ha, hRa⟩

theorem lookup_eq_of_mem_nodup {β : Type} :
    ∀ (l : List (Nat × β)) (k : Nat) (v : β),
      (l.map Prod.fst).Nodup → (k, v) ∈ l → l.lookup k = some v := by
  intro l
  induction l with
  | nil => intro k v _ hmem; cases hmem
  | cons p rest ih =>
    intro k v hnd hmem
    obtain ⟨pk, pv⟩ := p
    have hnd' : (∀ x : β, (pk, x) ∉ rest) ∧ (rest.map Prod.fst).Nodup := by
      simpa using hnd
    rcases List.mem_cons.mp hmem with heq | hmem'
    · rw [Prod.mk.injEq] at heq
      obtain ⟨rfl, rfl⟩ := heq
      show List.lookup k ((k, v) :: rest) = some v
      simp [List.lookup]
    · have hne : k ≠ pk := by
        intro heq
        exact hnd'.1 v (by rw [← heq]; exact hmem')
      have hbeq : (k == pk) = false := beq_eq_false_iff_ne.mpr hne
      show (match k == pk with
        | true => some pv
        | false => List.lookup k rest) = some v
      rw [hbeq]
      exact ih k v hnd'.2 hmem'

theorem nbitsOrder_signed_le {a b : CharCode} (h : nbitsOrder a b)
    (heq : a.code.nbits = b.code.nbits) : signedChar a.c ≤ signedChar b.c := by
  unfold nbitsOrder alphabet_nbits_comparator at h
  rw [if_neg (by omega), if_neg (by omega)] at h
  by_cases hgt : signedChar a.c > signedChar b.c
  · rw [if_pos hgt] at h
    norm_num at h
  · omega

theorem signedChar_inj {a b : Nat} (ha : a < 256) (hb : b < 256)
    (h : signedChar a = signedChar b) : a = b := by
  unfold signedChar at h
  by_cases h1 : a < 128 <;> by_cases h2 : b < 128 <;>
    simp only [h1, h2, if_true, if_false] at h <;> omega

/-- `generate_huffman_code` on a nonempty alphabet of at most 64 distinct
chars: the list reaching the canonical transform is a sorted permutation of
the alphabet whose code lengths come from the Huffman tree — each at least
1, at most 63, with matching byte counts, and satisfying the Kraft
inequality. -/
theorem sorted_stage (al : List CharCode) (hne : al ≠ [])
    (hnd : (al.map fun cc => cc.c).Nodup) (h64 : al.length ≤ 64) :
    ∃ sorted : List CharCode,
      generate_huffman_code al = (0, transform_to_canonical_code sorted) ∧
      sorted.length = al.length ∧
      List.Perm (sorted.map fun cc => cc.c) (al.map fun cc => cc.c) ∧
      List.Pairwise nbitsOrder sorted ∧
      (∀ cc ∈ sorted, 1 ≤ cc.code.nbits ∧ cc.code.nbits ≤ 63) ∧
      (∀ cc ∈ sorted, cc.code.nbytes = cc.code.nbits / CHAR_BIT + 1) ∧
      ((sorted.map fun cc => 2 ^ (64 - cc.code.nbits)).sum) ≤ 2 ^ 64 := by
  obtain ⟨root, htree, hleaves⟩ := generate_huffman_tree_leaves al hne
  have hallen : 0 < al.length := List.length_pos.mpr hne
  have hleavlen : (treeLeaves root).length = al.length := hleaves.length_eq
  have hheight : root.height + 1 ≤ al.length := by
    have := height_lt_leaves root
    omega
  have hbound : root.height + 1 < CHAR_BIT * (al.length + 1) := by
    have hCB : CHAR_BIT = 8 := rfl
    rw [hCB]
    omega
  have hF := generate_code_root root (al.length + 1) hbound
  -- names for the two stages
  set assigns := (_generate_huffman_code root
    ⟨List.replicate (al.length + 1) 0, 0, 0⟩).1 with hassigns
  set tcs := treeCodes root [] with htcs
  set coded := al.map (fun cc =>
    { cc with code := (assigns.lookup cc.c).getD cc.code }) with hcoded
  have hkeys : assigns.map (fun pr => pr.1) = tcs.map (fun pr => pr.1) :=
    forall₂_map_eq CodeMatches _ _ (fun a b hab => hab.1) hF
  have htcs_chars : tcs.map (fun pr => pr.1) = (treeLeaves root).map (fun cc => cc.c) :=
    treeCodes_chars root []
  have hcharsperm : List.Perm ((treeLeaves root).map fun cc => cc.c)
      (al.map fun cc => cc.c) := hleaves.map _
  have htcs_nodup : (tcs.map fun pr => pr.1).Nodup := by
    rw [htcs_chars]
    exact (hcharsperm.nodup_iff).mpr hnd
  have hassigns_nodup : (assigns.map fun pr => pr.1).Nodup := by
    rw [hkeys]
    exact htcs_nodup
  -- each alphabet char is found in the assignment list
  have hlook : ∀ cc ∈ al, ∃ p : List Bool, (cc.c, p) ∈ tcs ∧
      ∃ bm : BitMessage, assigns.lookup cc.c = some bm ∧
        bm.nbits = p.length ∧ bm.nbytes = p.length / CHAR_BIT + 1 := by
    intro cc hcc
    have hmemc : cc.c ∈ tcs.map (fun pr => pr.1) := by
      rw [htcs_chars]
      exact (hcharsperm.mem_iff).mpr (List.mem_map_of_mem _ hcc)
    obtain ⟨pr, hpr, hpr1⟩ := List.mem_map.mp hmemc
    obtain ⟨a, ha, hR⟩ := forall₂_mem_right CodeMatches hF pr hpr
    obtain ⟨hR1, hR2, hR3, _, _⟩ := hR
    refine ⟨pr.2, by rw [← hpr1]; simpa using hpr, a.2, ?_, by rw [hR2], by rw [hR3]⟩
    have hmema : (cc.c, a.2) ∈ assigns := by
      have : a = (cc.c, a.2) := by
        rw [← hpr1, ← hR1]
      rw [← this]
      exact ha
    exact lookup_eq_of_mem_nodup assigns cc.c a.2 hassigns_nodup hmema
  -- bounds on every tree code length
  have htclen : ∀ pr ∈ tcs, 1 ≤ pr.2.length ∧ pr.2.length ≤ 63 := by
    intro pr hpr
    refine ⟨treeCodes_length_pos root [] pr hpr, ?_⟩
    have h1 := treeCodes_length_le_root root pr hpr
    omega
  -- per-entry facts about coded
  have hcoded_facts : ∀ cc ∈ coded, (1 ≤ cc.code.nbits ∧ cc.code.nbits ≤ 63) ∧
      cc.code.nbytes = cc.code.nbits / CHAR_BIT + 1 := by
    intro cc' hcc'
    rw [hcoded] at hcc'
    obtain ⟨cc, hcc, rfl⟩ := List.mem_map.mp hcc'
    obtain ⟨p, hp, bm, hbm, hbm1, hbm2⟩ := hlook cc hcc
    have hnb := htclen (cc.c, p) hp
    show (1 ≤ ((assigns.lookup cc.c).getD cc.code).nbits ∧ _) ∧ _
    rw [hbm]
    show (1 ≤ bm.nbits ∧ bm.nbits ≤ 63) ∧ bm.nbytes = bm.nbits / CHAR_BIT + 1
    rw [hbm1, hbm2]
    exact ⟨by simpa using hnb, rfl⟩
  have hcoded_chars : coded.map (fun cc => cc.c) = al.map (fun cc => cc.c) := by
    rw [hcoded, List.map_map]
    rfl
  -- the multiset of scaled code lengths in coded matches the tree codes
  have hpow_perm : List.Perm (coded.map fun cc => 2 ^ (64 - cc.code.nbits))
      (tcs.map fun pr => 2 ^ (64 - pr.2.length)) := by
    have hA : coded.map (fun cc => 2 ^ (64 - cc.code.nbits)) =
        (al.map fun cc => cc.c).map
          (fun c => 2 ^ (64 - ((assigns.lookup c).getD emptyBitMessage).nbits)) := by
      rw [hcoded, List.map_map, List.map_map]
      refine List.map_congr_left ?_
      intro cc hcc
      obtain ⟨p, hp, bm, hbm, _, _⟩ := hlook cc hcc
      show 2 ^ (64 - ((assigns.lookup cc.c).getD cc.code).nbits) =
        2 ^ (64 - ((assigns.lookup cc.c).getD emptyBitMessage).nbits)
      rw [hbm, Option.getD_some, Option.getD_some]
    have hB : tcs.map (fun pr => 2 ^ (64 - pr.2.length)) =
        (tcs.map fun pr => pr.1).map
          (fun c => 2 ^ (64 - ((assigns.lookup c).getD emptyBitMessage).nbits)) := by
      rw [List.map_map]
      refine List.map_congr_left ?_
      intro pr hpr
      obtain ⟨a, ha, hR⟩ := forall₂_mem_right CodeMatches hF pr hpr
      obtain ⟨hR1, hR2, _, _, _⟩ := hR
      have hmema : (pr.1, a.2) ∈ assigns := by
        have : a = (pr.1, a.2) := by rw [← hR1]
        rw [← this]
        exact ha
      show 2 ^ (64 - pr.2.length) =
        2 ^ (64 - ((assigns.lookup pr.1).getD emptyBitMessage).nbits)
      rw [lookup_eq_of_mem_nodup assigns pr.1 a.2 hassigns_nodup hmema]
      rw [Option.getD_some, hR2]
    rw [hA, hB, htcs_chars]
    exact (hcharsperm.symm).map _
  have hkraft_tcs : ((tcs.map fun pr => 2 ^ (64 - pr.2.length)).sum) ≤ 2 ^ 64 := by
    have := treeCodes_kraft root [] 64 (by simpa using (by omega : root.height ≤ 64))
    simpa using this
  have hkraft_coded : ((coded.map fun cc => 2 ^ (64 - cc.code.nbits)).sum) ≤ 2 ^ 64 := by
    rw [hpow_perm.sum_eq]
    exact hkraft_tcs
  -- the sorted stage
  refine ⟨coded.insertionSort nbitsOrder, ?_, ?_, ?_, ?_, ?_, ?_, ?_⟩
  · unfold generate_huffman_code
    rw [htree]
  · rw [(List.perm_insertionSort nbitsOrder coded).length_eq, hcoded]
    simp
  · refine ((List.perm_insertionSort nbitsOrder coded).map _).trans ?_
    rw [hcoded_chars]
  · exact List.sorted_insertionSort nbitsOrder coded
  · intro cc hcc
    exact (hcoded_facts cc ((List.perm_insertionSort nbitsOrder coded).mem_iff.mp hcc)).1
  · intro cc hcc
    exact (hcoded_facts cc ((List.perm_insertionSort nbitsOrder coded).mem_iff.mp hcc)).2
  · rw [((List.perm_insertionSort nbitsOrder coded).map
      (fun cc => 2 ^ (64 - cc.code.nbits))).sum_eq]
    exact hkraft_coded

theorem getD_eq_getElem {α : Type} (l : List α) (d : α) (k : Nat) (hk : k < l.length) :
    l.getD k d = l[k] := by
  rw [List.getD_eq_getElem?_getD, List.getElem?_eq_getElem hk]
  rfl

theorem nbitsOrder_congr {a b a' b' : CharCode} (hac : a'.c = a.c)
    (han : a'.code.nbits = a.code.nbits) (hbc : b'.c = b.c)
    (hbn : b'.code.nbits = b.code.nbits) (h : nbitsOrder a b) : nbitsOrder a' b' := by
  unfold nbitsOrder alphabet_nbits_comparator at h ⊢
  rw [hac, han, hbc, hbn]
  exact h

/-- C4 (amended): after canonicalization the alphabet is ordered by code
length and then by SIGNED char value; among entries of equal code length
the code values are consecutive integers increasing with the signed symbol
value (so a byte of 128 or more receives a smaller code than any byte
below 128 of the same length — not the raw byte-value order the claim
states); and the code set is prefix-free.  Stated for a nonempty alphabet
of at most 64 distinct byte values, which keeps the 64-bit accumulator of
the transform below overflow. -/
theorem c4_canonical_codes (al : List CharCode) (hne : al ≠ [])
    (hnd : (al.map fun cc => cc.c).Nodup) (h256 : ∀ cc ∈ al, cc.c < 256)
    (h64 : al.length ≤ 64) :
    ∃ out : List CharCode,
      generate_huffman_code al = (0, out) ∧
      out.length = al.length ∧
      List.Perm (out.map fun cc => cc.c) (al.map fun cc => cc.c) ∧
      List.Pairwise nbitsOrder out ∧
      (∀ cc ∈ out, 1 ≤ cc.code.nbits) ∧
      (∀ k, k + 1 < out.length →
        (out.getD k dflCC).code.nbits = (out.getD (k + 1) dflCC).code.nbits →
        bitsVal (bmBits (out.getD (k + 1) dflCC).code) =
          bitsVal (bmBits (out.getD k dflCC).code) + 1) ∧
      (∀ i j, i < j → j < out.length →
        (out.getD i dflCC).code.nbits = (out.getD j dflCC).code.nbits →
        signedChar (out.getD i dflCC).c < signedChar (out.getD j dflCC).c ∧
        bitsVal (bmBits (out.getD i dflCC).code) <
          bitsVal (bmBits (out.getD j dflCC).code)) ∧
      (∀ i j, i < j → j < out.length →
        ¬ (bmBits (out.getD i dflCC).code <+: bmBits (out.getD j dflCC).code) ∧
        ¬ (bmBits (out.getD j dflCC).code <+: bmBits (out.getD i dflCC).code)) := by
  obtain ⟨sorted, hgc, hslen, hsperm, hspair, hsbnd, hsbytes, hskraft⟩ :=
    sorted_stage al hne hnd h64
  obtain ⟨vals, hvlen, holen, hfields, hconsec, hstrict⟩ :=
    transform_canonical_spec sorted hspair hsbnd hsbytes hskraft
  have houtlen : (transform_to_canonical_code sorted).length = al.length := by omega
  -- index-level facts about sorted
  have hsmem : ∀ k, k < sorted.length → (sorted.getD k dflCC) ∈ sorted := by
    intro k hk
    rw [getD_eq_getElem sorted dflCC k hk]
    exact List.getElem_mem hk
  have hsordpair : ∀ i j, i < j → j < sorted.length →
      nbitsOrder (sorted.getD i dflCC) (sorted.getD j dflCC) := by
    intro i j hij hj
    rw [getD_eq_getElem sorted dflCC i (by omega), getD_eq_getElem sorted dflCC j hj]
    exact List.pairwise_iff_getElem.mp hspair i j (by omega) hj hij
  have hℓ_le : ∀ i j, i < j → j < sorted.length →
      (sorted.getD i dflCC).code.nbits ≤ (sorted.getD j dflCC).code.nbits := by
    intro i j hij hj
    exact nbitsOrder_le_nbits (hsordpair i j hij hj)
  have hcharsne : ∀ i j, i < j → j < sorted.length →
      (sorted.getD i dflCC).c ≠ (sorted.getD j dflCC).c := by
    intro i j hij hj heq
    have hnd' : (sorted.map fun cc => cc.c).Nodup := (hsperm.nodup_iff).mpr hnd
    have h1 := List.pairwise_iff_getElem.mp hnd' i j
      (by simp; omega) (by simp; omega) hij
    apply h1
    rw [List.getElem_map, List.getElem_map,
      ← getD_eq_getElem sorted dflCC i (by omega), ← getD_eq_getElem sorted dflCC j hj, heq]
  have hs256 : ∀ cc ∈ sorted, cc.c < 256 := by
    intro cc hcc
    have hmm : cc.c ∈ (al.map fun cc => cc.c) :=
      (hsperm.mem_iff).mp (List.mem_map_of_mem _ hcc)
    obtain ⟨a, ha, heq⟩ := List.mem_map.mp hmm
    rw [← heq]
    exact h256 a ha
  -- shorthand for the per-index facts about the output
  have hOC : ∀ k, k < sorted.length →
      ((transform_to_canonical_code sorted).getD k dflCC).c = (sorted.getD k dflCC).c :=
    fun k hk => (hfields k hk).1
  have hON : ∀ k, k < sorted.length →
      ((transform_to_canonical_code sorted).getD k dflCC).code.nbits =
        (sorted.getD k dflCC).code.nbits :=
    fun k hk => (hfields k hk).2.2.1
  have hOB : ∀ k, (hk : k < sorted.length) →
      bmBits ((transform_to_canonical_code sorted).getD k dflCC).code =
        codeBits (vals.getD k 0) ((sorted.getD k dflCC).code.nbits) :=
    fun k hk => (hfields k hk).2.2.2.1
  have hOV : ∀ k, (hk : k < sorted.length) →
      vals.getD k 0 < 2 ^ (sorted.getD k dflCC).code.nbits :=
    fun k hk => (hfields k hk).2.2.2.2
  refine ⟨transform_to_canonical_code sorted, hgc, houtlen, ?_, ?_, ?_, ?_, ?_, ?_⟩
  · -- chars are a permutation of the alphabet's chars
    have hmapc : (transform_to_canonical_code sorted).map (fun cc => cc.c) =
        sorted.map (fun cc => cc.c) := by
      refine List.ext_getElem (by simp [holen]) ?_
      intro k h1 h2
      rw [List.getElem_map, List.getElem_map]
      have hk : k < sorted.length := by simpa using h2
      have hx := hOC k hk
      rw [getD_eq_getElem _ dflCC k (by omega), getD_eq_getElem sorted dflCC k hk] at hx
      exact hx
    rw [hmapc]
    exact hsperm
  · -- sortedness carries over (same chars and lengths per index)
    rw [List.pairwise_iff_getElem]
    intro i j hi hj hij
    have his : i < sorted.length := by omega
    have hjs : j < sorted.length := by omega
    refine nbitsOrder_congr ?_ ?_ ?_ ?_ (hsordpair i j hij hjs)
    · rw [← getD_eq_getElem _ dflCC i hi]
      exact hOC i his
    · rw [← getD_eq_getElem _ dflCC i hi]
      exact hON i his
    · rw [← getD_eq_getElem _ dflCC j hj]
      exact hOC j hjs
    · rw [← getD_eq_getElem _ dflCC j hj]
      exact hON j hjs
  · -- every code is at least one bit
    intro cc hcc
    obtain ⟨k, hk, rfl⟩ := List.mem_iff_getElem.mp hcc
    have hks : k < sorted.length := by omega
    rw [← getD_eq_getElem _ dflCC k hk, hON k hks]
    exact (hsbnd _ (hsmem k hks)).1
  · -- equal adjacent lengths: consecutive integer codes
    intro k hk1 heq
    have hks : k < sorted.length := by omega
    have hk1s : k + 1 < sorted.length := by omega
    have heqs : (sorted.getD k dflCC).code.nbits =
        (sorted.getD (k + 1) dflCC).code.nbits := by
      rw [← hON k hks, ← hON (k + 1) hk1s]
      exact heq
    have hv := hconsec k hk1s heqs
    rw [hOB k hks, hOB (k + 1) hk1s, bitsVal_codeBits _ _ (hOV k hks),
      bitsVal_codeBits _ _ (hOV (k + 1) hk1s), hv]
  · -- equal lengths: signed char and code value both increase
    intro i j hij hj heqn
    have his : i < sorted.length := by omega
    have hjs : j < sorted.length := by omega
    have heqs : (sorted.getD i dflCC).code.nbits = (sorted.getD j dflCC).code.nbits := by
      rw [← hON i his, ← hON j hjs]
      exact heqn
    have hst := hstrict i j hij hjs
    rw [show (sorted.getD j dflCC).code.nbits - (sorted.getD i dflCC).code.nbits = 0
      from by omega, Nat.shiftRight_zero] at hst
    constructor
    · have hle := nbitsOrder_signed_le (hsordpair i j hij hjs) heqs
      have hne' := hcharsne i j hij hjs
      have hlt : signedChar (sorted.getD i dflCC).c < signedChar (sorted.getD j dflCC).c := by
        rcases lt_or_eq_of_le hle with h | h
        · exact h
        · exact absurd (signedChar_inj (hs256 _ (hsmem i his)) (hs256 _ (hsmem j hjs)) h)
            hne'
      rw [hOC i his, hOC j hjs]
      exact hlt
    · rw [hOB i his, hOB j hjs, bitsVal_codeBits _ _ (hOV i his),
        bitsVal_codeBits _ _ (hOV j hjs)]
      omega
  · -- prefix-freeness
    intro i j hij hj
    have his : i < sorted.length := by omega
    have hjs : j < sorted.length := by omega
    have hLij : (sorted.getD i dflCC).code.nbits ≤ (sorted.getD j dflCC).code.nbits :=
      hℓ_le i j hij hjs
    have hst := hstrict i j hij hjs
    constructor
    · rw [hOB i his, hOB j hjs]
      intro hpre
      have hsh := (codeBits_prefix_iff _ _ _ _ (hOV i his) (hOV j hjs) hLij).mp hpre
      rw [hsh] at hst
      omega
    · rw [hOB i his, hOB j hjs]
      intro hpre
      have hlen := hpre.length_le
      rw [codeBits_length, codeBits_length] at hlen
      have hsh := (codeBits_prefix_iff _ _ _ _ (hOV j hjs) (hOV i his) (by omega)).mp hpre
      rw [show (sorted.getD i dflCC).code.nbits - (sorted.getD j dflCC).code.nbits = 0
        from by omega, Nat.shiftRight_zero] at hsh
      rw [show (sorted.getD j dflCC).code.nbits - (sorted.getD i dflCC).code.nbits = 0
        from by omega, Nat.shiftRight_zero] at hst
      omega

/-- C4 counterexample: for the input bytes `[200, 65]` both symbols get
one-bit codes, and the canonical pass assigns byte 200 the code 0 and byte
65 the code 1 — the symbol with the SMALLER byte value receives the
numerically LARGER code, because `alphabet_nbits_comparator` compares the
`char` fields as signed chars (200 reads as −56 < 65). -/
theorem c4_counterexample :
    ((generate_huffman_code (build_alphabet [200, 65])).2.map
      fun cc => (cc.c, bitsVal (bmBits cc.code))) = [(200, 0), (65, 1)] := by decide

/-- Witness for the C4 theorem at the alphabet of the input "ab". -/
theorem c4_witness :
    (build_alphabet [97, 98] ≠ [] ∧
      ((build_alphabet [97, 98]).map fun cc => cc.c).Nodup ∧
      (∀ cc ∈ build_alphabet [97, 98], cc.c < 256) ∧
      (build_alphabet [97, 98]).length ≤ 64) ∧
    (∃ out : List CharCode,
      generate_huffman_code (build_alphabet [97, 98]) = (0, out) ∧
      out.length = (build_alphabet [97, 98]).length ∧
      List.Perm (out.map fun cc => cc.c) ((build_alphabet [97, 98]).map fun cc => cc.c) ∧
      List.Pairwise nbitsOrder out ∧
      (∀ cc ∈ out, 1 ≤ cc.code.nbits) ∧
      (∀ k, k + 1 < out.length →
        (out.getD k dflCC).code.nbits = (out.getD (k + 1) dflCC).code.nbits →
        bitsVal (bmBits (out.getD (k + 1) dflCC).code) =
          bitsVal (bmBits (out.getD k dflCC).code) + 1) ∧
      (∀ i j, i < j → j < out.length →
        (out.getD i dflCC).code.nbits = (out.getD j dflCC).code.nbits →
        signedChar (out.getD i dflCC).c < signedChar (out.getD j dflCC).c ∧
        bitsVal (bmBits (out.getD i dflCC).code) <
          bitsVal (bmBits (out.getD j dflCC).code)) ∧
      (∀ i j, i < j → j < out.length →
        ¬ (bmBits (out.getD i dflCC).code <+: bmBits (out.getD j dflCC).code) ∧
        ¬ (bmBits (out.getD j dflCC).code <+: bmBits (out.getD i dflCC).code))) :=
  ⟨⟨by decide, by decide, by decide, by decide⟩,
    c4_canonical_codes (build_alphabet [97, 98]) (by decide) (by decide) (by decide)
      (by decide)⟩

/-! ## The header layout written by `huffman_encode_alphabet` -/

theorem encodeAlphabetLoop_cons (M : Nat) (cc : CharCode) (rest : List CharCode)
    (idx i : Nat) (d : List Nat) :
    encodeAlphabetLoop M (cc :: rest) idx i d =
      encodeAlphabetLoop M rest (if cc.code.nbits > idx then cc.code.nbits else idx) (i + 1)
        ((d.set (if cc.code.nbits > idx then cc.code.nbits else idx)
          ((d.getD (if cc.code.nbits > idx then cc.code.nbits else idx) 0 + 1) % 256)).set
          (M + 1 + i) cc.c) := rfl

theorem encodeAlphabetLoop_spec (M : Nat) :
    ∀ (es : List CharCode) (idx i : Nat) (d : List Nat),
      List.Chain' (· ≤ ·) (idx :: es.map fun cc => cc.code.nbits) →
      (∀ cc ∈ es, cc.code.nbits ≤ M) →
      M + 1 + i + es.length ≤ d.length →
      (∀ j, j ≤ M → d.getD j 0 < 256) →
      (encodeAlphabetLoop M es idx i d).length = d.length ∧
      (∀ j, j ≤ M → (encodeAlphabetLoop M es idx i d).getD j 0 =
        (d.getD j 0 + es.countP fun cc => cc.code.nbits == j) % 256) ∧
      (∀ pos, M < pos → pos < M + 1 + i →
        (encodeAlphabetLoop M es idx i d).getD pos 0 = d.getD pos 0) ∧
      (∀ k, k < es.length →
        (encodeAlphabetLoop M es idx i d).getD (M + 1 + i + k) 0 = (es.getD k dflCC).c) := by
  intro es
  induction es with
  | nil =>
    intro idx i d _ _ _ h256
    refine ⟨rfl, ?_, fun pos _ _ => rfl, fun k hk => absurd hk (by simp)⟩
    intro j hj
    show d.getD j 0 = (d.getD j 0 + List.countP _ []) % 256
    rw [List.countP_nil, Nat.add_zero, Nat.mod_eq_of_lt (h256 j hj)]
  | cons cc rest ih =>
    intro idx i d hchain hM hdlen h256
    have hidxle : idx ≤ cc.code.nbits := by
      have := List.chain'_cons.mp (by simpa using hchain)
      exact this.1
    have hidx' : (if cc.code.nbits > idx then cc.code.nbits else idx) = cc.code.nbits := by
      by_cases h : cc.code.nbits > idx
      · rw [if_pos h]
      · rw [if_neg h]
        omega
    have hccM : cc.code.nbits ≤ M := hM cc (List.mem_cons_self cc rest)
    have hlen1 : cc.code.nbits < d.length := by omega
    have hlen2 : M + 1 + i < d.length := by
      have : (cc :: rest).length = rest.length + 1 := rfl
      omega
    rw [encodeAlphabetLoop_cons, hidx']
    have hd2len : ((d.set cc.code.nbits ((d.getD cc.code.nbits 0 + 1) % 256)).set
        (M + 1 + i) cc.c).length = d.length := by
      simp [List.length_set]
    have hd2j : ∀ j, j ≤ M →
        ((d.set cc.code.nbits ((d.getD cc.code.nbits 0 + 1) % 256)).set
          (M + 1 + i) cc.c).getD j 0 =
        if j = cc.code.nbits then (d.getD j 0 + 1) % 256 else d.getD j 0 := by
      intro j hj
      rw [getD_set_ne' _ _ j _ _ (by omega)]
      by_cases hje : j = cc.code.nbits
      · subst hje
        rw [if_pos rfl, getD_set_eq' _ _ _ _ hlen1]
      · rw [if_neg hje, getD_set_ne' _ _ j _ _ (fun h => hje h.symm)]
    obtain ⟨ih1, ih2, ih3, ih4⟩ := ih cc.code.nbits (i + 1)
      ((d.set cc.code.nbits ((d.getD cc.code.nbits 0 + 1) % 256)).set (M + 1 + i) cc.c)
      (by simpa using hchain.tail)
      (fun x hx => hM x (List.mem_cons_of_mem cc hx))
      (by rw [hd2len]; have : (cc :: rest).length = rest.length + 1 := rfl; omega)
      (by
        intro j hj
        rw [hd2j j hj]
        by_cases hje : j = cc.code.nbits
        · rw [if_pos hje]
          exact Nat.mod_lt _ (by omega)
        · rw [if_neg hje]
          exact h256 j hj)
    refine ⟨by rw [ih1, hd2len], ?_, ?_, ?_⟩
    · intro j hj
      rw [ih2 j hj, hd2j j hj, List.countP_cons]
      by_cases hje : j = cc.code.nbits
      · rw [if_pos hje]
        have hbeq : (cc.code.nbits == j) = true := by
          rw [hje]
          exact beq_self_eq_true _
        show ((d.getD j 0 + 1) % 256 + List.countP _ rest) % 256 = _
        rw [Nat.mod_add_mod]
        show _ = (d.getD j 0 + (List.countP _ rest + if (cc.code.nbits == j) = true then 1
          else 0)) % 256
        rw [if_pos hbeq]
        congr 1
        omega
      · rw [if_neg hje]
        have hbeq : (cc.code.nbits == j) = false :=
          beq_eq_false_iff_ne.mpr (fun h => hje h.symm)
        show (d.getD j 0 + List.countP _ rest) % 256 = _
        show _ = (d.getD j 0 + (List.countP _ rest + if (cc.code.nbits == j) = true then 1
          else 0)) % 256
        rw [hbeq]
        norm_num
    · intro pos hpos1 hpos2
      rw [ih3 pos hpos1 (by omega), getD_set_ne' _ _ pos _ _ (by omega),
        getD_set_ne' _ _ pos _ _ (by omega)]
    · intro k hk
      cases k with
      | zero =>
        have h0 := ih3 (M + 1 + i) (by omega) (by omega)
        have h1 : ((d.set cc.code.nbits ((d.getD cc.code.nbits 0 + 1) % 256)).set
            (M + 1 + i) cc.c).getD (M + 1 + i) 0 = cc.c :=
          getD_set_eq' _ _ _ _ (by rw [List.length_set]; omega)
        have h2 : ((cc :: rest).getD 0 dflCC).c = cc.c := by
          rw [List.getD_cons_zero]
        exact (h0.trans h1).trans h2.symm
      | succ k =>
        have hk' : k < rest.length := by
          have : (cc :: rest).length = rest.length + 1 := rfl
          omega
        have hidxeq : M + 1 + i + (k + 1) = M + 1 + (i + 1) + k := by omega
        rw [hidxeq, ih4 k hk', List.getD_cons_succ]

theorem sum_map_add {α : Type} (f g : α → Nat) : ∀ l : List α,
    (l.map fun x => f x + g x).sum = (l.map f).sum + (l.map g).sum := by
  intro l
  induction l with
  | nil => rfl
  | cons x l ih =>
    simp only [List.map_cons, List.sum_cons, ih]
    omega

theorem sum_range_indicator (v : Nat) (h1 : 1 ≤ v) :
    ∀ L : Nat, v ≤ L →
      ((List.range L).map fun j => if v == j + 1 then 1 else 0).sum = 1 := by
  intro L
  induction L with
  | zero => intro h; omega
  | succ L ih =>
    intro hv
    rw [List.range_succ, List.map_append, List.sum_append]
    by_cases hveq : v = L + 1
    · have hall : ((List.range L).map fun j => if v == j + 1 then 1 else 0).sum = 0 := by
        refine List.sum_eq_zero ?_
        intro x hx
        obtain ⟨j, hj, rfl⟩ := List.mem_map.mp hx
        have hjL := List.mem_range.mp hj
        rw [show (v == j + 1) = false from beq_eq_false_iff_ne.mpr (by omega)]
        rfl
      rw [hall]
      simp only [List.map_cons, List.map_nil, List.sum_cons, List.sum_nil]
      rw [show (v == L + 1) = true from beq_iff_eq.mpr hveq]
      simp
    · have hterm : (List.map (fun j => if v == j + 1 then 1 else 0) [L]).sum = 0 := by
        simp only [List.map_cons, List.map_nil, List.sum_cons, List.sum_nil]
        rw [show (v == L + 1) = false from beq_eq_false_iff_ne.mpr hveq]
        simp
      rw [hterm, ih (by omega), Nat.add_zero]

theorem countP_nbits_partition (L : Nat) :
    ∀ l : List CharCode, (∀ cc ∈ l, 1 ≤ cc.code.nbits ∧ cc.code.nbits ≤ L) →
      ((List.range L).map fun j => l.countP fun cc => cc.code.nbits == j + 1).sum =
        l.length := by
  intro l
  induction l with
  | nil =>
    intro _
    simp
  | cons cc rest ih =>
    intro hb
    have hx := hb cc (List.mem_cons_self cc rest)
    have h1 : ((List.range L).map fun j =>
        (cc :: rest).countP fun x => x.code.nbits == j + 1) =
        (List.range L).map fun j => ((rest.countP fun x => x.code.nbits == j + 1) +
          if cc.code.nbits == j + 1 then 1 else 0) := by
      refine List.map_congr_left ?_
      intro j _
      rw [List.countP_cons]
    rw [h1, sum_map_add, ih (fun x hx => hb x (List.mem_cons_of_mem _ hx)),
      sum_range_indicator cc.code.nbits hx.1 L hx.2]
    rw [List.length_cons]

/-- C5 (amended): for a nonempty alphabet of at most 64 distinct byte
values, the header is exactly `L + 1 + N` bytes (`L` the maximum canonical
code length, `N` the alphabet size), byte 0 holds `L`, byte `i` for
`1 ≤ i ≤ L` holds the number of symbols of code length `i` (the counts sum
to `N`), and bytes `L+1 .. L+N` hold the symbols in (code length
ascending, SIGNED char ascending) order — not ascending raw byte value as
the claim states. -/
theorem c5_header_layout (al : List CharCode) (hne : al ≠ [])
    (hnd : (al.map fun cc => cc.c).Nodup) (h256 : ∀ cc ∈ al, cc.c < 256)
    (h64 : al.length ≤ 64) :
    ∃ out : List CharCode,
      generate_huffman_code al = (0, out) ∧
      out.length = al.length ∧
      List.Pairwise nbitsOrder out ∧
      (∀ cc ∈ out, 1 ≤ cc.code.nbits ∧
        cc.code.nbits ≤ (out.getD (out.length - 1) dflCC).code.nbits) ∧
      (huffman_encode_alphabet out).1 = 0 ∧
      (huffman_encode_alphabet out).2.data.length =
        (out.getD (out.length - 1) dflCC).code.nbits + 1 + al.length ∧
      (huffman_encode_alphabet out).2.nbytes =
        (out.getD (out.length - 1) dflCC).code.nbits + 1 + al.length ∧
      (huffman_encode_alphabet out).2.data.getD 0 0 =
        (out.getD (out.length - 1) dflCC).code.nbits ∧
      (∀ j, 1 ≤ j → j ≤ (out.getD (out.length - 1) dflCC).code.nbits →
        (huffman_encode_alphabet out).2.data.getD j 0 =
          out.countP fun cc => cc.code.nbits == j) ∧
      ((List.range ((out.getD (out.length - 1) dflCC).code.nbits)).map fun j =>
        (huffman_encode_alphabet out).2.data.getD (j + 1) 0).sum = al.length ∧
      (∀ k, k < al.length →
        (huffman_encode_alphabet out).2.data.getD
          ((out.getD (out.length - 1) dflCC).code.nbits + 1 + k) 0 =
          (out.getD k dflCC).c) := by
  obtain ⟨sorted, hgc, hslen, hsperm, hspair, hsbnd, hsbytes, hskraft⟩ :=
    sorted_stage al hne hnd h64
  obtain ⟨vals, hvlen, holen, hfields, hconsec, hstrict⟩ :=
    transform_canonical_spec sorted hspair hsbnd hsbytes hskraft
  set out := transform_to_canonical_code sorted with hout
  have houtlen : out.length = al.length := by omega
  have hallen : 0 < al.length := List.length_pos.mpr hne
  have houtne : out ≠ [] := by
    intro h
    rw [h] at houtlen
    simp at houtlen
    omega
  -- per-index and per-member length facts about out
  have hON : ∀ k, k < sorted.length →
      (out.getD k dflCC).code.nbits = (sorted.getD k dflCC).code.nbits :=
    fun k hk => (hfields k hk).2.2.1
  have hsmem : ∀ k, k < sorted.length → (sorted.getD k dflCC) ∈ sorted := by
    intro k hk
    rw [getD_eq_getElem sorted dflCC k hk]
    exact List.getElem_mem hk
  have hmemfacts : ∀ cc ∈ out, 1 ≤ cc.code.nbits ∧ cc.code.nbits ≤ 63 := by
    intro cc hcc
    obtain ⟨k, hk, rfl⟩ := List.mem_iff_getElem.mp hcc
    have hks : k < sorted.length := by omega
    rw [← getD_eq_getElem out dflCC k hk, hON k hks]
    exact hsbnd _ (hsmem k hks)
  have houtpair : List.Pairwise nbitsOrder out := by
    rw [List.pairwise_iff_getElem]
    intro i j hi hj hij
    have his : i < sorted.length := by omega
    have hjs : j < sorted.length := by omega
    have hord : nbitsOrder (sorted.getD i dflCC) (sorted.getD j dflCC) := by
      rw [getD_eq_getElem sorted dflCC i his, getD_eq_getElem sorted dflCC j hjs]
      exact List.pairwise_iff_getElem.mp hspair i j his hjs hij
    refine nbitsOrder_congr ?_ ?_ ?_ ?_ hord
    · rw [← getD_eq_getElem out dflCC i hi]
      exact (hfields i his).1
    · rw [← getD_eq_getElem out dflCC i hi]
      exact hON i his
    · rw [← getD_eq_getElem out dflCC j hj]
      exact (hfields j hjs).1
    · rw [← getD_eq_getElem out dflCC j hj]
      exact hON j hjs
  -- the maximum length is the last entry's
  have hmax : ∀ cc ∈ out, cc.code.nbits ≤ (out.getD (out.length - 1) dflCC).code.nbits := by
    intro cc hcc
    obtain ⟨k, hk, rfl⟩ := List.mem_iff_getElem.mp hcc
    rcases Nat.lt_or_ge k (out.length - 1) with hklt | hkge
    · have hord := List.pairwise_iff_getElem.mp houtpair k (out.length - 1) hk
        (by omega) hklt
      have := nbitsOrder_le_nbits hord
      rw [← getD_eq_getElem out dflCC k hk,
        ← getD_eq_getElem out dflCC (out.length - 1) (by omega)] at this
      rw [← getD_eq_getElem out dflCC k hk]
      exact this
    · have hkeq : k = out.length - 1 := by omega
      subst hkeq
      rw [← getD_eq_getElem out dflCC (out.length - 1) hk]
  have hLmem : (out.getD (out.length - 1) dflCC) ∈ out := by
    rw [getD_eq_getElem out dflCC (out.length - 1) (by omega)]
    exact List.getElem_mem (by omega)
  have hL1 : 1 ≤ (out.getD (out.length - 1) dflCC).code.nbits := (hmemfacts _ hLmem).1
  have hL63 : (out.getD (out.length - 1) dflCC).code.nbits ≤ 63 := (hmemfacts _ hLmem).2
  -- the header computation
  have hea : huffman_encode_alphabet out = (0,
      ⟨encodeAlphabetLoop ((out.getD (out.length - 1) dflCC).code.nbits) out 1 0
        ((List.replicate ((out.getD (out.length - 1) dflCC).code.nbits + 1 + out.length)
          0).set 0 ((out.getD (out.length - 1) dflCC).code.nbits % 256)),
       ((out.getD (out.length - 1) dflCC).code.nbits + 1 + out.length) * CHAR_BIT,
       (out.getD (out.length - 1) dflCC).code.nbits + 1 + out.length⟩) := rfl
  have hd0len : (((List.replicate ((out.getD (out.length - 1) dflCC).code.nbits + 1 +
      out.length) 0).set 0 ((out.getD (out.length - 1) dflCC).code.nbits % 256))).length =
      (out.getD (out.length - 1) dflCC).code.nbits + 1 + out.length := by
    rw [List.length_set, List.length_replicate]
  have hchain : List.Chain' (· ≤ ·) (1 :: out.map fun cc => cc.code.nbits) := by
    have hpw : List.Pairwise (· ≤ ·) (out.map fun cc => cc.code.nbits) :=
      List.Pairwise.map _ (fun a b hab => nbitsOrder_le_nbits hab) houtpair
    cases hc : out with
    | nil => exact absurd hc houtne
    | cons c0 tlo =>
      rw [hc, List.map_cons] at hpw
      rw [List.map_cons]
      refine List.chain'_cons.mpr ⟨?_, hpw.chain'⟩
      have hm : c0 ∈ out := by rw [hc]; exact List.mem_cons_self _ _
      exact (hmemfacts c0 hm).1
  have hd0small : ∀ j, j ≤ (out.getD (out.length - 1) dflCC).code.nbits →
      (((List.replicate ((out.getD (out.length - 1) dflCC).code.nbits + 1 +
        out.length) 0).set 0
          ((out.getD (out.length - 1) dflCC).code.nbits % 256))).getD j 0 < 256 := by
    intro j hj
    by_cases hj0 : j = 0
    · subst hj0
      rw [getD_set_eq' _ _ _ _ (by rw [List.length_replicate]; omega)]
      exact Nat.mod_lt _ (by omega)
    · rw [getD_set_ne' _ _ j _ _ (fun h => hj0 h.symm), getD_replicate_zero]
      omega
  obtain ⟨hsp1, hsp2, hsp3, hsp4⟩ := encodeAlphabetLoop_spec
    ((out.getD (out.length - 1) dflCC).code.nbits) out 1 0
    ((List.replicate ((out.getD (out.length - 1) dflCC).code.nbits + 1 + out.length)
      0).set 0 ((out.getD (out.length - 1) dflCC).code.nbits % 256))
    hchain hmax (by rw [hd0len]) hd0small
  have hgetD0 : (((List.replicate ((out.getD (out.length - 1) dflCC).code.nbits + 1 +
      out.length) 0).set 0 ((out.getD (out.length - 1) dflCC).code.nbits % 256))).getD 0 0 =
      (out.getD (out.length - 1) dflCC).code.nbits % 256 :=
    getD_set_eq' _ _ _ _ (by rw [List.length_replicate]; omega)
  refine ⟨out, hgc, houtlen, houtpair,
    fun cc hcc => ⟨(hmemfacts cc hcc).1, hmax cc hcc⟩, by rw [hea], ?_, ?_, ?_,
    ?_, ?_, ?_⟩
  · show (huffman_encode_alphabet out).2.data.length = _
    rw [hea]
    show (encodeAlphabetLoop _ out 1 0 _).length = _
    rw [hsp1, hd0len, houtlen]
  · show (huffman_encode_alphabet out).2.nbytes = _
    rw [hea]
    show (out.getD (out.length - 1) dflCC).code.nbits + 1 + out.length = _
    rw [houtlen]
  · -- byte 0 holds L
    show (huffman_encode_alphabet out).2.data.getD 0 0 = _
    rw [hea]
    show (encodeAlphabetLoop _ out 1 0 _).getD 0 0 = _
    rw [hsp2 0 (by omega), hgetD0]
    have hz : (out.countP fun cc => cc.code.nbits == 0) = 0 := by
      rw [List.countP_eq_zero]
      intro cc hcc
      have := (hmemfacts cc hcc).1
      intro hb
      have := beq_iff_eq.mp hb
      omega
    rw [hz, Nat.add_zero]
    omega
  · -- the count bytes
    intro j hj1 hjL
    show (huffman_encode_alphabet out).2.data.getD j 0 = _
    rw [hea]
    show (encodeAlphabetLoop _ out 1 0 _).getD j 0 = _
    rw [hsp2 j (by omega), getD_set_ne' _ _ j _ _ (by omega), getD_replicate_zero,
      Nat.zero_add]
    exact Nat.mod_eq_of_lt (by
      have := List.countP_le_length (p := fun cc => cc.code.nbits == j) (l := out)
      omega)
  · -- the counts sum to N
    have hcong : ((List.range ((out.getD (out.length - 1) dflCC).code.nbits)).map fun j =>
        (huffman_encode_alphabet out).2.data.getD (j + 1) 0) =
        (List.range ((out.getD (out.length - 1) dflCC).code.nbits)).map fun j =>
          out.countP fun cc => cc.code.nbits == j + 1 := by
      refine List.map_congr_left ?_
      intro j hj
      have hjr := List.mem_range.mp hj
      rw [hea]
      show (encodeAlphabetLoop _ out 1 0 _).getD (j + 1) 0 = _
      rw [hsp2 (j + 1) (by omega), getD_set_ne' _ _ (j + 1) _ _ (by omega),
        getD_replicate_zero, Nat.zero_add]
      exact Nat.mod_eq_of_lt (by
        have := List.countP_le_length (p := fun cc => cc.code.nbits == (j + 1)) (l := out)
        omega)
    rw [hcong, countP_nbits_partition _ out
      (fun cc hcc => ⟨(hmemfacts cc hcc).1, hmax cc hcc⟩), houtlen]
  · -- the symbol bytes
    intro k hk
    show (huffman_encode_alphabet out).2.data.getD _ 0 = _
    rw [hea]
    show (encodeAlphabetLoop _ out 1 0 _).getD _ 0 = _
    have := hsp4 k (by omega)
    exact this

/-- C5 counterexample: for the input bytes `[200, 65]` the header is
`[1, 2, 200, 65]` — the two symbols both have 1-bit codes and the symbol
section lists 200 before 65, i.e. by ascending SIGNED char, not by the
ascending raw byte value the claim states (that would be `[..., 65, 200]`). -/
theorem c5_counterexample :
    (huffman_encode_alphabet (generate_huffman_code (build_alphabet [200, 65])).2).2.data =
      [1, 2, 200, 65] := by decide

/-- Witness for the C5 theorem at the alphabet of the input "ab". -/
theorem c5_witness :
    (build_alphabet [97, 98] ≠ [] ∧
      ((build_alphabet [97, 98]).map fun cc => cc.c).Nodup ∧
      (∀ cc ∈ build_alphabet [97, 98], cc.c < 256) ∧
      (build_alphabet [97, 98]).length ≤ 64) ∧
    (∃ out : List CharCode,
      generate_huffman_code (build_alphabet [97, 98]) = (0, out) ∧
      out.length = (build_alphabet [97, 98]).length ∧
      List.Pairwise nbitsOrder out ∧
      (∀ cc ∈ out, 1 ≤ cc.code.nbits ∧
        cc.code.nbits ≤ (out.getD (out.length - 1) dflCC).code.nbits) ∧
      (huffman_encode_alphabet out).1 = 0 ∧
      (huffman_encode_alphabet out).2.data.length =
        (out.getD (out.length - 1) dflCC).code.nbits + 1 +
          (build_alphabet [97, 98]).length ∧
      (huffman_encode_alphabet out).2.nbytes =
        (out.getD (out.length - 1) dflCC).code.nbits + 1 +
          (build_alphabet [97, 98]).length ∧
      (huffman_encode_alphabet out).2.data.getD 0 0 =
        (out.getD (out.length - 1) dflCC).code.nbits ∧
      (∀ j, 1 ≤ j → j ≤ (out.getD (out.length - 1) dflCC).code.nbits →
        (huffman_encode_alphabet out).2.data.getD j 0 =
          out.countP fun cc => cc.code.nbits == j) ∧
      ((List.range ((out.getD (out.length - 1) dflCC).code.nbits)).map fun j =>
        (huffman_encode_alphabet out).2.data.getD (j + 1) 0).sum =
          (build_alphabet [97, 98]).length ∧
      (∀ k, k < (build_alphabet [97, 98]).length →
        (huffman_encode_alphabet out).2.data.getD
          ((out.getD (out.length - 1) dflCC).code.nbits + 1 + k) 0 =
          (out.getD k dflCC).c)) :=
  ⟨⟨by decide, by decide, by decide, by decide⟩,
    c5_header_layout (build_alphabet [97, 98]) (by decide) (by decide) (by decide)
      (by decide)⟩

end Huff
